import Mathlib

/-!
Verification of the network-robustness core of the `social` repository
(`backend/app/attacks.py`, `backend/app/defense.py`, `backend/app/metrics.py`).

The Python code operates on `networkx` graphs whose nodes are opaque hashable
identifiers; we model node identifiers as natural numbers.  A graph is a node
list together with an edge list, mirroring the insertion-ordered node and edge
sets of a `networkx.Graph`.  External effects are modelled explicitly:
* numpy's globally seeded random generator (`np.random.seed` / `np.random.choice`)
  is threaded as an explicit state of an abstract type, with the seeding and
  sampling functions taken as parameters;
* `random.Random(seed)` streams are taken as oracle parameters;
* library calls that may raise (`nx.diameter`, `nx.pagerank`,
  `nx.betweenness_centrality`, `scipy.splu`) are modelled as `Except`-valued
  oracles, so the `try/except` structure of the source is explicit.

Floating-point quantities (fractions, normalized component sizes, means)
are modelled over `ℚ`; matrix computations of the effective-resistance
defense are modelled over `ℝ`.
-/

set_option maxRecDepth 4000

namespace Social

/-- Model of a `networkx.Graph`: insertion-ordered node list and edge list.
Nodes are opaque identifiers modelled as `Nat`. -/
structure Graph where
  nodes : List Nat
  edges : List (Nat × Nat)
deriving DecidableEq, Repr

/-- Canonical unordered pair `(u, v) if u <= v else (v, u)`. -/
def canonPair (u v : Nat) : Nat × Nat := if u ≤ v then (u, v) else (v, u)

namespace Graph

/-- Well-formedness of a `networkx` graph: distinct nodes, edge endpoints are
nodes, no self-loops, and no duplicate edges (in either orientation). -/
def Wf (G : Graph) : Prop :=
  G.nodes.Nodup ∧
  (∀ e ∈ G.edges, e.1 ∈ G.nodes ∧ e.2 ∈ G.nodes ∧ e.1 ≠ e.2) ∧
  (G.edges.map (fun e => canonPair e.1 e.2)).Nodup

instance : DecidablePred Wf := fun G => by
  unfold Wf; infer_instance

/-- `len(G)`: number of nodes. -/
def len (G : Graph) : Nat := G.nodes.length

/-- `G.has_edge(u, v)` for an undirected graph. -/
def hasEdge (G : Graph) (u v : Nat) : Bool :=
  (u, v) ∈ G.edges || (v, u) ∈ G.edges

/-- An edge record is incident to `u`. -/
def incident (u : Nat) (e : Nat × Nat) : Bool := e.1 = u || e.2 = u

/-- `G.degree(u)`: number of incident edges (graphs are loop-free). -/
def degree (G : Graph) (u : Nat) : Nat := G.edges.countP (incident u)

/-- `dict(G.degree())` in iteration order: one `(node, degree)` pair per node. -/
def degreeItems (G : Graph) : List (Nat × Nat) :=
  G.nodes.map (fun u => (u, G.degree u))

/-- `G.adj[u]` as a neighbor list (derived from the edge list). -/
def adjList (G : Graph) (u : Nat) : List Nat :=
  G.edges.filterMap (fun e =>
    if e.1 = u then some e.2 else if e.2 = u then some e.1 else none)

/-- `G.remove_node(v)`: drop the node and all incident edges. -/
def removeNode (G : Graph) (v : Nat) : Graph :=
  ⟨G.nodes.erase v, G.edges.filter (fun e => ¬(e.1 = v ∨ e.2 = v))⟩

/-- `G.remove_edge(u, v)`: drop the edge (stored in either orientation). -/
def removeEdge (G : Graph) (u v : Nat) : Graph :=
  ⟨G.nodes, G.edges.filter (fun e => ¬(e = (u, v) ∨ e = (v, u)))⟩

/-- `G.add_edge(u, v)`: no-op on the edge set when the edge exists
(`networkx` merely updates attributes); otherwise appends the edge and any
missing endpoint. -/
def addEdge (G : Graph) (u v : Nat) : Graph :=
  if G.hasEdge u v then G
  else
    let ns := if u ∈ G.nodes then G.nodes else G.nodes ++ [u]
    let ns := if v ∈ ns then ns else ns ++ [v]
    ⟨ns, G.edges ++ [(u, v)]⟩

/-- `G.number_of_edges()`. -/
def numberOfEdges (G : Graph) : Nat := G.edges.length

/-- `G.copy()`: in this value-level model a copy is the value itself; the
heap model of section `HeapModel` below tracks the allocation explicitly. -/
def copy (G : Graph) : Graph := G

end Graph

/-!  ### Python `max(items, key=lambda x: x[1])`

Python's `max` keeps the earliest item among those with the maximal key
(it replaces the current best only on a strictly greater key). -/

/-- `max(items, key=lambda x: x[1])[0]` over a nonempty association list:
the key of the first entry attaining the maximal value. -/
def firstMaxBy (items : List (Nat × Nat)) : Nat :=
  (items.foldl (fun best x => if x.2 > best.2 then x else best)
    (items.headD (0, 0))).1

/-- Rational-valued variant for PageRank / betweenness score dictionaries. -/
def firstMaxByQ (items : List (Nat × ℚ)) : Nat :=
  (items.foldl (fun best x => if x.2 > best.2 then x else best)
    (items.headD (0, 0))).1

/-!  ### `attacks.degree_targeted_attack` -/

/-- Loop body of `degree_targeted_attack`, iterated `min k len(G)` times:
state is `(removed, G_copy)`. -/
def degreeAttackStep (adaptive : Bool) : Nat → (List Nat × Graph) → List Nat × Graph
  | 0, st => st
  | fuel + 1, (removed, gc) =>
    if gc.len = 0 then (removed, gc)
    else
      let degrees := gc.degreeItems
      if degrees.isEmpty then (removed, gc)
      else
        let target := firstMaxBy degrees
        let removed := removed ++ [target]
        let gc := if adaptive then gc.removeNode target else gc
        degreeAttackStep adaptive fuel (removed, gc)

/-- `attacks.degree_targeted_attack(G, k, adaptive)`: repeatedly select the
currently highest-degree node of the working copy; remove it from the working
copy only when `adaptive` is true. -/
def degree_targeted_attack (G : Graph) (k : Nat) (adaptive : Bool) : List Nat :=
  (degreeAttackStep adaptive (min k G.len) ([], G.copy)).1

/-!  ### `metrics`: largest component, normalized size, diameter

Connected components are computed by an iterated-frontier closure; `fuel`
iterations of the expansion step over a graph with `fuel` nodes reach the
full reachable set. -/

/-- One closure step: a set together with all neighbors of its members. -/
def reachStep (adj : Nat → Finset Nat) (s : Finset Nat) : Finset Nat :=
  s ∪ s.biUnion adj

/-- Iterated closure step. -/
def reachIter (adj : Nat → Finset Nat) : Nat → Finset Nat → Finset Nat
  | 0, s => s
  | fuel + 1, s => reachIter adj fuel (reachStep adj s)

/-- Nodes reachable from `v` (with sufficient fuel). -/
def reachSet (adj : Nat → Finset Nat) (fuel v : Nat) : Finset Nat :=
  reachIter adj fuel {v}

namespace Graph

/-- `G.adj[u]` as a finite set. -/
def adjFinset (G : Graph) (u : Nat) : Finset Nat := (G.adjList u).toFinset

/-- `nx.connected_components(G)`: components in order of first discovery
along the node list. -/
def componentsAux (G : Graph) : List Nat → Finset Nat → List (Finset Nat)
  | [], _ => []
  | v :: rest, seen =>
    if v ∈ seen then componentsAux G rest seen
    else
      let c := reachSet G.adjFinset G.len v
      c :: componentsAux G rest (seen ∪ c)

/-- `list(nx.connected_components(G))`. -/
def connectedComponents (G : Graph) : List (Finset Nat) :=
  componentsAux G G.nodes ∅

/-- `max(components, key=len)`: Python's `max` keeps the earliest maximal
element. -/
def maxByCardFirst (l : List (Finset Nat)) : Finset Nat :=
  l.foldl (fun best c => if c.card > best.card then c else best) (l.headD ∅)

/-- `metrics._largest_component_nodes` for the undirected graphs used by
this repository: empty set on the empty graph, else the largest connected
component. -/
def largestComponentNodes (G : Graph) : Finset Nat :=
  if G.len = 0 then ∅ else maxByCardFirst G.connectedComponents

/-- `metrics.get_lcc`. -/
def getLcc (G : Graph) : Finset Nat := G.largestComponentNodes

/-- `G.subgraph(s)`: induced subgraph, keeping the ambient node and edge
order (as `networkx` subgraph views do). -/
def subgraphOn (G : Graph) (s : Finset Nat) : Graph :=
  ⟨G.nodes.filter (fun v => v ∈ s),
   G.edges.filter (fun e => e.1 ∈ s ∧ e.2 ∈ s)⟩

end Graph

/-- `metrics.diameter`: diameter of the largest component; `0.0` when that
component has fewer than 2 nodes, and `0.0` when the underlying
`nx.diameter` call (modelled by the oracle `nxDiam`) raises. -/
def diameter (nxDiam : Graph → Except Unit Nat) (G : Graph) : ℚ :=
  let nodes := G.largestComponentNodes
  if nodes.card < 2 then 0
  else
    match nxDiam (G.subgraphOn nodes) with
    | .ok d => (d : ℚ)
    | .error _ => 0

/-!  ### `attacks.simulate_attack` and the remaining strategies -/

/-- Python `int(q)`: truncation toward zero. -/
def intTrunc (q : ℚ) : Int := if 0 ≤ q then ⌊q⌋ else ⌈q⌉

/-- Default fraction ladder `[round(i*0.05, 2) for i in range(11)]`. -/
def defaultFractions : List ℚ := (List.range 11).map (fun i => (i : ℚ) / 20)

/-- `np.mean` of a nonempty list (exact, over `ℚ`). -/
def mean (l : List ℚ) : ℚ := l.sum / l.length

/-- `len(lcc_nodes) / N0 if N0 > 0 else 0.0`. -/
def lccNormOf (N0 : Nat) (g : Graph) : ℚ :=
  if 0 < N0 then (g.getLcc.card : ℚ) / N0 else 0

/-- One robustness-curve sample: `(fraction, relative LCC size, diameter)`
together with the value of the internal `current_removed` counter after the
sample, which instruments the monotone-removal property. -/
abbrev Sample := ℚ × ℚ × ℚ × Nat

/-- Output dictionary of `simulate_attack`. -/
structure SimResult where
  fraction_removed : List ℚ
  relative_lcc_size : List ℚ
  diameter : List ℚ
deriving DecidableEq, Repr

section AttackSim

variable {NpState : Type}
variable (npSeed : Nat → NpState)
variable (npChoice : NpState → List Nat → Nat → List Nat × NpState)
variable (nxDiam : Graph → Except Unit Nat)
variable (prO : Graph → Except Unit (List (Nat × ℚ)))
variable (btO : Graph → Option Nat → Except Unit (List (Nat × ℚ)))

/-- `attacks.random_attack`: seed numpy's global generator when a seed is
given, then sample `min k n` nodes without replacement.  `npSeed` and
`npChoice` model `np.random.seed` and `np.random.choice` on an abstract
generator state. -/
def random_attack (st : NpState) (G : Graph) (k : Nat) (seed : Option Nat) :
    List Nat × NpState :=
  let st := match seed with
    | some s => npSeed s
    | none => st
  if G.nodes.length = 0 then ([], st)
  else npChoice st G.nodes (min k G.nodes.length)

/-- Loop body of `pagerank_targeted_attack`; `prO` models `nx.pagerank`
(raising modelled by `Except.error`, upon which the degree dictionary is the
fallback ranking). -/
def pagerankAttackStep (adaptive : Bool) :
    Nat → (List Nat × Graph) → List Nat × Graph
  | 0, st => st
  | fuel + 1, (removed, gc) =>
    if gc.len = 0 then (removed, gc)
    else
      let pr := match prO gc with
        | .ok pr => pr
        | .error _ => gc.degreeItems.map (fun x => (x.1, (x.2 : ℚ)))
      if pr.isEmpty then (removed, gc)
      else
        let target := firstMaxByQ pr
        pagerankAttackStep adaptive fuel
          (removed ++ [target], if adaptive then gc.removeNode target else gc)

/-- `attacks.pagerank_targeted_attack`. -/
def pagerank_targeted_attack (G : Graph) (k : Nat) (adaptive : Bool) : List Nat :=
  (pagerankAttackStep prO adaptive (min k G.len) ([], G.copy)).1

/-- Loop body of `betweenness_targeted_attack`; `btO` models
`nx.betweenness_centrality` (second argument: the sample size `k` used for
graphs above 100 nodes, `none` for the exact call); an exception breaks the
loop. -/
def betweennessAttackStep (adaptive : Bool) :
    Nat → (List Nat × Graph) → List Nat × Graph
  | 0, st => st
  | fuel + 1, (removed, gc) =>
    if gc.len < 2 then (removed, gc)
    else
      let karg := if gc.len > 100 then some (min 100 gc.len) else none
      match btO gc karg with
      | .error _ => (removed, gc)
      | .ok bt =>
        if bt.isEmpty then (removed, gc)
        else
          let target := firstMaxByQ bt
          betweennessAttackStep adaptive fuel
            (removed ++ [target], if adaptive then gc.removeNode target else gc)

/-- `attacks.betweenness_targeted_attack`. -/
def betweenness_targeted_attack (G : Graph) (k : Nat) (adaptive : Bool) : List Nat :=
  (betweennessAttackStep btO adaptive (min k G.len) ([], G.copy)).1

end AttackSim

/-- The inner removal loop of `simulate_attack`: pop pre-selected nodes and
remove those still present until `current_removed` reaches the target. -/
def removeUpTo (tgt : Nat) : Graph → Nat → List Nat → Graph × Nat × List Nat
  | gc, cnt, [] => (gc, cnt, [])
  | gc, cnt, node :: rest =>
    if cnt < tgt then
      if node ∈ gc.nodes then removeUpTo tgt (gc.removeNode node) (cnt + 1) rest
      else removeUpTo tgt gc cnt rest
    else (gc, cnt, node :: rest)

/-- The per-fraction sampling sweep of `simulate_attack` for one run:
state is `(G_copy, current_removed, pending removal order)`. -/
def sweepAux (nxDiam : Graph → Except Unit Nat) (N0 : Nat) :
    List ℚ → Graph × Nat × List Nat → List Sample
  | [], _ => []
  | f :: fs, (gc, cnt, pending) =>
    let tgt := (intTrunc (f * N0)).toNat
    let st' := removeUpTo tgt gc cnt pending
    (f, lccNormOf N0 st'.1, diameter nxDiam st'.1, st'.2.1) ::
      sweepAux nxDiam N0 fs st'

section AttackSim

variable {NpState : Type}
variable (npSeed : Nat → NpState)
variable (npChoice : NpState → List Nat → Nat → List Nat × NpState)
variable (nxDiam : Graph → Except Unit Nat)
variable (prO : Graph → Except Unit (List (Nat × ℚ)))
variable (btO : Graph → Option Nat → Except Unit (List (Nat × ℚ)))

/-- The averaged multi-run branch of `simulate_attack` (`random_attack` with
`n_runs > 1`): one freshly seeded (`seed + run`) removal ordering per run,
threading numpy's generator state across runs; returns the per-run sample
lists. -/
def multiRunStep (G : Graph) (N0 : Nat) (fractions : List ℚ)
    (seed : Option Nat) (acc : List (List Sample) × NpState) (run : Nat) :
    List (List Sample) × NpState :=
  let run_seed := seed.map (fun s => s + run)
  let G_copy := G.copy
  let r := random_attack npSeed npChoice acc.2 G_copy N0 run_seed
  let samples := sweepAux nxDiam N0 fractions (G_copy, 0, r.1)
  (acc.1 ++ [samples], r.2)

def multiRun (G : Graph) (N0 : Nat) (fractions : List ℚ) (seed : Option Nat)
    (n_runs : Nat) (st : NpState) : List (List Sample) × NpState :=
  (List.range n_runs).foldl
    (multiRunStep npSeed npChoice nxDiam G N0 fractions seed) ([], st)

/-- All recorded values for the dictionary key `f` (the source keys its
accumulators `all_lcc` / `all_diameter` by fraction value), in run-major
order, projected by `proj`. -/
def valsAt (runs : List (List Sample)) (proj : Sample → ℚ) (f : ℚ) : List ℚ :=
  runs.flatMap (fun samples => (samples.filter (fun s => s.1 = f)).map proj)

/-- Pre-selection of the full removal ordering by strategy name (the
single-run branch of `simulate_attack`); unknown names yield `[]`. -/
def selectOrder (st : NpState) (G_copy : Graph) (original_size : Nat)
    (strategy : String) (seed : Option Nat) : List Nat × NpState :=
  if strategy = "random_attack" then
    random_attack npSeed npChoice st G_copy original_size seed
  else if strategy = "degree_targeted_attack" then
    (degree_targeted_attack G_copy original_size true, st)
  else if strategy = "pagerank_targeted_attack" then
    (pagerank_targeted_attack prO G_copy original_size true, st)
  else if strategy = "betweenness_targeted_attack" then
    (betweenness_targeted_attack btO G_copy original_size true, st)
  else ([], st)

/-- `attacks.simulate_attack`: empty output on the empty graph; otherwise
either the averaged multi-run random branch or a single pre-selected-order
sweep.  Also returns numpy's final generator state. -/
def simulate_attack (st : NpState) (G : Graph) (strategy : String)
    (fractionsArg : Option (List ℚ)) (n_runs : Nat) (seed : Option Nat) :
    SimResult × NpState :=
  if G.len = 0 then (⟨[], [], []⟩, st)
  else
    let fractions := fractionsArg.getD defaultFractions
    let original_size := G.len
    let N0 := original_size
    if strategy = "random_attack" ∧ 1 < n_runs then
      let mr := multiRun npSeed npChoice nxDiam G N0 fractions seed n_runs st
      (⟨fractions,
        fractions.map (fun f => mean (valsAt mr.1 (fun s => s.2.1) f)),
        fractions.map (fun f => mean (valsAt mr.1 (fun s => s.2.2.1) f))⟩,
       mr.2)
    else
      let sel := selectOrder npSeed npChoice prO btO st G.copy original_size
        strategy seed
      let samples := sweepAux nxDiam N0 fractions (G.copy, 0, sel.1)
      (⟨samples.map (fun s => s.1),
        samples.map (fun s => s.2.1),
        samples.map (fun s => s.2.2.1)⟩,
       sel.2)

/-- Observer: the `current_removed` traces of `simulate_attack`, one list
per working copy (one per run in the averaged branch), computed from the
same sweeps as `simulate_attack` itself. -/
def simulateTraces (st : NpState) (G : Graph) (strategy : String)
    (fractionsArg : Option (List ℚ)) (n_runs : Nat) (seed : Option Nat) :
    List (List Nat) :=
  if G.len = 0 then []
  else
    let fractions := fractionsArg.getD defaultFractions
    let original_size := G.len
    let N0 := original_size
    if strategy = "random_attack" ∧ 1 < n_runs then
      let mr := multiRun npSeed npChoice nxDiam G N0 fractions seed n_runs st
      mr.1.map (fun samples => samples.map (fun s => s.2.2.2))
    else
      let sel := selectOrder npSeed npChoice prO btO st G.copy original_size
        strategy seed
      [(sweepAux nxDiam N0 fractions (G.copy, 0, sel.1)).map (fun s => s.2.2.2)]

end AttackSim

/-!  ### `defense`: candidate sampling and TER-style edge addition

External effects are oracle parameters:
* `pyRandom seed i` models the `i`-th `rng.randrange` draw of
  `random.Random(seed)` (reduced modulo the bound at the call site);
* `geoDist u v` models `geo_dist_km` / `great_circle` (`none` for missing
  coordinates or a raised exception);
* `spluO H node_list` models `_build_grounded_laplacian_lu` followed by
  `effective_resistance` queries: on success it returns the query function
  `(u, v) ↦ R_eff(u, v)` (a query may itself raise); on `error` the LU
  factorization raised.  The exact linear algebra behind these queries is
  modelled separately (section `EffectiveResistance`). -/

/-- Provenance metadata of edges added by the defense. -/
inductive EdgeMeta where
  | terLike (reff : ℚ) (dist : Option ℚ)
  | simpleBackup
deriving DecidableEq, Repr

/-- Stable descending sort by a rational key (`sort(reverse=True, key=...)`
and `sorted(..., reverse=True)` are stable in Python). -/
def sortDescBy {α : Type} (key : α → ℚ) (l : List α) : List α :=
  l.mergeSort (fun a b => key b ≤ key a)

/-- Candidate-sampling loop of `defense.sample_candidate_edges`: state is
`(tries, existing canonical pairs, candidates)`; the fuel is the remaining
attempt budget `max_tries - tries`. -/
def sampleCandAux (rs : Nat → Nat) (geoDist : Nat → Nat → Option ℚ)
    (nodes : List Nat) (n max_candidates : Nat) (cap : Option ℚ) :
    Nat → Nat → List (Nat × Nat) → List (Nat × Nat × Option ℚ) →
    List (Nat × Nat × Option ℚ)
  | 0, _, _, cands => cands
  | fuel + 1, tries, existing, cands =>
    if cands.length < max_candidates then
      let u := nodes.getD (rs (2 * tries) % n) 0
      let v := nodes.getD (rs (2 * tries + 1) % n) 0
      let tries' := tries + 1
      if u = v then sampleCandAux rs geoDist nodes n max_candidates cap
        fuel tries' existing cands
      else
        let ab := canonPair u v
        if ab ∈ existing then sampleCandAux rs geoDist nodes n max_candidates cap
          fuel tries' existing cands
        else
          let d := geoDist u v
          if (match cap, d with
              | some mx, some dv => decide (mx < dv)
              | _, _ => false) then
            sampleCandAux rs geoDist nodes n max_candidates cap
              fuel tries' existing cands
          else
            sampleCandAux rs geoDist nodes n max_candidates cap
              fuel tries' (ab :: existing) (cands ++ [(u, v, d)])
    else cands

/-- `defense.sample_candidate_edges`. -/
def sample_candidate_edges (pyRandom : Nat → Nat → Nat)
    (geoDist : Nat → Nat → Option ℚ) (G : Graph) (max_candidates : Nat)
    (cap : Option ℚ) (seed : Nat) : List (Nat × Nat × Option ℚ) :=
  let nodes := G.nodes
  let n := nodes.length
  let existing := G.edges.map (fun e => canonPair e.1 e.2)
  sampleCandAux (pyRandom seed) geoDist nodes n max_candidates cap
    (max_candidates * 50) 0 existing []

/-- Inner hub-pairing loop of `defense.reinforce_graph_simple` for one
source hub. -/
def simpleInner (geoDist : Nat → Nat → Option ℚ) (cap : Option ℚ) (k : Nat)
    (existing : List (Nat × Nat)) (src : Nat) :
    List Nat → Graph → Nat → Graph × Nat
  | [], g, cnt => (g, cnt)
  | dst :: ds, g, cnt =>
    if k ≤ cnt then (g, cnt)
    else if canonPair src dst ∈ existing then
      simpleInner geoDist cap k existing src ds g cnt
    else
      match geoDist src dst, cap with
      | some dist, some mx =>
        if dist ≤ mx then
          simpleInner geoDist cap k existing src ds (g.addEdge src dst) (cnt + 1)
        else simpleInner geoDist cap k existing src ds g cnt
      | _, _ => simpleInner geoDist cap k existing src ds g cnt

/-- Outer hub loop of `defense.reinforce_graph_simple`. -/
def simpleOuter (geoDist : Nat → Nat → Option ℚ) (cap : Option ℚ) (k : Nat)
    (existing : List (Nat × Nat)) :
    List Nat → Graph → Nat → Graph
  | [], g, _ => g
  | src :: rest, g, cnt =>
    if k ≤ cnt then g
    else
      let r := simpleInner geoDist cap k existing src rest g cnt
      simpleOuter geoDist cap k existing rest r.1 r.2

/-- `defense.reinforce_graph_simple`: fallback defense pairing the top-`k`
degree hubs within the distance cap.  A `none` distance cap models the
`None` value the fallback call site passes, whose comparison raises and is
swallowed by the bare `except`. -/
def reinforce_graph_simple (geoDist : Nat → Nat → Option ℚ) (G : Graph)
    (k : Nat) (cap : Option ℚ) : Graph :=
  if G.len < 2 then G.copy
  else
    let degrees := G.degreeItems
    let top_hubs := (sortDescBy (fun x => (x.2 : ℚ)) degrees).take k
    let hub_ids := top_hubs.map (fun x => x.1)
    let existing := G.edges.map (fun e => canonPair e.1 e.2)
    simpleOuter geoDist cap k existing hub_ids G.copy 0

/-- `defense.add_edges_by_effective_resistance` (TER defense): restrict to
the largest component, factorize its grounded Laplacian, score sampled
candidate non-edges by effective resistance, and add the top-`k`. -/
def add_edges_by_effective_resistance (pyRandom : Nat → Nat → Nat)
    (geoDist : Nat → Nat → Option ℚ)
    (spluO : Graph → List Nat → Except Unit (Nat → Nat → Except Unit ℚ))
    (G : Graph) (k max_candidates : Nat) (cap : Option ℚ) (seed : Nat) :
    Graph × List (Nat × Nat × EdgeMeta) :=
  if G.len < 2 then (G.copy, [])
  else
    let lcc := G.largestComponentNodes
    let H := (G.subgraphOn lcc).copy
    let node_list := H.nodes
    match spluO H node_list with
    | .error _ =>
      let Hr := reinforce_graph_simple geoDist H k cap
      let added := (Hr.edges.filter (fun e => ¬ H.hasEdge e.1 e.2)).map
        (fun e => (e.1, e.2, EdgeMeta.simpleBackup))
      (Hr, added)
    | .ok reff =>
      let cand := sample_candidate_edges pyRandom geoDist H max_candidates
        cap seed
      let scored := cand.filterMap (fun c =>
        match reff c.1 c.2.1 with
        | .ok r => some (r, c.1, c.2.1, c.2.2)
        | .error _ => none)
      let sorted := sortDescBy (fun s => s.1) scored
      (sorted.take k).foldl
        (fun acc s =>
          (acc.1.addEdge s.2.1 s.2.2.1,
           acc.2 ++ [(s.2.1, s.2.2.1, EdgeMeta.terLike s.1 s.2.2.2)]))
        (H.copy, [])

/-!  ### `defense`: DSU, static-order robustness curve, Schneider optimizer -/

/-- Disjoint-set union with path compression and union by size
(`defense.DSU`): parallel parent and size arrays. -/
structure DSU where
  p : List Nat
  sz : List Nat
deriving DecidableEq, Repr

namespace DSU

/-- `DSU(n)`: `n` singleton components. -/
def init (n : Nat) : DSU := ⟨List.range n, List.replicate n 1⟩

/-- The `while p[a] != a: p[a] = p[p[a]]; a = p[a]` loop of `DSU.find`,
with explicit fuel (the DSU invariant proved below shows that fuel equal to
the array length always suffices, so the model agrees with the unbounded
source loop on every reachable state). -/
def findAux : Nat → List Nat → Nat → List Nat × Nat
  | 0, p, a => (p, a)
  | fuel + 1, p, a =>
    let pa := p.getD a a
    if pa = a then (p, a)
    else
      let ppa := p.getD pa pa
      findAux fuel (p.set a ppa) ppa

/-- `DSU.find(a)`: root of `a`, compressing the path. -/
def find (d : DSU) (a : Nat) : DSU × Nat :=
  let r := findAux d.p.length d.p a
  (⟨r.1, d.sz⟩, r.2)

/-- `DSU.union(a, b)`: union by size; returns the size of the resulting
component. -/
def union (d : DSU) (a b : Nat) : DSU × Nat :=
  let f1 := d.find a
  let pa := f1.2
  let f2 := f1.1.find b
  let pb := f2.2
  let d2 := f2.1
  if pa = pb then (d2, d2.sz.getD pa 0)
  else
    let pq := if d2.sz.getD pa 0 < d2.sz.getD pb 0 then (pb, pa) else (pa, pb)
    let d3 : DSU := ⟨d2.p.set pq.2 pq.1,
      d2.sz.set pq.1 (d2.sz.getD pq.1 0 + d2.sz.getD pq.2 0)⟩
    (d3, d3.sz.getD pq.1 0)

end DSU

/-- `np.trapz(curve, fracs)`: trapezoidal integration. -/
def trapzAux : List ℚ → List ℚ → ℚ
  | y1 :: y2 :: ys, x1 :: x2 :: xs => (x2 - x1) * (y1 + y2) / 2 + trapzAux (y2 :: ys) (x2 :: xs)
  | _, _ => 0

/-- `defense.R_index(fracs, curve)`. -/
def R_index (fracs curve : List ℚ) : ℚ := trapzAux curve fracs

/-- Lexicographic comparison of character lists (Python string `<=` on the
decimal representations used as sort tie-breaks). -/
def lexLe : List Char → List Char → Bool
  | [], _ => true
  | _ :: _, [] => false
  | a :: as, b :: bs => if a < b then true else if a = b then lexLe as bs else false

/-- Python `str(u) <= str(v)` for natural-number node identifiers. -/
def pyStrLe (a b : Nat) : Bool := lexLe (Nat.toDigits 10 a) (Nat.toDigits 10 b)

/-- `defense._static_order_by_degree`: nodes sorted by descending degree,
ties broken by the decimal string of the node id (Python's stable `sorted`
with key `(-degree, str(node))`). -/
def static_order_by_degree (G : Graph) : List Nat :=
  ((G.degreeItems).mergeSort (fun a b =>
    if a.2 = b.2 then pyStrLe a.1 b.1 else decide (b.2 < a.2))).map (fun x => x.1)

/-- `np.rint`: round half to even. -/
def rintQ (q : ℚ) : Int :=
  let fl := ⌊q⌋
  let r := q - fl
  if r < 1/2 then fl
  else if 1/2 < r then fl + 1
  else if 2 ∣ fl then fl else fl + 1

/-- `np.clip(np.rint(f * n), 0, n)` as a natural number. -/
def kOfFrac (n : Nat) (f : ℚ) : Nat := (max 0 (min (rintQ (f * n)) n)).toNat

/-- `node -> index` map built from `node_list` (the `idx` dictionary). -/
def idxOf (node_list : List Nat) (u : Nat) : Nat := node_list.indexOf u

/-- Inner loop of `lcc_curve_static_dsu`: union the just-activated node `iu`
with every already-active neighbor, tracking the running component-size
maximum (`dsu.union` returns the size of the merged component). -/
def unionNeighbors (active : List Bool) (iu : Nat) :
    List Nat → DSU → Nat → DSU × Nat
  | [], dsu, maxcc => (dsu, maxcc)
  | iv :: rest, dsu, maxcc =>
    if active.getD iv false then
      let r := dsu.union iu iv
      unionNeighbors active iu rest r.1 (max maxcc r.2)
    else unionNeighbors active iu rest dsu maxcc

/-- Add-back loop of `lcc_curve_static_dsu` over the reversed removal
order: state is `(active, dsu, max_cc, lcc_after_k)`; `t` is the 1-based
count of added-back nodes, so the entry for `n - t` removed nodes is
recorded at each step. -/
def lccCurveStep (G : Graph) (idx : Nat → Nat) (n : Nat) :
    List Nat → (List Bool × DSU × Nat × List Nat) → Nat →
    List Bool × DSU × Nat × List Nat
  | [], st, _ => st
  | u :: rest, (active, dsu, maxcc, table), t =>
    let iu := idx u
    let active' := active.set iu true
    let r := unionNeighbors active' iu ((G.adjList u).map idx) dsu maxcc
    let maxcc' := max r.2 1
    let table' := table.set (n - t) maxcc'
    lccCurveStep G idx n rest (active', r.1, maxcc', table') (t + 1)

/-- `defense.lcc_curve_static_dsu`: robustness curve `|LCC|/N0` of the
static-order removal, computed by adding nodes back in reverse order and
maintaining components in a DSU. -/
def lcc_curve_static_dsu (G : Graph) (fracs : List ℚ) (order : List Nat) :
    List ℚ :=
  let node_list := G.nodes
  let idx := idxOf node_list
  let n := node_list.length
  if n = 0 then fracs.map (fun _ => 0)
  else
    let active := List.replicate n false
    let dsu := DSU.init n
    let table0 := List.replicate (n + 1) 0
    let rev := order.reverse
    let fin := lccCurveStep G idx n rev (active, dsu, 0, table0) 1
    let table := fin.2.2.2
    fracs.map (fun f => (table.getD (kOfFrac n f) 0 : ℚ) / n)

/-- `defense.robustness_R_static_fast`. -/
def robustness_R_static_fast (G : Graph) (fracs : List ℚ) (order : List Nat) : ℚ :=
  R_index fracs (lcc_curve_static_dsu G fracs order)

/-- `np.linspace(0, 0.3, 21)`. -/
def defaultSchneiderFracs : List ℚ := (List.range 21).map (fun i => 3 * (i : ℚ) / 200)

/-- `score_degree_mixing` (closure inside `optimize_schneider_fast`):
change in summed absolute degree differences; negative means the swap moves
toward degree-assortative (onion-like) mixing. -/
def score_degree_mixing (deg : Nat → Nat) (e1 e2 ne1 ne2 : Nat × Nat) : Int :=
  let old := ((deg e1.1 : Int) - deg e1.2).natAbs + ((deg e2.1 : Int) - deg e2.2).natAbs
  let new := ((deg ne1.1 : Int) - deg ne1.2).natAbs + ((deg ne2.1 : Int) - deg ne2.2).natAbs
  (new : Int) - (old : Int)

/-- The two double-edge-swap recombinations of `(A-B, C-D)`:
`(A-C, B-D)` and `(A-D, B-C)`. -/
def swapVariants (e1 e2 : Nat × Nat) : List ((Nat × Nat) × (Nat × Nat)) :=
  [((e1.1, e2.1), (e1.2, e2.2)), ((e1.1, e2.2), (e1.2, e2.1))]

/-- Apply a double-edge swap: remove `e1, e2`, add `ne1, ne2`. -/
def applySwap (Gr : Graph) (e1 e2 ne1 ne2 : Nat × Nat) : Graph :=
  (((Gr.removeEdge e1.1 e1.2).removeEdge e2.1 e2.2).addEdge ne1.1 ne1.2).addEdge
    ne2.1 ne2.2

/-- Inner variant loop of a Schneider trial: try both recombinations,
skipping self-loops, existing edges, coinciding pairs, and (under
`prefilter`) non-improving degree mixing; each surviving variant costs one
robustness evaluation (the source applies the swap, evaluates, and reverts;
the model evaluates on the swapped graph).  Returns `(best_local, extra
R-evaluations)`. -/
def evalVariantStep (Gr : Graph) (fracs : List ℚ) (order : List Nat)
    (deg : Nat → Nat) (prefilter : Bool) (e1 e2 : Nat × Nat)
    (acc : Option (ℚ × (Nat × Nat) × (Nat × Nat)) × Nat)
    (v : (Nat × Nat) × (Nat × Nat)) :
    Option (ℚ × (Nat × Nat) × (Nat × Nat)) × Nat :=
  let ne1 := v.1
  let ne2 := v.2
  if ne1.1 = ne1.2 ∨ ne2.1 = ne2.2 then acc
  else if Gr.hasEdge ne1.1 ne1.2 ∨ Gr.hasEdge ne2.1 ne2.2 then acc
  else if ({ne1.1, ne1.2} : Finset Nat) = {ne2.1, ne2.2} then acc
  else if prefilter ∧ 0 ≤ score_degree_mixing deg e1 e2 ne1 ne2 then acc
  else
    let R_new := robustness_R_static_fast (applySwap Gr e1 e2 ne1 ne2)
      fracs order
    let best := match acc.1 with
      | none => some (R_new, ne1, ne2)
      | some b => if b.1 < R_new then some (R_new, ne1, ne2) else some b
    (best, acc.2 + 1)

def evalVariants (Gr : Graph) (fracs : List ℚ) (order : List Nat)
    (deg : Nat → Nat) (prefilter : Bool) (e1 e2 : Nat × Nat) :
    Option (ℚ × (Nat × Nat) × (Nat × Nat)) × Nat :=
  (swapVariants e1 e2).foldl
    (evalVariantStep Gr fracs order deg prefilter e1 e2) (none, 0)

/-- Validity facts guaranteed for any variant reported by `evalVariants`:
it is one of the two recombinations and passed the self-loop,
existing-edge, and distinct-pair checks against the unswapped graph. -/
def VariantOk (Gr : Graph) (e1 e2 ne1 ne2 : Nat × Nat) : Prop :=
  (ne1, ne2) ∈ swapVariants e1 e2 ∧ ne1.1 ≠ ne1.2 ∧ ne2.1 ≠ ne2.2 ∧
  Gr.hasEdge ne1.1 ne1.2 = false ∧ Gr.hasEdge ne2.1 ne2.2 = false ∧
  ({ne1.1, ne1.2} : Finset Nat) ≠ {ne2.1, ne2.2}

/-- Loop state of `optimize_schneider_fast`. -/
structure SchnState where
  Gr : Graph
  edges : List (Nat × Nat)
  R_best : ℚ
  accepted : Nat
  no_improve : Nat
  r_evals : Nat
  t : Nat
deriving DecidableEq, Repr

/-- Output `info` dictionary of `optimize_schneider_fast`. -/
structure SchneiderInfo where
  R_best_static : ℚ
  accepted_swaps : Nat
  trials_done : Nat
  R_evaluations : Nat
  stopped_by_patience : Bool
  fracs_points : Nat
  prefilter : Bool
deriving DecidableEq, Repr

/-- Trial loop of `optimize_schneider_fast`.  `rngPick t` models the two
`rng.sample(edges, 2)` position draws of trial `t` (reduced to a pair of
distinct in-range positions against the current edge list, as `sample`
guarantees). -/
def schneiderLoop (rngPick : Nat → Nat × Nat) (fracs : List ℚ)
    (order : List Nat) (deg : Nat → Nat) (prefilter : Bool) (patience : Nat)
    (min_delta_R : ℚ) : Nat → Nat → SchnState → SchnState
  | 0, _, st => st
  | fuel + 1, t, st =>
    let st := { st with t := t }
    if patience ≤ st.no_improve ∨ st.Gr.numberOfEdges < 2 then st
    else
      let len := st.edges.length
      let pick := rngPick t
      let i := pick.1 % len
      let j0 := pick.2 % (len - 1)
      let j := if i ≤ j0 then j0 + 1 else j0
      let e1 := st.edges.getD i (0, 0)
      let e2 := st.edges.getD j (0, 0)
      if ({e1.1, e1.2, e2.1, e2.2} : Finset Nat).card < 4 then
        schneiderLoop rngPick fracs order deg prefilter patience min_delta_R
          fuel (t + 1) { st with no_improve := st.no_improve + 1 }
      else
        let ev := evalVariants st.Gr fracs order deg prefilter e1 e2
        let st := { st with r_evals := st.r_evals + ev.2 }
        match ev.1 with
        | some best =>
          if st.R_best + min_delta_R < best.1 then
            let Gr' := applySwap st.Gr e1 e2 best.2.1 best.2.2
            schneiderLoop rngPick fracs order deg prefilter patience
              min_delta_R fuel (t + 1)
              ⟨Gr', Gr'.edges, best.1, st.accepted + 1, 0, st.r_evals, st.t⟩
          else
            schneiderLoop rngPick fracs order deg prefilter patience
              min_delta_R fuel (t + 1)
              { st with no_improve := st.no_improve + 1 }
        | none =>
          schneiderLoop rngPick fracs order deg prefilter patience
            min_delta_R fuel (t + 1)
            { st with no_improve := st.no_improve + 1 }

/-- `defense.optimize_schneider_fast`: randomized double-edge-swap
optimization of the static-order robustness index.  `pyRng seed t` models
the edge-pair draw of `random.Random(seed)` at trial `t`.  (For
`max_trials = 0` the source would raise a `NameError` on the unbound loop
variable; the model reports `trials_done = 0`.) -/
def optimize_schneider_fast (pyRng : Nat → Nat → Nat × Nat) (G : Graph)
    (fracsArg : Option (List ℚ)) (max_trials patience : Nat)
    (min_delta_R : ℚ) (seed : Nat) (prefilter : Bool) :
    Graph × SchneiderInfo :=
  let fracs := fracsArg.getD defaultSchneiderFracs
  let rngPick := pyRng seed
  let Gr := G.copy
  let order := static_order_by_degree Gr
  let deg := fun u => Gr.degree u
  let R0 := robustness_R_static_fast Gr fracs order
  let st0 : SchnState := ⟨Gr, Gr.edges, R0, 0, 0, 1, 0⟩
  let fin := schneiderLoop rngPick fracs order deg prefilter patience
    min_delta_R max_trials 1 st0
  (fin.Gr,
   ⟨fin.R_best, fin.accepted, fin.t, fin.r_evals,
    decide (patience ≤ fin.no_improve), fracs.length, prefilter⟩)

/-- Invariant of the Schneider trial loop relative to the initial graph:
the working graph stays well-formed, the cached edge list mirrors it, and
its node list and all node degrees are those of the initial graph. -/
def SchnInv (G : Graph) (st : SchnState) : Prop :=
  st.Gr.Wf ∧ st.edges = st.Gr.edges ∧ st.Gr.nodes = G.nodes ∧
  ∀ x, st.Gr.degree x = G.degree x

/-!  ### Heap model of graph objects (frame properties)

The pure embedding above is value-level; to state that the public entry
points never mutate the *caller's* graph object, this section re-embeds
them over an explicit object heap: graph objects live in a `Heap` (a list
of graph values addressed by allocation index), `G.copy()` allocates a
fresh object, and every `remove_node` / `remove_edge` / `add_edge` of the
source is an in-place write to the object it targets.  The temporary
swap-evaluate-revert of the optimizer is modelled as a write of the swapped
value followed by a write restoring the saved value. -/

/-- Object heap: graph objects addressed by allocation index. -/
abbrev Heap := List Graph

/-- Dereference (the empty graph for dangling references). -/
def hget (h : Heap) (r : Nat) : Graph := h.getD r ⟨[], []⟩

/-- In-place mutation of the object at `r`. -/
def hset (h : Heap) (r : Nat) (g : Graph) : Heap := h.set r g

/-- Allocation (`G.copy()` and friends): returns the new heap and the new
object's reference. -/
def halloc (h : Heap) (g : Graph) : Heap × Nat := (h ++ [g], h.length)

/-- Heap version of the inner removal loop of `simulate_attack`: removes
nodes in place on the working-copy object `rc`. -/
def heapRemoveUpTo (tgt rc : Nat) : Heap → Nat → List Nat → Heap × Nat × List Nat
  | h, cnt, [] => (h, cnt, [])
  | h, cnt, node :: rest =>
    if cnt < tgt then
      if node ∈ (hget h rc).nodes then
        heapRemoveUpTo tgt rc (hset h rc ((hget h rc).removeNode node))
          (cnt + 1) rest
      else heapRemoveUpTo tgt rc h cnt rest
    else (h, cnt, node :: rest)

/-- Heap version of the per-fraction sweep, mutating the object `rc`. -/
def heapSweep (nxDiam : Graph → Except Unit Nat) (N0 rc : Nat) :
    List ℚ → Heap → Nat → List Nat → Heap × List Sample
  | [], h, _, _ => (h, [])
  | f :: fs, h, cnt, pending =>
    let tgt := (intTrunc (f * N0)).toNat
    let r := heapRemoveUpTo tgt rc h cnt pending
    let g := hget r.1 rc
    let s := (f, lccNormOf N0 g, diameter nxDiam g, r.2.1)
    let rest := heapSweep nxDiam N0 rc fs r.1 r.2.1 r.2.2
    (rest.1, s :: rest.2)

section HeapSim

variable {NpState : Type}
variable (npSeed : Nat → NpState)
variable (npChoice : NpState → List Nat → Nat → List Nat × NpState)
variable (nxDiam : Graph → Except Unit Nat)
variable (prO : Graph → Except Unit (List (Nat × ℚ)))
variable (btO : Graph → Option Nat → Except Unit (List (Nat × ℚ)))

/-- Heap version of the targeted strategies: each allocates its own working
copy of its argument object and mutates only that copy (its final state is
written back to the private object). -/
def heapDegreeAttack (h : Heap) (rArg k : Nat) (adaptive : Bool) :
    Heap × List Nat :=
  let g := hget h rArg
  let a := halloc h g.copy
  let r := degreeAttackStep adaptive (min k g.len) ([], hget a.1 a.2)
  (hset a.1 a.2 r.2, r.1)

/-- Heap version of `pagerank_targeted_attack`. -/
def heapPagerankAttack (h : Heap) (rArg k : Nat) (adaptive : Bool) :
    Heap × List Nat :=
  let g := hget h rArg
  let a := halloc h g.copy
  let r := pagerankAttackStep prO adaptive (min k g.len) ([], hget a.1 a.2)
  (hset a.1 a.2 r.2, r.1)

/-- Heap version of `betweenness_targeted_attack`. -/
def heapBetweennessAttack (h : Heap) (rArg k : Nat) (adaptive : Bool) :
    Heap × List Nat :=
  let g := hget h rArg
  let a := halloc h g.copy
  let r := betweennessAttackStep btO adaptive (min k g.len) ([], hget a.1 a.2)
  (hset a.1 a.2 r.2, r.1)

/-- Heap version of the strategy dispatch of `simulate_attack`
(`random_attack` only reads its argument). -/
def heapSelectOrder (h : Heap) (st : NpState) (rCopy original_size : Nat)
    (strategy : String) (seed : Option Nat) : Heap × List Nat × NpState :=
  if strategy = "random_attack" then
    let r := random_attack npSeed npChoice st (hget h rCopy) original_size seed
    (h, r.1, r.2)
  else if strategy = "degree_targeted_attack" then
    let r := heapDegreeAttack h rCopy original_size true
    (r.1, r.2, st)
  else if strategy = "pagerank_targeted_attack" then
    let r := heapPagerankAttack prO h rCopy original_size true
    (r.1, r.2, st)
  else if strategy = "betweenness_targeted_attack" then
    let r := heapBetweennessAttack btO h rCopy original_size true
    (r.1, r.2, st)
  else (h, [], st)

/-- One run of the heap multi-run branch: allocate a fresh working copy,
draw the removal order, sweep in place on the copy. -/
def heapMultiRunStep (rG : Nat) (N0 : Nat) (fractions : List ℚ)
    (seed : Option Nat) (acc : Heap × List (List Sample) × NpState)
    (run : Nat) : Heap × List (List Sample) × NpState :=
  let run_seed := seed.map (fun s => s + run)
  let a := halloc acc.1 (hget acc.1 rG).copy
  let r := random_attack npSeed npChoice acc.2.2 (hget a.1 a.2) N0 run_seed
  let sw := heapSweep nxDiam N0 a.2 fractions a.1 0 r.1
  (sw.1, acc.2.1 ++ [sw.2], r.2)

/-- Heap version of the averaged multi-run branch: one fresh working-copy
object per run. -/
def heapMultiRun (rG : Nat) (N0 : Nat) (fractions : List ℚ)
    (seed : Option Nat) (n_runs : Nat) (h : Heap) (st : NpState) :
    Heap × List (List Sample) × NpState :=
  (List.range n_runs).foldl
    (heapMultiRunStep npSeed npChoice nxDiam rG N0 fractions seed) (h, [], st)

/-- Heap embedding of `simulate_attack`: the caller's graph object is `rG`;
all mutation happens on freshly allocated working copies. -/
def heap_simulate_attack (h : Heap) (rG : Nat) (st : NpState)
    (strategy : String) (fractionsArg : Option (List ℚ)) (n_runs : Nat)
    (seed : Option Nat) : Heap × SimResult × NpState :=
  if (hget h rG).len = 0 then (h, ⟨[], [], []⟩, st)
  else
    let fractions := fractionsArg.getD defaultFractions
    let original_size := (hget h rG).len
    let N0 := original_size
    if strategy = "random_attack" ∧ 1 < n_runs then
      let mr := heapMultiRun npSeed npChoice nxDiam rG N0 fractions seed
        n_runs h st
      (mr.1,
       ⟨fractions,
        fractions.map (fun f => mean (valsAt mr.2.1 (fun s => s.2.1) f)),
        fractions.map (fun f => mean (valsAt mr.2.1 (fun s => s.2.2.1) f))⟩,
       mr.2.2)
    else
      let a := halloc h (hget h rG).copy
      let sel := heapSelectOrder npSeed npChoice prO btO a.1 st a.2
        original_size strategy seed
      let sw := heapSweep nxDiam N0 a.2 fractions sel.1 0 sel.2.1
      (sw.1,
       ⟨sw.2.map (fun s => s.1), sw.2.map (fun s => s.2.1),
        sw.2.map (fun s => s.2.2.1)⟩,
       sel.2.2)

end HeapSim

/-- Heap version of the inner hub-pairing loop, mutating the reinforced
copy `rc`. -/
def heapSimpleInner (geoDist : Nat → Nat → Option ℚ) (cap : Option ℚ)
    (k : Nat) (existing : List (Nat × Nat)) (src rc : Nat) :
    List Nat → Heap → Nat → Heap × Nat
  | [], h, cnt => (h, cnt)
  | dst :: ds, h, cnt =>
    if k ≤ cnt then (h, cnt)
    else if canonPair src dst ∈ existing then
      heapSimpleInner geoDist cap k existing src rc ds h cnt
    else
      match geoDist src dst, cap with
      | some dist, some mx =>
        if dist ≤ mx then
          heapSimpleInner geoDist cap k existing src rc ds
            (hset h rc ((hget h rc).addEdge src dst)) (cnt + 1)
        else heapSimpleInner geoDist cap k existing src rc ds h cnt
      | _, _ => heapSimpleInner geoDist cap k existing src rc ds h cnt

/-- Heap version of the outer hub loop. -/
def heapSimpleOuter (geoDist : Nat → Nat → Option ℚ) (cap : Option ℚ)
    (k : Nat) (existing : List (Nat × Nat)) (rc : Nat) :
    List Nat → Heap → Nat → Heap
  | [], h, _ => h
  | src :: rest, h, cnt =>
    if k ≤ cnt then h
    else
      let r := heapSimpleInner geoDist cap k existing src rc rest h cnt
      heapSimpleOuter geoDist cap k existing rc rest r.1 r.2

/-- Heap embedding of `reinforce_graph_simple`: allocates the reinforced
copy and mutates only it; returns its reference. -/
def heap_reinforce_graph_simple (geoDist : Nat → Nat → Option ℚ)
    (h : Heap) (rArg k : Nat) (cap : Option ℚ) : Heap × Nat :=
  let g := hget h rArg
  if g.len < 2 then halloc h g.copy
  else
    let degrees := g.degreeItems
    let top_hubs := (sortDescBy (fun x => (x.2 : ℚ)) degrees).take k
    let hub_ids := top_hubs.map (fun x => x.1)
    let existing := g.edges.map (fun e => canonPair e.1 e.2)
    let a := halloc h g.copy
    (heapSimpleOuter geoDist cap k existing a.2 hub_ids a.1 0, a.2)

/-- Heap loop adding the selected top-`k` edges in place on the reinforced
copy `rc`. -/
def heapAddLoop (rc : Nat) : List (Nat × Nat) → Heap → Heap
  | [], h => h
  | ev :: rest, h =>
    heapAddLoop rc rest (hset h rc ((hget h rc).addEdge ev.1 ev.2))

/-- Heap embedding of `add_edges_by_effective_resistance`: the caller's
graph object `rG` is only read; the LCC subgraph copy and the reinforced
copy are fresh objects.  Returns the reference of the result graph. -/
def heap_add_edges_by_effective_resistance (pyRandom : Nat → Nat → Nat)
    (geoDist : Nat → Nat → Option ℚ)
    (spluO : Graph → List Nat → Except Unit (Nat → Nat → Except Unit ℚ))
    (h : Heap) (rG : Nat) (k max_candidates : Nat) (cap : Option ℚ)
    (seed : Nat) : Heap × Nat :=
  let g := hget h rG
  if g.len < 2 then halloc h g.copy
  else
    let lcc := g.largestComponentNodes
    let a := halloc h (g.subgraphOn lcc).copy
    let H := hget a.1 a.2
    match spluO H H.nodes with
    | .error _ => heap_reinforce_graph_simple geoDist a.1 a.2 k cap
    | .ok reff =>
      let cand := sample_candidate_edges pyRandom geoDist H max_candidates
        cap seed
      let scored := cand.filterMap (fun c =>
        match reff c.1 c.2.1 with
        | .ok r => some (r, c.1, c.2.1, c.2.2)
        | .error _ => none)
      let sorted := sortDescBy (fun s => s.1) scored
      let b := halloc a.1 H.copy
      (heapAddLoop b.2 ((sorted.take k).map (fun s => (s.2.1, s.2.2.1))) b.1,
       b.2)

/-- Heap version of the variant evaluation: applies each surviving swap to
the working object `rc`, evaluates, and restores the saved value (the
source removes and re-adds the original edges). -/
def heapEvalVariantStep (fracs : List ℚ) (order : List Nat) (deg : Nat → Nat)
    (prefilter : Bool) (rc : Nat) (e1 e2 : Nat × Nat)
    (acc : Heap × Option (ℚ × (Nat × Nat) × (Nat × Nat)) × Nat)
    (v : (Nat × Nat) × (Nat × Nat)) :
    Heap × Option (ℚ × (Nat × Nat) × (Nat × Nat)) × Nat :=
  let ne1 := v.1
  let ne2 := v.2
  let Gr := hget acc.1 rc
  if ne1.1 = ne1.2 ∨ ne2.1 = ne2.2 then acc
  else if Gr.hasEdge ne1.1 ne1.2 ∨ Gr.hasEdge ne2.1 ne2.2 then acc
  else if ({ne1.1, ne1.2} : Finset Nat) = {ne2.1, ne2.2} then acc
  else if prefilter ∧ 0 ≤ score_degree_mixing deg e1 e2 ne1 ne2 then acc
  else
    let h1 := hset acc.1 rc (applySwap Gr e1 e2 ne1 ne2)
    let R_new := robustness_R_static_fast (hget h1 rc) fracs order
    let h2 := hset h1 rc Gr
    let best := match acc.2.1 with
      | none => some (R_new, ne1, ne2)
      | some b => if b.1 < R_new then some (R_new, ne1, ne2) else some b
    (h2, best, acc.2.2 + 1)

def heapEvalVariants (fracs : List ℚ) (order : List Nat) (deg : Nat → Nat)
    (prefilter : Bool) (rc : Nat) (e1 e2 : Nat × Nat) (h : Heap) :
    Heap × Option (ℚ × (Nat × Nat) × (Nat × Nat)) × Nat :=
  (swapVariants e1 e2).foldl
    (heapEvalVariantStep fracs order deg prefilter rc e1 e2) (h, none, 0)

/-- Heap version of the Schneider trial loop, mutating only `rc`. -/
def heapSchneiderLoop (rngPick : Nat → Nat × Nat) (fracs : List ℚ)
    (order : List Nat) (deg : Nat → Nat) (prefilter : Bool) (patience : Nat)
    (min_delta_R : ℚ) (rc : Nat) :
    Nat → Nat → Heap → SchnState → Heap × SchnState
  | 0, _, h, st => (h, st)
  | fuel + 1, t, h, st =>
    let st := { st with t := t }
    if patience ≤ st.no_improve ∨ (hget h rc).numberOfEdges < 2 then (h, st)
    else
      let len := st.edges.length
      let pick := rngPick t
      let i := pick.1 % len
      let j0 := pick.2 % (len - 1)
      let j := if i ≤ j0 then j0 + 1 else j0
      let e1 := st.edges.getD i (0, 0)
      let e2 := st.edges.getD j (0, 0)
      if ({e1.1, e1.2, e2.1, e2.2} : Finset Nat).card < 4 then
        heapSchneiderLoop rngPick fracs order deg prefilter patience
          min_delta_R rc fuel (t + 1) h
          { st with no_improve := st.no_improve + 1 }
      else
        let ev := heapEvalVariants fracs order deg prefilter rc e1 e2 h
        let st := { st with r_evals := st.r_evals + ev.2.2 }
        match ev.2.1 with
        | some best =>
          if st.R_best + min_delta_R < best.1 then
            let h1 := hset ev.1 rc
              (applySwap (hget ev.1 rc) e1 e2 best.2.1 best.2.2)
            heapSchneiderLoop rngPick fracs order deg prefilter patience
              min_delta_R rc fuel (t + 1) h1
              ⟨hget h1 rc, (hget h1 rc).edges, best.1, st.accepted + 1, 0,
               st.r_evals, st.t⟩
          else
            heapSchneiderLoop rngPick fracs order deg prefilter patience
              min_delta_R rc fuel (t + 1) ev.1
              { st with no_improve := st.no_improve + 1 }
        | none =>
          heapSchneiderLoop rngPick fracs order deg prefilter patience
            min_delta_R rc fuel (t + 1) ev.1
            { st with no_improve := st.no_improve + 1 }

/-- Heap embedding of `optimize_schneider_fast`: the caller's object `rG`
is copied once; all mutation targets the copy.  Returns the reference of
the optimized graph object. -/
def heap_optimize_schneider_fast (pyRng : Nat → Nat → Nat × Nat) (h : Heap)
    (rG : Nat) (fracsArg : Option (List ℚ)) (max_trials patience : Nat)
    (min_delta_R : ℚ) (seed : Nat) (prefilter : Bool) :
    Heap × Nat × SchneiderInfo :=
  let fracs := fracsArg.getD defaultSchneiderFracs
  let rngPick := pyRng seed
  let a := halloc h (hget h rG).copy
  let Gr := hget a.1 a.2
  let order := static_order_by_degree Gr
  let deg := fun u => Gr.degree u
  let R0 := robustness_R_static_fast Gr fracs order
  let st0 : SchnState := ⟨Gr, Gr.edges, R0, 0, 0, 1, 0⟩
  let fin := heapSchneiderLoop rngPick fracs order deg prefilter patience
    min_delta_R a.2 max_trials 1 a.1 st0
  (fin.1, a.2,
   ⟨fin.2.R_best, fin.2.accepted, fin.2.t, fin.2.r_evals,
    decide (patience ≤ fin.2.no_improve), fracs.length, prefilter⟩)

/-!  ### `defense._build_grounded_laplacian_lu` / `effective_resistance`

Exact real-arithmetic model of the effective-resistance pipeline, stated
after the `idx` dictionary has mapped the component's `node_list` to
`0 .. n-1`: edges are index pairs, the ground is the last index
(`g = n - 1` in the source), and the sparse LU solve is modelled by a
matrix `M` that is an exact right inverse of the grounded Laplacian. -/

/-- The four coordinate increments one edge `(u, v)` contributes to the
Laplacian assembly (`rows/cols/data` accumulation plus the degree
diagonal). -/
def edgeMatrix {n : Nat} (u v : Fin n) : Matrix (Fin n) (Fin n) ℝ :=
  Matrix.of fun i j =>
    (if i = u ∧ j = v then (-1 : ℝ) else 0) +
    (if i = v ∧ j = u then (-1 : ℝ) else 0) +
    (if i = u ∧ j = u then (1 : ℝ) else 0) +
    (if i = v ∧ j = v then (1 : ℝ) else 0)

/-- The assembled Laplacian `L` of `_build_grounded_laplacian_lu`
(unit conductances, self-loops skipped). -/
def laplacian {n : Nat} (es : List (Fin n × Fin n)) :
    Matrix (Fin n) (Fin n) ℝ :=
  es.foldl (fun L e => if e.1 = e.2 then L else L + edgeMatrix e.1 e.2) 0

/-- The grounded Laplacian: drop the row and column of the ground node
`g = n - 1`. -/
def groundedLaplacian {m : Nat} (es : List (Fin (m + 1) × Fin (m + 1))) :
    Matrix (Fin m) (Fin m) ℝ :=
  (laplacian es).submatrix Fin.castSucc Fin.castSucc

/-- Adjacency of two node indices in the edge list. -/
def adjRel {n : Nat} (es : List (Fin n × Fin n)) (a b : Fin n) : Prop :=
  (a, b) ∈ es ∨ (b, a) ∈ es

/-- Connectivity (the snapshot handed to the factorization is a connected
component). -/
def connectedIdx {n : Nat} (es : List (Fin n × Fin n)) (a b : Fin n) : Prop :=
  Relation.ReflTransGen (adjRel es) a b

/-- The reduced right-hand side `e_u - e_v` of `effective_resistance`
(each non-ground endpoint contributes `±1` at its reduced index). -/
def bvec {m : Nat} (u v : Fin (m + 1)) : Fin m → ℝ := fun j =>
  (if h : u = Fin.last m then 0 else if j = u.castPred h then 1 else 0) +
  (if h : v = Fin.last m then 0 else if j = v.castPred h then -1 else 0)

/-- `defense.effective_resistance`: solve `Lg x = e_u - e_v` (the solve is
`M.mulVec`, `M` modelling `lu.solve`), extend the solution by `0` at the
ground, and return `x_full(u) - x_full(v)`. -/
def effective_resistance {m : Nat} (M : Matrix (Fin m) (Fin m) ℝ)
    (u v : Fin (m + 1)) : ℝ :=
  let b := bvec u v
  let x := M.mulVec b
  let xfull : Fin (m + 1) → ℝ := fun i =>
    if h : i = Fin.last m then 0 else x (i.castPred h)
  xfull u - xfull v

/-!  ### Refinement layer for `lcc_curve_static_dsu`

The DSU arrays are given a propositional reading (parent iteration,
roots, classes) and the add-back loop is related to connectivity of
induced sub-snapshots of the input graph; the comparison point is the
naive recompute-per-sample oracle described by the specification. -/

/-- Parent lookup `p[i]` (identity outside the array). -/
def parentOf (p : List Nat) (i : Nat) : Nat := p.getD i i

/-- `k`-fold parent iteration. -/
def pIter (p : List Nat) : Nat → Nat → Nat
  | 0, a => a
  | k + 1, a => pIter p k (parentOf p a)

/-- `r` is a DSU root: its parent is itself. -/
def IsRootP (p : List Nat) (r : Nat) : Prop := parentOf p r = r

/-- `r` is the root of `a`: reachable by parent iteration and a fixpoint. -/
def RootOf (p : List Nat) (a r : Nat) : Prop :=
  (∃ k, pIter p k a = r) ∧ IsRootP p r

/-- Fuel-bounded root computation (the size invariant proved below shows
that fuel `n` always suffices on reachable DSU states). -/
def rootFuel (p : List Nat) : Nat → Nat → Nat
  | 0, a => a
  | f + 1, a => if parentOf p a = a then a else rootFuel p f (parentOf p a)

/-- Root of `a` computed with fuel `n`. -/
def rootD (n : Nat) (p : List Nat) (a : Nat) : Nat := rootFuel p n a

/-- The DSU class of `a`: indices below `n` sharing `a`'s root. -/
def classOf (n : Nat) (p : List Nat) (a : Nat) : Finset Nat :=
  (Finset.range n).filter (fun i => rootD n p i = rootD n p a)

/-- Structural invariant of a size-`n` DSU: arrays of length `n`, parents
in range, sizes strictly increasing toward the root, and the size stored
at a root equal to its class size. -/
structure DInv (n : Nat) (d : DSU) : Prop where
  lenP : d.p.length = n
  lenS : d.sz.length = n
  pLt : ∀ i, i < n → parentOf d.p i < n
  szMono : ∀ i, i < n → parentOf d.p i ≠ i →
    d.sz.getD i 0 < d.sz.getD (parentOf d.p i) 0
  szRoot : ∀ r, r < n → IsRootP d.p r → d.sz.getD r 0 = (classOf n d.p r).card

/-- One-step adjacency relation of a graph. -/
def stepRel (H : Graph) (a b : Nat) : Prop := b ∈ H.adjFinset a

/-- Connectivity relation of a graph. -/
def connG (H : Graph) (a b : Nat) : Prop :=
  Relation.ReflTransGen (stepRel H) a b

/-- The connected component of `v` as computed by the iterated closure. -/
def compSet (H : Graph) (v : Nat) : Finset Nat :=
  reachSet H.adjFinset H.len v

/-- Size of the largest connected component. -/
def lccCard (H : Graph) : Nat := H.largestComponentNodes.card

/-- A relation extended by one undirected edge `{u, v}`. -/
def addEdgeRel (r : Nat → Nat → Prop) (u v : Nat) (x y : Nat) : Prop :=
  r x y ∨ (x = u ∧ y = v) ∨ (x = v ∧ y = u)

/-- Adjacency of the sub-snapshot on `A` extended by the edges joining the
freshly added-back node `u` to its already-active neighbors among the
processed prefix `ws` of its adjacency list. -/
def stepPartial (G : Graph) (A : Finset Nat) (u : Nat) (ws : List Nat)
    (x y : Nat) : Prop :=
  stepRel (G.subgraphOn A) x y ∨
    (x = u ∧ y ∈ ws ∧ y ∈ A) ∨ (y = u ∧ x ∈ ws ∧ x ∈ A)

/-- The naive robustness-curve oracle: for each fraction sample, remove
the corresponding prefix of the removal order from `G`, recompute the
largest connected component from scratch, and normalize by the total node
count.  (This definition follows the specification's description of the
brute-force recompute-per-step curve; the refinement claim compares
`lcc_curve_static_dsu` against it.) -/
def naive_lcc_curve (G : Graph) (fracs : List ℚ) (order : List Nat) :
    List ℚ :=
  let n := G.nodes.length
  fracs.map (fun f =>
    (lccCard ((order.take (kOfFrac n f)).foldl Graph.removeNode G) : ℚ) / n)

/-! ## Theorems -/

/-- The per-node degree dictionary is empty exactly when the node list is. -/
theorem degreeItems_eq_nil_iff (G : Graph) : G.degreeItems.isEmpty = G.nodes.isEmpty := by
  cases h : G.nodes <;> simp [Graph.degreeItems, h]

/-- With `adaptive = False` the working copy is never modified, so every
iteration re-selects the same first maximal-degree node. -/
theorem degreeAttackStep_false_eq (G : Graph) (h : G.len ≠ 0) :
    ∀ fuel acc, (degreeAttackStep false fuel (acc, G)).1
      = acc ++ List.replicate fuel (firstMaxBy G.degreeItems) := by
  intro fuel
  induction fuel with
  | zero => intro acc; simp [degreeAttackStep]
  | succ n ih =>
    intro acc
    have hne : G.degreeItems.isEmpty = false := by
      rw [degreeItems_eq_nil_iff]
      cases hn : G.nodes with
      | nil => exact absurd (by simp [Graph.len, hn]) h
      | cons a l => simp
    simp only [degreeAttackStep, if_neg h, hne, Bool.false_eq_true, if_false, if_neg,
      List.replicate_succ]
    rw [ih]
    simp

/-- C2 (counterexample): on the two-node graph `0 — 1` with `k = 2` and
`adaptive = false`, `degree_targeted_attack` returns `[0, 0]`: the same node
twice, not a sequence of distinct nodes. -/
theorem degree_targeted_attack_nonadaptive_not_nodup :
    degree_targeted_attack ⟨[0, 1], [(0, 1)]⟩ 2 false = [0, 0] ∧
    ¬ (degree_targeted_attack ⟨[0, 1], [(0, 1)]⟩ 2 false).Nodup := by
  constructor <;> decide

/-- C2 (amended): with `adaptive = false` no node is ever marked as removed
and the working graph is never updated, so the call returns
`min k len(G)` copies of the single node first attaining the maximal degree
of the static input graph. -/
theorem degree_targeted_attack_nonadaptive (G : Graph) (k : Nat) :
    degree_targeted_attack G k false
      = List.replicate (min k G.len) (firstMaxBy G.degreeItems) := by
  by_cases h : G.len = 0
  · simp [degree_targeted_attack, h, degreeAttackStep, Graph.copy]
  · simpa [degree_targeted_attack, Graph.copy] using
      degreeAttackStep_false_eq G h (min k G.len) []

/-- C8: `metrics.diameter` is total with sentinel `0.0`: it returns `0.0`
whenever the largest component has fewer than 2 nodes, and it returns `0.0`
whenever the underlying diameter computation raises. -/
theorem diameter_total (nxDiam : Graph → Except Unit Nat) (G : Graph) :
    (G.largestComponentNodes.card < 2 → diameter nxDiam G = 0) ∧
    (nxDiam (G.subgraphOn G.largestComponentNodes) = Except.error () →
      diameter nxDiam G = 0) := by
  constructor
  · intro h; simp [diameter, h]
  · intro h
    by_cases h2 : G.largestComponentNodes.card < 2
    · simp [diameter, h2]
    · simp [diameter, h2, h]

/-- C8 (witness): on the one-node graph the largest component has one node
and the diameter is the sentinel `0.0`, even under an always-raising
diameter oracle. -/
theorem diameter_total_witness :
    (Graph.largestComponentNodes ⟨[5], []⟩).card < 2 ∧
    diameter (fun _ => Except.error ()) ⟨[5], []⟩ = 0 :=
  ⟨by decide, (diameter_total (fun _ => Except.error ()) ⟨[5], []⟩).1 (by decide)⟩

/-!  ### Lemmas on the removal sweep -/

/-- The removal counter never decreases inside the inner removal loop. -/
theorem removeUpTo_cnt_le (tgt : Nat) :
    ∀ (pending : List Nat) (gc : Graph) (cnt : Nat),
      cnt ≤ (removeUpTo tgt gc cnt pending).2.1 := by
  intro pending
  induction pending with
  | nil => intro gc cnt; simp [removeUpTo]
  | cons node rest ih =>
    intro gc cnt
    simp only [removeUpTo]
    by_cases h1 : cnt < tgt
    · simp only [if_pos h1]
      by_cases h2 : node ∈ gc.nodes
      · simp only [if_pos h2]
        exact le_trans (Nat.le_succ cnt) (ih _ _)
      · simp only [if_neg h2]; exact ih _ _
    · simp [if_neg h1]

/-- The sweep emits one sample per requested fraction. -/
theorem sweepAux_length (d : Graph → Except Unit Nat) (N0 : Nat) :
    ∀ (fs : List ℚ) (st : Graph × Nat × List Nat),
      (sweepAux d N0 fs st).length = fs.length := by
  intro fs
  induction fs with
  | nil => intro st; rfl
  | cons f fs ih => intro st; simp [sweepAux, ih]

/-- The removal-counter samples of a sweep are non-decreasing, starting from
the initial counter. -/
theorem sweepAux_chain (d : Graph → Except Unit Nat) (N0 : Nat) :
    ∀ (fs : List ℚ) (gc : Graph) (cnt : Nat) (pending : List Nat),
      List.Chain' (· ≤ ·)
        (cnt :: (sweepAux d N0 fs (gc, cnt, pending)).map (fun s => s.2.2.2)) := by
  intro fs
  induction fs with
  | nil => intro gc cnt pending; simp [sweepAux]
  | cons f fs ih =>
    intro gc cnt pending
    simp only [sweepAux, List.map_cons]
    rw [List.chain'_cons]
    refine ⟨removeUpTo_cnt_le _ _ _ _, ?_⟩
    exact ih _ _ _

/-- A sweep with an exhausted removal order never changes the working graph
or the counter. -/
theorem sweepAux_nil (d : Graph → Except Unit Nat) (N0 : Nat) :
    ∀ (fs : List ℚ) (gc : Graph) (cnt : Nat),
      sweepAux d N0 fs (gc, cnt, []) =
        fs.map (fun f => (f, lccNormOf N0 gc, diameter d gc, cnt)) := by
  intro fs
  induction fs with
  | nil => intro gc cnt; rfl
  | cons f fs ih => intro gc cnt; simp [sweepAux, removeUpTo, ih]

section AttackSimThm

variable {NpState : Type}
variable (npSeed : Nat → NpState)
variable (npChoice : NpState → List Nat → Nat → List Nat × NpState)
variable (nxDiam : Graph → Except Unit Nat)
variable (prO : Graph → Except Unit (List (Nat × ℚ)))
variable (btO : Graph → Option Nat → Except Unit (List (Nat × ℚ)))

/-- Every per-run sample list of the averaged branch is a sweep of a fresh
copy starting with zero removals. -/
theorem multiRun_mem (G : Graph) (N0 : Nat) (fractions : List ℚ)
    (seed : Option Nat) :
    ∀ (runsL : List Nat) (acc : List (List Sample) × NpState),
      (∀ s ∈ acc.1, ∃ ord, s = sweepAux nxDiam N0 fractions (G.copy, 0, ord)) →
      ∀ s ∈ (runsL.foldl
        (multiRunStep npSeed npChoice nxDiam G N0 fractions seed) acc).1,
        ∃ ord, s = sweepAux nxDiam N0 fractions (G.copy, 0, ord) := by
  intro runsL
  induction runsL with
  | nil => intro acc hacc; simpa using hacc
  | cons r rs ih =>
    intro acc hacc
    simp only [List.foldl_cons]
    apply ih
    intro s hs
    simp only [multiRunStep, List.mem_append, List.mem_singleton] at hs
    rcases hs with hs | rfl
    · exact hacc s hs
    · exact ⟨_, rfl⟩

/-- C3 (amended): for every non-empty graph, `simulate_attack` returns
result lists whose length equals `len(fractions)`, and on every working copy
the cumulative removal count at successive fractions is monotonically
non-decreasing.  (On the empty graph the source returns empty lists instead,
see the counterexample.) -/
theorem simulate_attack_lengths_and_monotone (st : NpState) (G : Graph)
    (strategy : String) (F : List ℚ) (n_runs : Nat) (seed : Option Nat)
    (h : G.len ≠ 0) :
    (((simulate_attack npSeed npChoice nxDiam prO btO st G strategy (some F)
        n_runs seed).1.fraction_removed.length = F.length) ∧
     ((simulate_attack npSeed npChoice nxDiam prO btO st G strategy (some F)
        n_runs seed).1.relative_lcc_size.length = F.length) ∧
     ((simulate_attack npSeed npChoice nxDiam prO btO st G strategy (some F)
        n_runs seed).1.diameter.length = F.length)) ∧
    (∀ tr ∈ simulateTraces npSeed npChoice nxDiam prO btO st G strategy
        (some F) n_runs seed,
      List.Chain' (· ≤ ·) tr) := by
  constructor
  · unfold simulate_attack
    rw [if_neg h]
    by_cases hb : strategy = "random_attack" ∧ 1 < n_runs
    · rw [if_pos hb]; simp
    · rw [if_neg hb]; simp [sweepAux_length]
  · intro tr htr
    unfold simulateTraces at htr
    rw [if_neg h] at htr
    by_cases hb : strategy = "random_attack" ∧ 1 < n_runs
    · rw [if_pos hb] at htr
      simp only [List.mem_map] at htr
      obtain ⟨samples, hmem, rfl⟩ := htr
      obtain ⟨ord, rfl⟩ := multiRun_mem npSeed npChoice nxDiam G G.len
        (Option.getD (some F) defaultFractions) seed (List.range n_runs)
        ([], st) (by simp) samples hmem
      exact (sweepAux_chain nxDiam G.len _ _ _ _).tail
    · rw [if_neg hb] at htr
      simp only [List.mem_singleton] at htr
      subst htr
      exact (sweepAux_chain nxDiam G.len _ _ _ _).tail

end AttackSimThm

/-- C3 (counterexample): on the empty graph with the one-element fraction
ladder `[0]`, `simulate_attack` returns empty result lists, whose length `0`
differs from `len(F) = 1`. -/
theorem simulate_attack_empty_cex :
    (simulate_attack (fun _ => PUnit.unit) (fun st ns k => (ns.take k, st))
        (fun _ => Except.ok 0) (fun _ => Except.error ())
        (fun _ _ => Except.error ()) PUnit.unit ⟨[], []⟩
        "degree_targeted_attack" (some [0]) 1 none).1.fraction_removed.length ≠
      ([0] : List ℚ).length := by
  decide

/-- C3 (witness): the amended claim applied to the two-node path graph. -/
theorem simulate_attack_lengths_witness :
    (Graph.len ⟨[0, 1], [(0, 1)]⟩ ≠ 0) ∧
    ((((simulate_attack (fun _ => PUnit.unit) (fun st ns k => (ns.take k, st))
        (fun _ => Except.ok 0) (fun _ => Except.error ())
        (fun _ _ => Except.error ()) PUnit.unit ⟨[0, 1], [(0, 1)]⟩
        "degree_targeted_attack" (some [0, 1/2]) 1
        none).1.fraction_removed.length = ([0, 1/2] : List ℚ).length) ∧
      (((simulate_attack (fun _ => PUnit.unit) (fun st ns k => (ns.take k, st))
        (fun _ => Except.ok 0) (fun _ => Except.error ())
        (fun _ _ => Except.error ()) PUnit.unit ⟨[0, 1], [(0, 1)]⟩
        "degree_targeted_attack" (some [0, 1/2]) 1
        none).1.relative_lcc_size.length = ([0, 1/2] : List ℚ).length)) ∧
      (((simulate_attack (fun _ => PUnit.unit) (fun st ns k => (ns.take k, st))
        (fun _ => Except.ok 0) (fun _ => Except.error ())
        (fun _ _ => Except.error ()) PUnit.unit ⟨[0, 1], [(0, 1)]⟩
        "degree_targeted_attack" (some [0, 1/2]) 1
        none).1.diameter.length = ([0, 1/2] : List ℚ).length))) ∧
     (∀ tr ∈ simulateTraces (fun _ => PUnit.unit) (fun st ns k => (ns.take k, st))
        (fun _ => Except.ok 0) (fun _ => Except.error ())
        (fun _ _ => Except.error ()) PUnit.unit ⟨[0, 1], [(0, 1)]⟩
        "degree_targeted_attack" (some [0, 1/2]) 1 none,
       List.Chain' (· ≤ ·) tr)) :=
  ⟨by decide, simulate_attack_lengths_and_monotone _ _ _ _ _ _ _ _ _ _ _
    (by decide)⟩

section UnknownStrategy

variable {NpState : Type}
variable (npSeed : Nat → NpState)
variable (npChoice : NpState → List Nat → Nat → List Nat × NpState)
variable (nxDiam : Graph → Except Unit Nat)
variable (prO : Graph → Except Unit (List (Nat × ℚ)))
variable (btO : Graph → Option Nat → Except Unit (List (Nat × ℚ)))

/-- C10: for a non-empty graph and a strategy name that is none of the four
recognized ones, `simulate_attack` removes no nodes: it emits one sample per
fraction, each reporting the normalized LCC size and the diameter of the
intact input graph, and the removal-count trace is identically zero. -/
theorem simulate_attack_unknown_strategy (st : NpState) (G : Graph)
    (s : String) (F : List ℚ) (n_runs : Nat) (seed : Option Nat)
    (h : G.len ≠ 0)
    (hs : s ≠ "random_attack" ∧ s ≠ "degree_targeted_attack" ∧
      s ≠ "pagerank_targeted_attack" ∧ s ≠ "betweenness_targeted_attack") :
    (simulate_attack npSeed npChoice nxDiam prO btO st G s (some F)
        n_runs seed).1 =
      ⟨F, F.map (fun _ => lccNormOf G.len G),
        F.map (fun _ => diameter nxDiam G)⟩ ∧
    simulateTraces npSeed npChoice nxDiam prO btO st G s (some F)
        n_runs seed = [F.map (fun _ => 0)] := by
  obtain ⟨h1, h2, h3, h4⟩ := hs
  have hb : ¬(s = "random_attack" ∧ 1 < n_runs) := fun hc => h1 hc.1
  have hsel : selectOrder npSeed npChoice prO btO st G.copy G.len s seed
      = ([], st) := by
    unfold selectOrder
    rw [if_neg h1, if_neg h2, if_neg h3, if_neg h4]
  constructor
  · unfold simulate_attack
    rw [if_neg h]
    simp only [if_neg hb]
    rw [hsel]
    simp [sweepAux_nil, List.map_map, Function.comp_def, Graph.copy]
  · unfold simulateTraces
    rw [if_neg h]
    simp only [if_neg hb]
    rw [hsel]
    simp [sweepAux_nil, List.map_map, Function.comp_def]

end UnknownStrategy

/-- C10 (witness): the unknown strategy `"foo"` on the two-node path graph
with fractions `[0, 1/2]`. -/
theorem simulate_attack_unknown_strategy_witness :
    (Graph.len ⟨[0, 1], [(0, 1)]⟩ ≠ 0) ∧
    ((simulate_attack (fun _ => PUnit.unit) (fun st ns k => (ns.take k, st))
        (fun _ => Except.ok 0) (fun _ => Except.error ())
        (fun _ _ => Except.error ()) PUnit.unit ⟨[0, 1], [(0, 1)]⟩ "foo"
        (some [0, 1/2]) 1 none).1 =
      ⟨[0, 1/2],
        ([0, 1/2] : List ℚ).map
          (fun _ => lccNormOf (Graph.len ⟨[0, 1], [(0, 1)]⟩) ⟨[0, 1], [(0, 1)]⟩),
        ([0, 1/2] : List ℚ).map
          (fun _ => diameter (fun _ => Except.ok 0) ⟨[0, 1], [(0, 1)]⟩)⟩ ∧
     simulateTraces (fun _ => PUnit.unit) (fun st ns k => (ns.take k, st))
        (fun _ => Except.ok 0) (fun _ => Except.error ())
        (fun _ _ => Except.error ()) PUnit.unit ⟨[0, 1], [(0, 1)]⟩ "foo"
        (some [0, 1/2]) 1 none = [([0, 1/2] : List ℚ).map (fun _ => 0)]) :=
  ⟨by decide, simulate_attack_unknown_strategy _ _ _ _ _ _ _ _ _ _ _
    (by decide) (by decide)⟩

/-!  ### C5: `add_edges_by_effective_resistance` with `k = 0` -/

/-- Every stored edge satisfies `has_edge`. -/
theorem Graph.hasEdge_of_mem (H : Graph) (e : Nat × Nat) (he : e ∈ H.edges) :
    H.hasEdge e.1 e.2 = true := by
  unfold Graph.hasEdge
  have : (e.1, e.2) ∈ H.edges := by simpa using he
  simp [this]

/-- A well-formed graph with fewer than two nodes has no edges. -/
theorem Graph.wf_small_edges_nil (G : Graph) (hwf : G.Wf) (h : G.len < 2) :
    G.edges = [] := by
  obtain ⟨hnd, hends, hdup⟩ := hwf
  unfold Graph.len at h
  cases hes : G.edges with
  | nil => rfl
  | cons e es =>
    obtain ⟨h1, h2, h3⟩ := hends e (by rw [hes]; exact List.mem_cons_self e es)
    rcases hns : G.nodes with _ | ⟨a, _ | ⟨b, tl⟩⟩
    · rw [hns] at h1; simp at h1
    · rw [hns] at h1 h2
      simp only [List.mem_singleton] at h1 h2
      exact absurd (h1.trans h2.symm) h3
    · rw [hns] at h
      simp only [List.length_cons] at h
      omega

/-- On a well-formed graph with fewer than two nodes the induced subgraph on
the largest component is the graph itself. -/
theorem Graph.subgraphOn_lcc_small (G : Graph) (hwf : G.Wf) (h : G.len < 2) :
    G.subgraphOn G.largestComponentNodes = G := by
  have hes : G.edges = [] := G.wf_small_edges_nil hwf h
  obtain ⟨ns, es⟩ := G
  simp only at hes
  subst hes
  unfold Graph.len at h
  simp only at h
  match ns, h with
  | [], _ =>
    simp [Graph.subgraphOn]
  | [a], _ =>
    have hadj : Graph.adjFinset ⟨[a], []⟩ a = ∅ := by
      simp [Graph.adjFinset, Graph.adjList]
    have hlcc : Graph.largestComponentNodes ⟨[a], []⟩ = {a} := by
      simp only [Graph.largestComponentNodes, Graph.len, Graph.connectedComponents,
        Graph.componentsAux, Graph.maxByCardFirst]
      rw [if_neg (by simp)]
      simp [reachSet, reachIter, reachStep, hadj]
    simp [hlcc, Graph.subgraphOn]

/-- C5: with `k = 0`, `add_edges_by_effective_resistance` returns exactly
the induced subgraph on the largest connected component of the input, with
an empty added-edges list — under every sampling, distance, and
factorization oracle (including a raising factorization). -/
theorem add_edges_by_effective_resistance_k0 (pyRandom : Nat → Nat → Nat)
    (geoDist : Nat → Nat → Option ℚ)
    (spluO : Graph → List Nat → Except Unit (Nat → Nat → Except Unit ℚ))
    (G : Graph) (max_candidates : Nat) (cap : Option ℚ) (seed : Nat)
    (hwf : G.Wf) :
    add_edges_by_effective_resistance pyRandom geoDist spluO G 0
        max_candidates cap seed =
      (G.subgraphOn G.largestComponentNodes, []) := by
  unfold add_edges_by_effective_resistance
  by_cases hlen : G.len < 2
  · rw [if_pos hlen]
    rw [G.subgraphOn_lcc_small hwf hlen]
    rfl
  · rw [if_neg hlen]
    simp only [Graph.copy]
    cases hsplu : spluO (G.subgraphOn G.largestComponentNodes)
        (G.subgraphOn G.largestComponentNodes).nodes with
    | error e =>
      have hsimple : reinforce_graph_simple geoDist
          (G.subgraphOn G.largestComponentNodes) 0 cap =
          G.subgraphOn G.largestComponentNodes := by
        unfold reinforce_graph_simple
        by_cases h2 : (G.subgraphOn G.largestComponentNodes).len < 2
        · rw [if_pos h2]; rfl
        · rw [if_neg h2]
          simp [simpleOuter, Graph.copy]
      rw [hsimple]
      have hfil : ((G.subgraphOn G.largestComponentNodes).edges.filter
          (fun e =>
            decide ¬((G.subgraphOn G.largestComponentNodes).hasEdge e.1 e.2
              = true))) = [] := by
        rw [List.filter_eq_nil_iff]
        intro e he
        simp [Graph.hasEdge_of_mem _ e he]
      simp only [hfil, List.map_nil]
    | ok reff =>
      simp

/-!  ### C9: determinism under identical seeds -/

section Deterministic

variable {NpState : Type}
variable (npSeed : Nat → NpState)
variable (npChoice : NpState → List Nat → Nat → List Nat × NpState)
variable (nxDiam : Graph → Except Unit Nat)
variable (prO : Graph → Except Unit (List (Nat × ℚ)))
variable (btO : Graph → Option Nat → Except Unit (List (Nat × ℚ)))

/-- With an explicit per-run seed, the per-run sample lists of the averaged
branch do not depend on the incoming numpy generator state (each run
re-seeds the generator). -/
theorem multiRun_foldl_fst_indep (G : Graph) (N0 : Nat) (fractions : List ℚ)
    (s : Nat) :
    ∀ (runsL : List Nat) (acc : List (List Sample)) (st1 st2 : NpState),
      (runsL.foldl (multiRunStep npSeed npChoice nxDiam G N0 fractions
        (some s)) (acc, st1)).1 =
      (runsL.foldl (multiRunStep npSeed npChoice nxDiam G N0 fractions
        (some s)) (acc, st2)).1 := by
  intro runsL
  induction runsL with
  | nil => intro acc st1 st2; rfl
  | cons r rs ih =>
    intro acc st1 st2
    simp only [List.foldl_cons]
    exact ih _ _ _

/-- `multiRun`'s sample lists depend only on the seed, not on the incoming
generator state. -/
theorem multiRun_fst_indep (G : Graph) (N0 : Nat) (fractions : List ℚ)
    (s n_runs : Nat) (st1 st2 : NpState) :
    (multiRun npSeed npChoice nxDiam G N0 fractions (some s) n_runs st1).1 =
    (multiRun npSeed npChoice nxDiam G N0 fractions (some s) n_runs st2).1 := by
  unfold multiRun
  exact multiRun_foldl_fst_indep npSeed npChoice nxDiam G N0 fractions s
    (List.range n_runs) [] st1 st2

/-- C9: the seeded Schneider optimizer is a pure function of its graph,
parameters, and seed (two invocations coincide), and `simulate_attack` with
an explicit seed returns the same robustness curves regardless of the
ambient numpy generator state (all randomness is re-seeded from the seed
argument). -/
theorem optimize_and_simulate_deterministic (pyRng : Nat → Nat → Nat × Nat)
    (G : Graph) (fracsArg : Option (List ℚ)) (mt pat : Nat) (mdr : ℚ)
    (sd : Nat) (pf : Bool) (st1 st2 : NpState) (G2 : Graph) (strat : String)
    (F : Option (List ℚ)) (nr : Nat) (s : Nat) :
    (optimize_schneider_fast pyRng G fracsArg mt pat mdr sd pf =
      optimize_schneider_fast pyRng G fracsArg mt pat mdr sd pf) ∧
    ((simulate_attack npSeed npChoice nxDiam prO btO st1 G2 strat F nr
        (some s)).1 =
      (simulate_attack npSeed npChoice nxDiam prO btO st2 G2 strat F nr
        (some s)).1) := by
  refine ⟨rfl, ?_⟩
  unfold simulate_attack
  by_cases h0 : G2.len = 0
  · rw [if_pos h0, if_pos h0]
  · rw [if_neg h0, if_neg h0]
    by_cases hb : strat = "random_attack" ∧ 1 < nr
    · rw [if_pos hb, if_pos hb]
      simp only
      rw [multiRun_fst_indep npSeed npChoice nxDiam G2 G2.len
        (F.getD defaultFractions) s nr st1 st2]
    · rw [if_neg hb, if_neg hb]
      simp only
      have hsel : (selectOrder npSeed npChoice prO btO st1 G2.copy G2.len
          strat (some s)).1 =
          (selectOrder npSeed npChoice prO btO st2 G2.copy G2.len strat
          (some s)).1 := by
        unfold selectOrder
        by_cases h1 : strat = "random_attack"
        · rw [if_pos h1, if_pos h1]; rfl
        · rw [if_neg h1, if_neg h1]
          by_cases h2 : strat = "degree_targeted_attack"
          · rw [if_pos h2, if_pos h2]
          · rw [if_neg h2, if_neg h2]
            by_cases h3 : strat = "pagerank_targeted_attack"
            · rw [if_pos h3, if_pos h3]
            · rw [if_neg h3, if_neg h3]
              by_cases h4 : strat = "betweenness_targeted_attack"
              · rw [if_pos h4, if_pos h4]
              · rw [if_neg h4, if_neg h4]
      rw [hsel]

end Deterministic

/-- C5 (witness): the triangle graph under a raising factorization oracle. -/
theorem add_edges_by_effective_resistance_k0_witness :
    (Graph.Wf ⟨[1, 2, 3], [(1, 2), (2, 3), (1, 3)]⟩) ∧
    add_edges_by_effective_resistance (fun _ _ => 0) (fun _ _ => none)
        (fun _ _ => Except.error ()) ⟨[1, 2, 3], [(1, 2), (2, 3), (1, 3)]⟩ 0
        100 none 0 =
      ((Graph.subgraphOn ⟨[1, 2, 3], [(1, 2), (2, 3), (1, 3)]⟩
          (Graph.largestComponentNodes ⟨[1, 2, 3], [(1, 2), (2, 3), (1, 3)]⟩)),
        []) :=
  ⟨by decide, add_edges_by_effective_resistance_k0 _ _ _ _ _ _ _ (by decide)⟩

/-!  ### C6: accepted double-edge swaps preserve all degrees -/

/-- For loop-free edge records, the incidence count agrees with the
occurrence count of `x` among all endpoints. -/
theorem countP_incident_eq_count (x : Nat) :
    ∀ (l : List (Nat × Nat)), (∀ e ∈ l, e.1 ≠ e.2) →
      l.countP (Graph.incident x) = (l.flatMap fun e => [e.1, e.2]).count x := by
  intro l
  induction l with
  | nil => intro _; rfl
  | cons e es ih =>
    intro h
    have hlf : e.1 ≠ e.2 := h e (List.mem_cons_self e es)
    have ihe := ih (fun e' he' => h e' (List.mem_cons_of_mem e he'))
    simp only [List.countP_cons, List.flatMap_cons, List.count_append]
    rw [ihe]
    by_cases h1 : e.1 = x
    · have h2 : e.2 ≠ x := fun hc => hlf (h1.trans hc.symm)
      simp [Graph.incident, h1, h2, List.count_cons]
      omega
    · by_cases h2 : e.2 = x
      · simp [Graph.incident, h1, h2, List.count_cons]
        omega
      · simp [Graph.incident, h1, h2, List.count_cons]

theorem canonPair_comm (a b : Nat) : canonPair a b = canonPair b a := by
  unfold canonPair
  split_ifs with h1 h2 h2 <;> simp [Prod.ext_iff] <;> omega

theorem canonPair_eq_iff (a b c d : Nat) :
    canonPair a b = canonPair c d ↔ (a = c ∧ b = d) ∨ (a = d ∧ b = c) := by
  unfold canonPair
  split_ifs <;> simp [Prod.ext_iff] <;> omega

/-- In a well-formed graph, distinct stored edges have distinct canonical
forms; hence a stored edge is determined by its unordered endpoints. -/
theorem Graph.canon_inj (G : Graph) (hwf : G.Wf) :
    ∀ e ∈ G.edges, ∀ e' ∈ G.edges,
      canonPair e.1 e.2 = canonPair e'.1 e'.2 → e = e' := by
  have hnd : G.edges.Nodup := hwf.2.2.of_map _
  have h := (List.nodup_map_iff_inj_on hnd).mp hwf.2.2
  exact h

/-- `has_edge = false` means no stored edge has the given unordered
endpoints. -/
theorem Graph.hasEdge_false_canon (G : Graph) (u v : Nat)
    (h : G.hasEdge u v = false) :
    ∀ e ∈ G.edges, canonPair e.1 e.2 ≠ canonPair u v := by
  intro e he hc
  have hmem : (u, v) ∉ G.edges ∧ (v, u) ∉ G.edges := by
    unfold Graph.hasEdge at h
    simp only [Bool.or_eq_false_iff, decide_eq_false_iff_not] at h
    constructor
    · intro hm; exact absurd (by simpa using hm) h.1
    · intro hm; exact absurd (by simpa using hm) h.2
  rcases (canonPair_eq_iff e.1 e.2 u v).mp hc with ⟨h1, h2⟩ | ⟨h1, h2⟩
  · exact hmem.1 (by rw [← h1, ← h2]; exact he)
  · exact hmem.2 (by rw [← h2, ← h1]; exact he)

/-- Removing the unique element failing `p` from a duplicate-free list is a
permutation complement: `l ~ e1 :: l.filter p`. -/
theorem perm_cons_filter {p : (Nat × Nat) → Bool} :
    ∀ (l : List (Nat × Nat)), l.Nodup → ∀ e1, e1 ∈ l → p e1 = false →
      (∀ e ∈ l, e ≠ e1 → p e = true) → l.Perm (e1 :: l.filter p) := by
  intro l
  induction l with
  | nil => intro _ e1 h; exact absurd h (List.not_mem_nil e1)
  | cons h t ih =>
    intro hnd e1 hmem hpe1 hothers
    rcases List.mem_cons.mp hmem with rfl | hmem'
    · have ht : t.filter p = t := by
        rw [List.filter_eq_self]
        intro e he
        exact hothers e (List.mem_cons_of_mem _ he)
          (fun hc => (List.nodup_cons.mp hnd).1 (hc ▸ he))
      have hfc : (e1 :: t).filter p = t := by
        simp [List.filter_cons, hpe1, ht]
      rw [hfc]
    · have hh : h ≠ e1 := fun hc => (List.nodup_cons.mp hnd).1 (hc ▸ hmem')
      have hph : p h = true := hothers h (List.mem_cons_self h t) hh
      have hfc : (h :: t).filter p = h :: t.filter p := by
        simp [List.filter_cons, hph]
      rw [hfc]
      have iht := ih (List.nodup_cons.mp hnd).2 e1 hmem' hpe1
        (fun e he hne => hothers e (List.mem_cons_of_mem _ he) hne)
      exact (iht.cons h).trans (List.Perm.swap e1 h _)

/-- `add_edge` on an absent edge with present endpoints appends the record. -/
theorem addEdge_eq (G : Graph) (u v : Nat) (h : G.hasEdge u v = false)
    (hu : u ∈ G.nodes) (hv : v ∈ G.nodes) :
    G.addEdge u v = ⟨G.nodes, G.edges ++ [(u, v)]⟩ := by
  unfold Graph.addEdge
  rw [if_neg (by simp [h])]
  simp [hu, hv]

/-- Core effect of an accepted double-edge swap: with the acceptance guards
as hypotheses, the swap leaves the node list unchanged, preserves
well-formedness, and preserves every node's degree. -/
theorem applySwap_core (Gr : Graph) (hwf : Gr.Wf) (e1 e2 ne1 ne2 : Nat × Nat)
    (he1 : e1 ∈ Gr.edges) (he2 : e2 ∈ Gr.edges) (hne : e1 ≠ e2)
    (hsl1 : ne1.1 ≠ ne1.2) (hsl2 : ne2.1 ≠ ne2.2)
    (hex1 : Gr.hasEdge ne1.1 ne1.2 = false)
    (hex2 : Gr.hasEdge ne2.1 ne2.2 = false)
    (hcanne : canonPair ne1.1 ne1.2 ≠ canonPair ne2.1 ne2.2)
    (hnn1a : ne1.1 ∈ Gr.nodes) (hnn1b : ne1.2 ∈ Gr.nodes)
    (hnn2a : ne2.1 ∈ Gr.nodes) (hnn2b : ne2.2 ∈ Gr.nodes)
    (hcnt : ∀ x, ([(ne1.1, ne1.2), (ne2.1, ne2.2)] : List (Nat × Nat)).countP
        (Graph.incident x) = ([e1, e2] : List (Nat × Nat)).countP
        (Graph.incident x)) :
    (applySwap Gr e1 e2 ne1 ne2).nodes = Gr.nodes ∧
    (applySwap Gr e1 e2 ne1 ne2).Wf ∧
    ∀ x, (applySwap Gr e1 e2 ne1 ne2).degree x = Gr.degree x := by
  obtain ⟨hndN, hends, hcanonND⟩ := hwf
  have hedND : Gr.edges.Nodup := hcanonND.of_map _
  have hmatch : ∀ (f : Nat × Nat), f ∈ Gr.edges →
      ∀ e ∈ Gr.edges, e ≠ f →
        (decide ¬(e = (f.1, f.2) ∨ e = (f.2, f.1))) = true := by
    intro f hf e he hne'
    rw [decide_eq_true_iff]
    rintro (hc | hc)
    · exact hne' hc
    · exact hne' (Graph.canon_inj Gr ⟨hndN, hends, hcanonND⟩ e he f hf
        (by rw [hc]; exact canonPair_comm f.2 f.1))
  -- Step 1: the two removals delete exactly the records `e1` and `e2`.
  set A := ((Gr.edges.filter
      (fun e => decide ¬(e = (e1.1, e1.2) ∨ e = (e1.2, e1.1)))).filter
      (fun e => decide ¬(e = (e2.1, e2.2) ∨ e = (e2.2, e2.1)))) with hAdef
  have hrm : (Gr.removeEdge e1.1 e1.2).removeEdge e2.1 e2.2 =
      ⟨Gr.nodes, A⟩ := rfl
  have hperm1 : Gr.edges.Perm (e1 :: Gr.edges.filter
      (fun e => decide ¬(e = (e1.1, e1.2) ∨ e = (e1.2, e1.1)))) :=
    perm_cons_filter Gr.edges hedND e1 he1 (by simp) (hmatch e1 he1)
  have he2f : e2 ∈ Gr.edges.filter
      (fun e => decide ¬(e = (e1.1, e1.2) ∨ e = (e1.2, e1.1))) := by
    rw [List.mem_filter]
    exact ⟨he2, hmatch e1 he1 e2 he2 (Ne.symm hne)⟩
  have hperm2 : (Gr.edges.filter
      (fun e => decide ¬(e = (e1.1, e1.2) ∨ e = (e1.2, e1.1)))).Perm
      (e2 :: A) :=
    perm_cons_filter _ (hedND.filter _) e2 he2f (by simp)
      (fun e he hne' => hmatch e2 he2 e (List.mem_of_mem_filter he) hne')
  have hperm : Gr.edges.Perm (e1 :: e2 :: A) :=
    hperm1.trans (hperm2.cons e1)
  have hAsub : ∀ e ∈ A, e ∈ Gr.edges := by
    intro e he
    exact List.mem_of_mem_filter (List.mem_of_mem_filter he)
  -- Step 2: the two additions append fresh records.
  have hexA1 : (⟨Gr.nodes, A⟩ : Graph).hasEdge ne1.1 ne1.2 = false := by
    unfold Graph.hasEdge at hex1 ⊢
    simp only [Bool.or_eq_false_iff, decide_eq_false_iff_not] at hex1 ⊢
    exact ⟨fun hm => hex1.1 (hAsub _ hm), fun hm => hex1.2 (hAsub _ hm)⟩
  have hadd1 : (⟨Gr.nodes, A⟩ : Graph).addEdge ne1.1 ne1.2 =
      ⟨Gr.nodes, A ++ [(ne1.1, ne1.2)]⟩ :=
    addEdge_eq _ _ _ hexA1 hnn1a hnn1b
  have hne2n1 : (ne2.1, ne2.2) ≠ (ne1.1, ne1.2) := by
    intro hc
    exact hcanne (by rw [Prod.ext_iff] at hc; rw [hc.1, hc.2])
  have hne2n1' : (ne2.2, ne2.1) ≠ (ne1.1, ne1.2) := by
    intro hc
    rw [Prod.ext_iff] at hc
    apply hcanne
    rw [← hc.1, ← hc.2]
    exact (canonPair_comm ne2.1 ne2.2).symm
  have hexA2 : (⟨Gr.nodes, A ++ [(ne1.1, ne1.2)]⟩ : Graph).hasEdge ne2.1 ne2.2
      = false := by
    unfold Graph.hasEdge at hex2 ⊢
    simp only [Bool.or_eq_false_iff, decide_eq_false_iff_not,
      List.mem_append, List.mem_singleton] at hex2 ⊢
    constructor
    · rintro (hm | hm)
      · exact hex2.1 (hAsub _ hm)
      · exact hne2n1 hm
    · rintro (hm | hm)
      · exact hex2.2 (hAsub _ hm)
      · exact hne2n1' hm
  have hadd2 : (⟨Gr.nodes, A ++ [(ne1.1, ne1.2)]⟩ : Graph).addEdge ne2.1 ne2.2
      = ⟨Gr.nodes, (A ++ [(ne1.1, ne1.2)]) ++ [(ne2.1, ne2.2)]⟩ :=
    addEdge_eq _ _ _ hexA2 hnn2a hnn2b
  have hfin : applySwap Gr e1 e2 ne1 ne2 =
      ⟨Gr.nodes, (A ++ [(ne1.1, ne1.2)]) ++ [(ne2.1, ne2.2)]⟩ := by
    unfold applySwap
    rw [hrm, hadd1, hadd2]
  refine ⟨by rw [hfin], ?_, ?_⟩
  · -- well-formedness of the swapped graph
    refine ⟨by rw [hfin]; exact hndN, ?_, ?_⟩
    · rw [hfin]
      intro e he
      simp only [List.mem_append, List.mem_singleton] at he
      rcases he with (he | rfl) | rfl
      · exact hends e (hAsub _ he)
      · exact ⟨hnn1a, hnn1b, hsl1⟩
      · exact ⟨hnn2a, hnn2b, hsl2⟩
    · rw [hfin]
      simp only [List.map_append, List.map_cons, List.map_nil]
      have hAnd : (A.map (fun e => canonPair e.1 e.2)).Nodup := by
        have hsub : A.Sublist Gr.edges :=
          (List.filter_sublist _).trans (List.filter_sublist _)
        exact hcanonND.sublist (hsub.map _)
      have hn1A : canonPair ne1.1 ne1.2 ∉ A.map (fun e => canonPair e.1 e.2) := by
        intro hm
        simp only [List.mem_map] at hm
        obtain ⟨e, he, hce⟩ := hm
        exact Graph.hasEdge_false_canon Gr ne1.1 ne1.2 hex1 e (hAsub _ he) hce
      have hn2A : canonPair ne2.1 ne2.2 ∉ A.map (fun e => canonPair e.1 e.2) := by
        intro hm
        simp only [List.mem_map] at hm
        obtain ⟨e, he, hce⟩ := hm
        exact Graph.hasEdge_false_canon Gr ne2.1 ne2.2 hex2 e (hAsub _ he) hce
      rw [List.append_assoc]
      rw [List.nodup_append]
      refine ⟨hAnd, ?_, ?_⟩
      · simp [hcanne]
      · intro x hx hy
        simp only [List.cons_append, List.nil_append, List.mem_cons] at hy
        rcases hy with rfl | hy
        · exact hn1A hx
        · rcases hy with rfl | hy
          · exact hn2A hx
          · exact absurd hy (List.not_mem_nil x)
  · -- degree preservation
    intro x
    unfold Graph.degree
    rw [hfin]
    show ((A ++ [(ne1.1, ne1.2)]) ++ [(ne2.1, ne2.2)]).countP (Graph.incident x)
      = Gr.edges.countP (Graph.incident x)
    rw [List.countP_append, List.countP_append, hperm.countP_eq]
    have h2 := hcnt x
    simp only [List.countP_cons, List.countP_nil] at h2 ⊢
    omega

/-- An accepted swap variant (with the source's acceptance guards) leaves
nodes unchanged and preserves well-formedness and all degrees. -/
theorem applySwap_spec (Gr : Graph) (hwf : Gr.Wf) (e1 e2 ne1 ne2 : Nat × Nat)
    (he1 : e1 ∈ Gr.edges) (he2 : e2 ∈ Gr.edges) (hne : e1 ≠ e2)
    (hvar : (ne1, ne2) ∈ swapVariants e1 e2)
    (hsl1 : ne1.1 ≠ ne1.2) (hsl2 : ne2.1 ≠ ne2.2)
    (hex1 : Gr.hasEdge ne1.1 ne1.2 = false)
    (hex2 : Gr.hasEdge ne2.1 ne2.2 = false)
    (hset : ({ne1.1, ne1.2} : Finset Nat) ≠ {ne2.1, ne2.2}) :
    (applySwap Gr e1 e2 ne1 ne2).nodes = Gr.nodes ∧
    (applySwap Gr e1 e2 ne1 ne2).Wf ∧
    ∀ x, (applySwap Gr e1 e2 ne1 ne2).degree x = Gr.degree x := by
  have hcanne : canonPair ne1.1 ne1.2 ≠ canonPair ne2.1 ne2.2 := by
    intro hc
    rcases (canonPair_eq_iff _ _ _ _).mp hc with ⟨hh1, hh2⟩ | ⟨hh1, hh2⟩
    · exact hset (by rw [hh1, hh2])
    · exact hset (by rw [hh1, hh2]; exact Finset.pair_comm _ _)
  obtain ⟨ha1, hb1, hl1⟩ := hwf.2.1 e1 he1
  obtain ⟨ha2, hb2, hl2⟩ := hwf.2.1 e2 he2
  have hloopE : ∀ e ∈ ([e1, e2] : List (Nat × Nat)), e.1 ≠ e.2 := by
    intro e he
    rcases List.mem_cons.mp he with rfl | he'
    · exact hl1
    · rcases List.mem_cons.mp he' with rfl | he''
      · exact hl2
      · exact absurd he'' (List.not_mem_nil e)
  simp only [swapVariants, List.mem_cons, List.not_mem_nil, or_false] at hvar
  rcases hvar with hv | hv
  · rw [Prod.ext_iff] at hv
    obtain ⟨hN1, hN2⟩ := hv
    subst hN1
    subst hN2
    refine applySwap_core Gr hwf e1 e2 _ _ he1 he2 hne hsl1 hsl2 hex1 hex2
      hcanne ha1 ha2 hb1 hb2 ?_
    intro x
    rw [countP_incident_eq_count x _ ?_, countP_incident_eq_count x _ hloopE]
    · simp only [List.flatMap_cons, List.flatMap_nil, List.append_nil,
        List.cons_append, List.nil_append]
      exact ((List.Perm.swap e1.2 e2.1 [e2.2]).cons e1.1).count_eq x
    · intro e he
      rcases List.mem_cons.mp he with rfl | he'
      · exact hsl1
      · rcases List.mem_cons.mp he' with rfl | he''
        · exact hsl2
        · exact absurd he'' (List.not_mem_nil e)
  · rw [Prod.ext_iff] at hv
    obtain ⟨hN1, hN2⟩ := hv
    subst hN1
    subst hN2
    refine applySwap_core Gr hwf e1 e2 _ _ he1 he2 hne hsl1 hsl2 hex1 hex2
      hcanne ha1 hb2 hb1 ha2 ?_
    intro x
    rw [countP_incident_eq_count x _ ?_, countP_incident_eq_count x _ hloopE]
    · simp only [List.flatMap_cons, List.flatMap_nil, List.append_nil,
        List.cons_append, List.nil_append]
      exact (((List.Perm.swap e1.2 e2.2 [e2.1]).trans
        ((List.Perm.swap e2.1 e2.2 []).cons e1.2)).cons e1.1).count_eq x
    · intro e he
      rcases List.mem_cons.mp he with rfl | he'
      · exact hsl1
      · rcases List.mem_cons.mp he' with rfl | he''
        · exact hsl2
        · exact absurd he'' (List.not_mem_nil e)

/-- Inversion: a `some` result of `evalVariants` satisfies all acceptance
guards. -/
theorem evalVariants_some (Gr : Graph) (fracs : List ℚ) (order : List Nat)
    (deg : Nat → Nat) (pf : Bool) (e1 e2 : Nat × Nat) (r : ℚ)
    (ne1 ne2 : Nat × Nat)
    (h : (evalVariants Gr fracs order deg pf e1 e2).1 = some (r, ne1, ne2)) :
    VariantOk Gr e1 e2 ne1 ne2 := by
  have aux : ∀ (vs : List ((Nat × Nat) × (Nat × Nat)))
      (acc : Option (ℚ × (Nat × Nat) × (Nat × Nat)) × Nat),
      (∀ v ∈ vs, v ∈ swapVariants e1 e2) →
      (∀ r' n1 n2, acc.1 = some (r', n1, n2) → VariantOk Gr e1 e2 n1 n2) →
      ∀ r' n1 n2,
        (vs.foldl (evalVariantStep Gr fracs order deg pf e1 e2) acc).1 =
          some (r', n1, n2) → VariantOk Gr e1 e2 n1 n2 := by
    intro vs
    induction vs with
    | nil => intro acc _ hacc; exact hacc
    | cons v vt ih =>
      intro acc hvs hacc
      simp only [List.foldl_cons]
      apply ih _ (fun w hw => hvs w (List.mem_cons_of_mem v hw))
      intro r' n1 n2 hstep
      unfold evalVariantStep at hstep
      by_cases h1 : v.1.1 = v.1.2 ∨ v.2.1 = v.2.2
      · rw [if_pos h1] at hstep; exact hacc r' n1 n2 hstep
      · rw [if_neg h1] at hstep
        by_cases h2 : Gr.hasEdge v.1.1 v.1.2 = true ∨ Gr.hasEdge v.2.1 v.2.2 = true
        · rw [if_pos h2] at hstep; exact hacc r' n1 n2 hstep
        · rw [if_neg h2] at hstep
          by_cases h3 : ({v.1.1, v.1.2} : Finset Nat) = {v.2.1, v.2.2}
          · rw [if_pos h3] at hstep; exact hacc r' n1 n2 hstep
          · rw [if_neg h3] at hstep
            by_cases h4 : pf = true ∧ 0 ≤ score_degree_mixing deg e1 e2 v.1 v.2
            · rw [if_pos h4] at hstep; exact hacc r' n1 n2 hstep
            · rw [if_neg h4] at hstep
              push_neg at h1 h2
              simp only [Bool.not_eq_true] at h2
              have hv := hvs v (List.mem_cons_self v vt)
              rcases hcase : acc.1 with _ | b
              · rw [hcase] at hstep
                simp only [Option.some.injEq, Prod.mk.injEq] at hstep
                obtain ⟨h6, h7, h8⟩ := hstep
                subst h7
                subst h8
                exact ⟨by simpa using hv, h1.1, h1.2, h2.1, h2.2, h3⟩
              · rw [hcase] at hstep
                simp only at hstep
                by_cases h5 : b.1 < robustness_R_static_fast
                    (applySwap Gr e1 e2 v.1 v.2) fracs order
                · rw [if_pos h5] at hstep
                  simp only [Option.some.injEq, Prod.mk.injEq] at hstep
                  obtain ⟨h6, h7, h8⟩ := hstep
                  subst h7
                  subst h8
                  exact ⟨by simpa using hv, h1.1, h1.2, h2.1, h2.2, h3⟩
                · rw [if_neg h5] at hstep
                  apply hacc r' n1 n2
                  rw [hcase]
                  exact hstep
  exact aux (swapVariants e1 e2) (none, 0) (fun v hv => hv)
    (fun r' n1 n2 hc => by simp at hc) r ne1 ne2 h

/-- The Schneider trial loop preserves well-formedness, the node list, and
every node's degree: the only graph mutation is an accepted double-edge
swap, which `applySwap_spec` shows degree-preserving. -/
theorem schneiderLoop_inv (rngPick : Nat → Nat × Nat) (fracs : List ℚ)
    (order : List Nat) (deg : Nat → Nat) (pf : Bool) (patience : Nat)
    (mdr : ℚ) (G : Graph) :
    ∀ (fuel t : Nat) (st : SchnState), SchnInv G st →
      SchnInv G (schneiderLoop rngPick fracs order deg pf patience mdr
        fuel t st) := by
  intro fuel
  induction fuel with
  | zero => intro t st h; exact h
  | succ n ih =>
    intro t st h
    obtain ⟨hwf, hedges, hnodes, hdeg⟩ := h
    rw [schneiderLoop]
    simp only []
    by_cases hstop : patience ≤ st.no_improve ∨ st.Gr.numberOfEdges < 2
    · rw [if_pos hstop]
      exact ⟨hwf, hedges, hnodes, hdeg⟩
    · rw [if_neg hstop]
      -- sampled edge positions are distinct and in range
      have hlen2 : 2 ≤ st.edges.length := by
        push_neg at hstop
        rw [hedges]
        exact hstop.2
      have hlpos : 0 < st.edges.length := by omega
      set len := st.edges.length with hlendef
      set i := (rngPick t).1 % len with hidef
      set j0 := (rngPick t).2 % (len - 1) with hj0def
      set j : Nat := if i ≤ j0 then j0 + 1 else j0 with hjdef
      have hi : i < len := Nat.mod_lt _ hlpos
      have hj0 : j0 < len - 1 := Nat.mod_lt _ (by omega)
      have hj : j < len := by
        rw [hjdef]
        split <;> omega
      have hij : i ≠ j := by
        rw [hjdef]
        split <;> omega
      have hgetd1 : st.edges.getD i (0, 0) = st.edges.get ⟨i, hi⟩ := by
        rw [List.getD_eq_getElem st.edges (0, 0) hi]
        simp
      have hgetd2 : st.edges.getD j (0, 0) = st.edges.get ⟨j, hj⟩ := by
        rw [List.getD_eq_getElem st.edges (0, 0) hj]
        simp
      have hndup : st.edges.Nodup := by
        rw [hedges]; exact hwf.2.2.of_map _
      have he1m : st.edges.getD i (0, 0) ∈ st.Gr.edges := by
        rw [hgetd1, ← hedges]; exact List.get_mem _ _ _
      have he2m : st.edges.getD j (0, 0) ∈ st.Gr.edges := by
        rw [hgetd2, ← hedges]; exact List.get_mem _ _ _
      have hne12 : st.edges.getD i (0, 0) ≠ st.edges.getD j (0, 0) := by
        rw [hgetd1, hgetd2]
        intro hc
        exact hij (congrArg Fin.val (hndup.get_inj_iff.mp hc))
      by_cases hcard : ({(st.edges.getD i (0, 0)).1, (st.edges.getD i (0, 0)).2,
          (st.edges.getD j (0, 0)).1, (st.edges.getD j (0, 0)).2} :
          Finset Nat).card < 4
      · rw [if_pos hcard]
        exact ih (t + 1) _ ⟨hwf, hedges, hnodes, hdeg⟩
      · rw [if_neg hcard]
        rcases hev : (evalVariants st.Gr fracs order deg pf
            (st.edges.getD i (0, 0)) (st.edges.getD j (0, 0))).1
          with _ | best
        · exact ih (t + 1) _ ⟨hwf, hedges, hnodes, hdeg⟩
        · simp only []
          by_cases hacc : st.R_best + mdr < best.1
          · rw [if_pos hacc]
            have hok := evalVariants_some st.Gr fracs order deg pf
              (st.edges.getD i (0, 0)) (st.edges.getD j (0, 0))
              best.1 best.2.1 best.2.2 hev
            obtain ⟨hvar, hsl1, hsl2, hex1, hex2, hsets⟩ := hok
            have hspec := applySwap_spec st.Gr hwf
              (st.edges.getD i (0, 0)) (st.edges.getD j (0, 0))
              best.2.1 best.2.2 he1m he2m hne12 hvar hsl1 hsl2 hex1 hex2 hsets
            exact ih (t + 1) _
              ⟨hspec.2.1, rfl, hspec.1.trans hnodes,
               fun x => (hspec.2.2 x).trans (hdeg x)⟩
          · rw [if_neg hacc]
            exact ih (t + 1) _ ⟨hwf, hedges, hnodes, hdeg⟩

/-- C6: `optimize_schneider_fast` preserves the degree of every node
exactly — the multiset of node degrees of the optimized graph is identical
to that of the input — so the static degree-based removal order computed at
the start remains valid for the whole run. -/
theorem optimize_schneider_fast_preserves_degrees
    (pyRng : Nat → Nat → Nat × Nat) (G : Graph) (fracsArg : Option (List ℚ))
    (mt pat : Nat) (mdr : ℚ) (seed : Nat) (pf : Bool) (hwf : G.Wf) :
    (∀ x, ((optimize_schneider_fast pyRng G fracsArg mt pat mdr seed
        pf).1).degree x = G.degree x) ∧
    (((optimize_schneider_fast pyRng G fracsArg mt pat mdr seed
        pf).1).nodes.map
        ((optimize_schneider_fast pyRng G fracsArg mt pat mdr seed pf).1).degree
      : Multiset Nat) = (G.nodes.map G.degree : Multiset Nat) := by
  have hinv := schneiderLoop_inv (pyRng seed) (fracsArg.getD defaultSchneiderFracs)
    (static_order_by_degree G.copy) (fun u => Graph.degree G.copy u) pf pat mdr G
    mt 1
    ⟨G.copy, Graph.edges G.copy,
      robustness_R_static_fast G.copy (fracsArg.getD defaultSchneiderFracs)
        (static_order_by_degree G.copy), 0, 0, 1, 0⟩
    ⟨hwf, rfl, rfl, fun _ => rfl⟩
  obtain ⟨hwf', hedges', hnodes', hdeg'⟩ := hinv
  refine ⟨hdeg', ?_⟩
  have hmap : ((optimize_schneider_fast pyRng G fracsArg mt pat mdr seed
      pf).1).nodes.map
      ((optimize_schneider_fast pyRng G fracsArg mt pat mdr seed pf).1).degree
      = G.nodes.map G.degree := by
    rw [show ((optimize_schneider_fast pyRng G fracsArg mt pat mdr seed
      pf).1).nodes = G.nodes from hnodes']
    exact List.map_congr_left (fun x _ => hdeg' x)
  rw [hmap]

/-- C6 (witness): the degree-preservation theorem applied to the three-node
path graph with a concrete pseudo-random pick stream. -/
theorem optimize_schneider_fast_preserves_degrees_witness :
    (Graph.Wf ⟨[0, 1, 2], [(0, 1), (1, 2)]⟩) ∧
    ((∀ x, ((optimize_schneider_fast (fun _ _ => (0, 1))
        ⟨[0, 1, 2], [(0, 1), (1, 2)]⟩ none 3 2 0 0 true).1).degree x =
        Graph.degree ⟨[0, 1, 2], [(0, 1), (1, 2)]⟩ x) ∧
      (((optimize_schneider_fast (fun _ _ => (0, 1))
          ⟨[0, 1, 2], [(0, 1), (1, 2)]⟩ none 3 2 0 0 true).1).nodes.map
          ((optimize_schneider_fast (fun _ _ => (0, 1))
            ⟨[0, 1, 2], [(0, 1), (1, 2)]⟩ none 3 2 0 0 true).1).degree
        : Multiset Nat) =
        (([0, 1, 2] : List Nat).map
          (Graph.degree ⟨[0, 1, 2], [(0, 1), (1, 2)]⟩) : Multiset Nat)) :=
  ⟨by decide, optimize_schneider_fast_preserves_degrees (fun _ _ => (0, 1))
    ⟨[0, 1, 2], [(0, 1), (1, 2)]⟩ none 3 2 0 0 true (by decide)⟩

/-!  ### C7: the caller's graph object is never mutated -/

theorem hget_hset_ne (h : Heap) (r r' : Nat) (g : Graph) (hne : r ≠ r') :
    hget (hset h r' g) r = hget h r := by
  simp only [hget, hset]
  simp [List.getD]
  rw [List.getElem?_set_ne (Ne.symm hne)]

theorem hget_append (h : Heap) (g : Graph) (r : Nat) (hr : r < h.length) :
    hget (h ++ [g]) r = hget h r := by
  simp only [hget]
  rw [List.getD_append _ _ _ _ hr]

theorem hset_length (h : Heap) (r : Nat) (g : Graph) :
    (hset h r g).length = h.length := List.length_set h r g

/-- Writes of the heap removal loop target only `rc`. -/
theorem heapRemoveUpTo_frame (tgt rc : Nat) :
    ∀ (pending : List Nat) (h : Heap) (cnt : Nat),
      (heapRemoveUpTo tgt rc h cnt pending).1.length = h.length ∧
      ∀ r, r ≠ rc → hget (heapRemoveUpTo tgt rc h cnt pending).1 r = hget h r := by
  intro pending
  induction pending with
  | nil => intro h cnt; exact ⟨rfl, fun r _ => rfl⟩
  | cons node rest ih =>
    intro h cnt
    simp only [heapRemoveUpTo]
    by_cases h1 : cnt < tgt
    · rw [if_pos h1]
      by_cases h2 : node ∈ (hget h rc).nodes
      · rw [if_pos h2]
        obtain ⟨hlen, hfr⟩ := ih (hset h rc ((hget h rc).removeNode node)) (cnt + 1)
        refine ⟨by rw [hlen, hset_length], fun r hr => ?_⟩
        rw [hfr r hr, hget_hset_ne h r rc _ hr]
      · rw [if_neg h2]; exact ih h cnt
    · rw [if_neg h1]; exact ⟨rfl, fun r _ => rfl⟩

/-- Writes of the heap sweep target only `rc`. -/
theorem heapSweep_frame (nxDiam : Graph → Except Unit Nat) (N0 rc : Nat) :
    ∀ (fs : List ℚ) (h : Heap) (cnt : Nat) (pending : List Nat),
      (heapSweep nxDiam N0 rc fs h cnt pending).1.length = h.length ∧
      ∀ r, r ≠ rc →
        hget (heapSweep nxDiam N0 rc fs h cnt pending).1 r = hget h r := by
  intro fs
  induction fs with
  | nil => intro h cnt pending; exact ⟨rfl, fun r _ => rfl⟩
  | cons f fs ih =>
    intro h cnt pending
    simp only [heapSweep]
    obtain ⟨hlen1, hfr1⟩ := heapRemoveUpTo_frame (intTrunc (f * N0)).toNat rc
      pending h cnt
    obtain ⟨hlen2, hfr2⟩ := ih (heapRemoveUpTo (intTrunc (f * N0)).toNat rc h
      cnt pending).1
      (heapRemoveUpTo (intTrunc (f * N0)).toNat rc h cnt pending).2.1
      (heapRemoveUpTo (intTrunc (f * N0)).toNat rc h cnt pending).2.2
    refine ⟨by rw [hlen2, hlen1], fun r hr => ?_⟩
    rw [hfr2 r hr, hfr1 r hr]

/-- Frame property of an "allocate a private copy, run, write back" block:
objects below the original heap length are untouched. -/
theorem alloc_write_frame (h : Heap) (g gfin : Graph) (r : Nat)
    (hr : r < h.length) :
    hget (hset (h ++ [g]) h.length gfin) r = hget h r := by
  rw [hget_hset_ne _ r h.length _ (by omega), hget_append h g r hr]

section HeapSimThm

variable {NpState : Type}
variable (npSeed : Nat → NpState)
variable (npChoice : NpState → List Nat → Nat → List Nat × NpState)
variable (nxDiam : Graph → Except Unit Nat)
variable (prO : Graph → Except Unit (List (Nat × ℚ)))
variable (btO : Graph → Option Nat → Except Unit (List (Nat × ℚ)))

/-- The heap strategy dispatch leaves every pre-existing object unchanged
(the targeted strategies mutate only their own fresh copies). -/
theorem heapSelectOrder_frame (h : Heap) (st : NpState)
    (rCopy original_size : Nat) (strategy : String) (seed : Option Nat) :
    h.length ≤ (heapSelectOrder npSeed npChoice prO btO h st rCopy
      original_size strategy seed).1.length ∧
    ∀ r, r < h.length →
      hget (heapSelectOrder npSeed npChoice prO btO h st rCopy original_size
        strategy seed).1 r = hget h r := by
  unfold heapSelectOrder heapDegreeAttack heapPagerankAttack
    heapBetweennessAttack halloc
  by_cases h1 : strategy = "random_attack"
  · rw [if_pos h1]; exact ⟨le_refl _, fun r _ => rfl⟩
  · rw [if_neg h1]
    by_cases h2 : strategy = "degree_targeted_attack"
    · rw [if_pos h2]
      refine ⟨by simp [hset_length], fun r hr => alloc_write_frame h _ _ r hr⟩
    · rw [if_neg h2]
      by_cases h3 : strategy = "pagerank_targeted_attack"
      · rw [if_pos h3]
        refine ⟨by simp [hset_length], fun r hr => alloc_write_frame h _ _ r hr⟩
      · rw [if_neg h3]
        by_cases h4 : strategy = "betweenness_targeted_attack"
        · rw [if_pos h4]
          refine ⟨by simp [hset_length], fun r hr => alloc_write_frame h _ _ r hr⟩
        · rw [if_neg h4]; exact ⟨le_refl _, fun r _ => rfl⟩

/-- The multi-run branch mutates only its per-run fresh copies. -/
theorem heapMultiRun_frame (rG N0 : Nat) (fractions : List ℚ)
    (seed : Option Nat) (n_runs : Nat) (h : Heap) (st : NpState) :
    h.length ≤ (heapMultiRun npSeed npChoice nxDiam rG N0 fractions seed
      n_runs h st).1.length ∧
    ∀ r, r < h.length →
      hget (heapMultiRun npSeed npChoice nxDiam rG N0 fractions seed n_runs
        h st).1 r = hget h r := by
  unfold heapMultiRun
  have hstep : ∀ (acc : Heap × List (List Sample) × NpState) (run : Nat),
      acc.1.length ≤ (heapMultiRunStep npSeed npChoice nxDiam rG N0 fractions
        seed acc run).1.length ∧
      ∀ r, r < acc.1.length →
        hget (heapMultiRunStep npSeed npChoice nxDiam rG N0 fractions seed
          acc run).1 r = hget acc.1 r := by
    intro acc run
    unfold heapMultiRunStep halloc
    obtain ⟨hlen, hfr⟩ := heapSweep_frame nxDiam N0 acc.1.length fractions
      (acc.1 ++ [(hget acc.1 rG).copy]) 0
      (random_attack npSeed npChoice acc.2.2
        (hget (acc.1 ++ [(hget acc.1 rG).copy]) acc.1.length) N0
        (seed.map (fun s => s + run))).1
    constructor
    · rw [hlen]; simp
    · intro r hr
      rw [hfr r (by omega), hget_append acc.1 _ r hr]
  have aux : ∀ (runs : List Nat) (acc : Heap × List (List Sample) × NpState),
      h.length ≤ acc.1.length →
      (∀ r, r < h.length → hget acc.1 r = hget h r) →
      h.length ≤ ((runs.foldl (heapMultiRunStep npSeed npChoice nxDiam rG N0
        fractions seed) acc)).1.length ∧
      ∀ r, r < h.length →
        hget ((runs.foldl (heapMultiRunStep npSeed npChoice nxDiam rG N0
          fractions seed) acc)).1 r = hget h r := by
    intro runs
    induction runs with
    | nil => intro acc hle hpres; exact ⟨hle, hpres⟩
    | cons run rest ih =>
      intro acc hle hpres
      simp only [List.foldl_cons]
      obtain ⟨hle', hfr'⟩ := hstep acc run
      exact ih _ (hle.trans hle')
        (fun r hr => (hfr' r (by omega)).trans (hpres r hr))
  exact aux (List.range n_runs) (h, [], st) (le_refl _) (fun r _ => rfl)

/-- `heap_simulate_attack` never mutates the caller's graph object. -/
theorem heap_simulate_attack_frame (h : Heap) (rG : Nat) (st : NpState)
    (strategy : String) (fractionsArg : Option (List ℚ)) (n_runs : Nat)
    (seed : Option Nat) (hr : rG < h.length) :
    hget (heap_simulate_attack npSeed npChoice nxDiam prO btO h rG st
      strategy fractionsArg n_runs seed).1 rG = hget h rG := by
  unfold heap_simulate_attack
  by_cases h0 : (hget h rG).len = 0
  · rw [if_pos h0]
  · rw [if_neg h0]
    by_cases hb : strategy = "random_attack" ∧ 1 < n_runs
    · rw [if_pos hb]
      exact (heapMultiRun_frame npSeed npChoice nxDiam rG (hget h rG).len
        _ seed n_runs h st).2 rG hr
    · rw [if_neg hb]
      obtain ⟨hle1, hfr1⟩ := heapSelectOrder_frame npSeed npChoice prO btO
        (halloc h (hget h rG).copy).1 st (halloc h (hget h rG).copy).2
        (hget h rG).len strategy seed
      obtain ⟨_, hfr2⟩ := heapSweep_frame nxDiam (hget h rG).len
        (halloc h (hget h rG).copy).2 (fractionsArg.getD defaultFractions)
        (heapSelectOrder npSeed npChoice prO btO (halloc h (hget h rG).copy).1
          st (halloc h (hget h rG).copy).2 (hget h rG).len strategy seed).1 0
        (heapSelectOrder npSeed npChoice prO btO (halloc h (hget h rG).copy).1
          st (halloc h (hget h rG).copy).2 (hget h rG).len strategy seed).2.1
      rw [hfr2 rG (by simp only [halloc]; omega)]
      rw [hfr1 rG (by simp only [halloc]; simp; omega)]
      simp only [halloc]
      exact hget_append h _ rG hr

end HeapSimThm

/-- Writes of the heap hub-pairing inner loop target only `rc`. -/
theorem heapSimpleInner_frame (geoDist : Nat → Nat → Option ℚ)
    (k : Nat) (existing : List (Nat × Nat)) (src rc : Nat) :
    ∀ (ds : List Nat) (cap : Option ℚ) (h : Heap) (cnt : Nat),
      (heapSimpleInner geoDist cap k existing src rc ds h cnt).1.length =
        h.length ∧
      ∀ r, r ≠ rc →
        hget (heapSimpleInner geoDist cap k existing src rc ds h cnt).1 r =
          hget h r := by
  intro ds
  induction ds with
  | nil => intro cap h cnt; exact ⟨rfl, fun r _ => rfl⟩
  | cons dst ds ih =>
    intro cap h cnt
    simp only [heapSimpleInner]
    by_cases h1 : k ≤ cnt
    · rw [if_pos h1]; exact ⟨rfl, fun r _ => rfl⟩
    · rw [if_neg h1]
      by_cases h2 : canonPair src dst ∈ existing
      · rw [if_pos h2]; exact ih cap h cnt
      · rw [if_neg h2]
        rcases hd : geoDist src dst with _ | dist
        · exact ih cap h cnt
        · rcases cap with _ | mx
          · exact ih none h cnt
          · simp only
            by_cases h3 : dist ≤ mx
            · rw [if_pos h3]
              obtain ⟨hlen, hfr⟩ := ih (some mx)
                (hset h rc ((hget h rc).addEdge src dst)) (cnt + 1)
              refine ⟨by rw [hlen, hset_length], fun r hr => ?_⟩
              rw [hfr r hr, hget_hset_ne h r rc _ hr]
            · rw [if_neg h3]; exact ih (some mx) h cnt

/-- Writes of the heap hub-pairing outer loop target only `rc`. -/
theorem heapSimpleOuter_frame (geoDist : Nat → Nat → Option ℚ)
    (cap : Option ℚ) (k : Nat) (existing : List (Nat × Nat)) (rc : Nat) :
    ∀ (hubs : List Nat) (h : Heap) (cnt : Nat),
      (heapSimpleOuter geoDist cap k existing rc hubs h cnt).length =
        h.length ∧
      ∀ r, r ≠ rc →
        hget (heapSimpleOuter geoDist cap k existing rc hubs h cnt) r =
          hget h r := by
  intro hubs
  induction hubs with
  | nil => intro h cnt; exact ⟨rfl, fun r _ => rfl⟩
  | cons src rest ih =>
    intro h cnt
    simp only [heapSimpleOuter]
    by_cases h1 : k ≤ cnt
    · rw [if_pos h1]; exact ⟨rfl, fun r _ => rfl⟩
    · rw [if_neg h1]
      obtain ⟨hlen1, hfr1⟩ := heapSimpleInner_frame geoDist k existing
        src rc rest cap h cnt
      obtain ⟨hlen2, hfr2⟩ := ih
        (heapSimpleInner geoDist cap k existing src rc rest h cnt).1
        (heapSimpleInner geoDist cap k existing src rc rest h cnt).2
      refine ⟨by rw [hlen2, hlen1], fun r hr => ?_⟩
      rw [hfr2 r hr, hfr1 r hr]

/-- The heap fallback defense mutates only its own fresh copy. -/
theorem heap_reinforce_graph_simple_frame (geoDist : Nat → Nat → Option ℚ)
    (h : Heap) (rArg k : Nat) (cap : Option ℚ) :
    h.length ≤ (heap_reinforce_graph_simple geoDist h rArg k cap).1.length ∧
    ∀ r, r < h.length →
      hget (heap_reinforce_graph_simple geoDist h rArg k cap).1 r =
        hget h r := by
  unfold heap_reinforce_graph_simple halloc
  by_cases h1 : (hget h rArg).len < 2
  · rw [if_pos h1]
    exact ⟨by simp, fun r hr => hget_append h _ r hr⟩
  · rw [if_neg h1]
    obtain ⟨hlen, hfr⟩ := heapSimpleOuter_frame geoDist cap k
      ((hget h rArg).edges.map (fun e => canonPair e.1 e.2)) h.length
      (((sortDescBy (fun x => (x.2 : ℚ)) (hget h rArg).degreeItems).take
        k).map (fun x => x.1)) (h ++ [(hget h rArg).copy]) 0
    constructor
    · rw [hlen]; simp
    · intro r hr
      rw [hfr r (by omega), hget_append h _ r hr]

/-- Writes of the heap edge-adding loop target only `rc`. -/
theorem heapAddLoop_frame (rc : Nat) :
    ∀ (es : List (Nat × Nat)) (h : Heap),
      (heapAddLoop rc es h).length = h.length ∧
      ∀ r, r ≠ rc → hget (heapAddLoop rc es h) r = hget h r := by
  intro es
  induction es with
  | nil => intro h; exact ⟨rfl, fun r _ => rfl⟩
  | cons e rest ih =>
    intro h
    simp only [heapAddLoop]
    obtain ⟨hlen, hfr⟩ := ih (hset h rc ((hget h rc).addEdge e.1 e.2))
    refine ⟨by rw [hlen, hset_length], fun r hr => ?_⟩
    rw [hfr r hr, hget_hset_ne h r rc _ hr]

/-- `heap_add_edges_by_effective_resistance` never mutates the caller's
graph object. -/
theorem heap_add_edges_frame (pyRandom : Nat → Nat → Nat)
    (geoDist : Nat → Nat → Option ℚ)
    (spluO : Graph → List Nat → Except Unit (Nat → Nat → Except Unit ℚ))
    (h : Heap) (rG : Nat) (k max_candidates : Nat) (cap : Option ℚ)
    (seed : Nat) (hr : rG < h.length) :
    hget (heap_add_edges_by_effective_resistance pyRandom geoDist spluO h rG
      k max_candidates cap seed).1 rG = hget h rG := by
  unfold heap_add_edges_by_effective_resistance halloc
  by_cases h1 : (hget h rG).len < 2
  · rw [if_pos h1]
    exact hget_append h _ rG hr
  · rw [if_neg h1]
    simp only []
    cases hsplu : spluO
        (hget (h ++ [((hget h rG).subgraphOn
          (hget h rG).largestComponentNodes).copy]) h.length)
        (hget (h ++ [((hget h rG).subgraphOn
          (hget h rG).largestComponentNodes).copy]) h.length).nodes with
    | error e =>
      obtain ⟨_, hfr⟩ := heap_reinforce_graph_simple_frame geoDist
        (h ++ [((hget h rG).subgraphOn
          (hget h rG).largestComponentNodes).copy]) h.length k cap
      exact (hfr rG (by simp; omega)).trans (hget_append h _ rG hr)
    | ok reff =>
      obtain ⟨_, hfr⟩ := heapAddLoop_frame
        (h ++ [((hget h rG).subgraphOn
          (hget h rG).largestComponentNodes).copy]).length
        (((sortDescBy (fun s => s.1)
          ((sample_candidate_edges pyRandom geoDist
            (hget (h ++ [((hget h rG).subgraphOn
              (hget h rG).largestComponentNodes).copy]) h.length)
            max_candidates cap seed).filterMap (fun c =>
              match reff c.1 c.2.1 with
              | .ok r => some (r, c.1, c.2.1, c.2.2)
              | .error _ => none))).take k).map (fun s => (s.2.1, s.2.2.1)))
        ((h ++ [((hget h rG).subgraphOn
          (hget h rG).largestComponentNodes).copy]) ++
          [(hget (h ++ [((hget h rG).subgraphOn
            (hget h rG).largestComponentNodes).copy]) h.length).copy])
      exact (hfr rG (by simp; omega)).trans
        ((hget_append _ _ rG (by simp; omega)).trans (hget_append h _ rG hr))

/-- Writes of the heap variant evaluation target only `rc`. -/
theorem heapEvalVariants_frame (fracs : List ℚ) (order : List Nat)
    (deg : Nat → Nat) (pf : Bool) (rc : Nat) (e1 e2 : Nat × Nat) (h : Heap) :
    (heapEvalVariants fracs order deg pf rc e1 e2 h).1.length = h.length ∧
    ∀ r, r ≠ rc →
      hget (heapEvalVariants fracs order deg pf rc e1 e2 h).1 r = hget h r := by
  unfold heapEvalVariants
  have hstep : ∀ (acc : Heap × Option (ℚ × (Nat × Nat) × (Nat × Nat)) × Nat)
      (v : (Nat × Nat) × (Nat × Nat)),
      (heapEvalVariantStep fracs order deg pf rc e1 e2 acc v).1.length =
        acc.1.length ∧
      ∀ r, r ≠ rc →
        hget (heapEvalVariantStep fracs order deg pf rc e1 e2 acc v).1 r =
          hget acc.1 r := by
    intro acc v
    unfold heapEvalVariantStep
    by_cases h1 : v.1.1 = v.1.2 ∨ v.2.1 = v.2.2
    · rw [if_pos h1]; exact ⟨rfl, fun r _ => rfl⟩
    · rw [if_neg h1]
      by_cases h2 : (hget acc.1 rc).hasEdge v.1.1 v.1.2 = true ∨
          (hget acc.1 rc).hasEdge v.2.1 v.2.2 = true
      · rw [if_pos h2]; exact ⟨rfl, fun r _ => rfl⟩
      · rw [if_neg h2]
        by_cases h3 : ({v.1.1, v.1.2} : Finset Nat) = {v.2.1, v.2.2}
        · rw [if_pos h3]; exact ⟨rfl, fun r _ => rfl⟩
        · rw [if_neg h3]
          by_cases h4 : pf = true ∧ 0 ≤ score_degree_mixing deg e1 e2 v.1 v.2
          · rw [if_pos h4]; exact ⟨rfl, fun r _ => rfl⟩
          · rw [if_neg h4]
            refine ⟨by simp [hset_length], fun r hr => ?_⟩
            simp only
            rw [hget_hset_ne _ r rc _ hr, hget_hset_ne _ r rc _ hr]
  have aux : ∀ (vs : List ((Nat × Nat) × (Nat × Nat)))
      (acc : Heap × Option (ℚ × (Nat × Nat) × (Nat × Nat)) × Nat),
      (vs.foldl (heapEvalVariantStep fracs order deg pf rc e1 e2) acc).1.length
        = acc.1.length ∧
      ∀ r, r ≠ rc →
        hget (vs.foldl (heapEvalVariantStep fracs order deg pf rc e1 e2)
          acc).1 r = hget acc.1 r := by
    intro vs
    induction vs with
    | nil => intro acc; exact ⟨rfl, fun r _ => rfl⟩
    | cons v vt ih =>
      intro acc
      simp only [List.foldl_cons]
      obtain ⟨hl1, hf1⟩ := hstep acc v
      obtain ⟨hl2, hf2⟩ := ih (heapEvalVariantStep fracs order deg pf rc e1 e2
        acc v)
      exact ⟨hl2.trans hl1, fun r hr => (hf2 r hr).trans (hf1 r hr)⟩
  exact aux (swapVariants e1 e2) (h, none, 0)

/-- Writes of the heap Schneider trial loop target only `rc`. -/
theorem heapSchneiderLoop_frame (rngPick : Nat → Nat × Nat) (fracs : List ℚ)
    (order : List Nat) (deg : Nat → Nat) (pf : Bool) (patience : Nat)
    (mdr : ℚ) (rc : Nat) :
    ∀ (fuel t : Nat) (h : Heap) (st : SchnState),
      ∀ r, r ≠ rc →
        hget (heapSchneiderLoop rngPick fracs order deg pf patience mdr rc
          fuel t h st).1 r = hget h r := by
  intro fuel
  induction fuel with
  | zero => intro t h st r hr; rfl
  | succ n ih =>
    intro t h st r hr
    rw [heapSchneiderLoop]
    simp only []
    by_cases h1 : patience ≤ st.no_improve ∨ (hget h rc).numberOfEdges < 2
    · rw [if_pos h1]
    · rw [if_neg h1]
      by_cases h2 : ({(st.edges.getD ((rngPick t).1 % st.edges.length)
          (0, 0)).1, (st.edges.getD ((rngPick t).1 % st.edges.length)
          (0, 0)).2,
          (st.edges.getD (if (rngPick t).1 % st.edges.length ≤
              (rngPick t).2 % (st.edges.length - 1) then
              (rngPick t).2 % (st.edges.length - 1) + 1
            else (rngPick t).2 % (st.edges.length - 1)) (0, 0)).1,
          (st.edges.getD (if (rngPick t).1 % st.edges.length ≤
              (rngPick t).2 % (st.edges.length - 1) then
              (rngPick t).2 % (st.edges.length - 1) + 1
            else (rngPick t).2 % (st.edges.length - 1)) (0, 0)).2} :
          Finset Nat).card < 4
      · rw [if_pos h2]
        exact ih (t + 1) h _ r hr
      · rw [if_neg h2]
        obtain ⟨_, hfrEv⟩ := heapEvalVariants_frame fracs order deg pf rc
          (st.edges.getD ((rngPick t).1 % st.edges.length) (0, 0))
          (st.edges.getD (if (rngPick t).1 % st.edges.length ≤
              (rngPick t).2 % (st.edges.length - 1) then
              (rngPick t).2 % (st.edges.length - 1) + 1
            else (rngPick t).2 % (st.edges.length - 1)) (0, 0)) h
        rcases hev : (heapEvalVariants fracs order deg pf rc
            (st.edges.getD ((rngPick t).1 % st.edges.length) (0, 0))
            (st.edges.getD (if (rngPick t).1 % st.edges.length ≤
                (rngPick t).2 % (st.edges.length - 1) then
                (rngPick t).2 % (st.edges.length - 1) + 1
              else (rngPick t).2 % (st.edges.length - 1)) (0, 0)) h).2.1
          with _ | best
        · rw [ih (t + 1) _ _ r hr, hfrEv r hr]
        · simp only []
          by_cases hacc : st.R_best + mdr < best.1
          · rw [if_pos hacc]
            rw [ih (t + 1) _ _ r hr, hget_hset_ne _ r rc _ hr, hfrEv r hr]
          · rw [if_neg hacc]
            rw [ih (t + 1) _ _ r hr, hfrEv r hr]

/-- `heap_optimize_schneider_fast` never mutates the caller's graph
object. -/
theorem heap_optimize_frame (pyRng : Nat → Nat → Nat × Nat) (h : Heap)
    (rG : Nat) (fracsArg : Option (List ℚ)) (mt pat : Nat) (mdr : ℚ)
    (seed : Nat) (pf : Bool) (hr : rG < h.length) :
    hget (heap_optimize_schneider_fast pyRng h rG fracsArg mt pat mdr seed
      pf).1 rG = hget h rG := by
  unfold heap_optimize_schneider_fast halloc
  simp only []
  rw [heapSchneiderLoop_frame (pyRng seed) _ _ _ pf pat mdr h.length mt 1 _ _
    rG (by omega)]
  exact hget_append h _ rG hr

/-- C7: each public entry point — `simulate_attack`,
`add_edges_by_effective_resistance`, `optimize_schneider_fast` — leaves the
caller's graph object unchanged: in the heap embedding, the object at the
caller's reference is identical before and after the call; all mutation
targets freshly allocated copies. -/
theorem entry_points_never_mutate_caller {NpState : Type}
    (npSeed : Nat → NpState)
    (npChoice : NpState → List Nat → Nat → List Nat × NpState)
    (nxDiam : Graph → Except Unit Nat)
    (prO : Graph → Except Unit (List (Nat × ℚ)))
    (btO : Graph → Option Nat → Except Unit (List (Nat × ℚ)))
    (pyRandom : Nat → Nat → Nat) (geoDist : Nat → Nat → Option ℚ)
    (spluO : Graph → List Nat → Except Unit (Nat → Nat → Except Unit ℚ))
    (pyRng : Nat → Nat → Nat × Nat) (h : Heap) (rG : Nat) (st : NpState)
    (strategy : String) (fractionsArg : Option (List ℚ)) (n_runs : Nat)
    (seed : Option Nat) (k max_candidates : Nat) (cap : Option ℚ)
    (sd1 : Nat) (fracsArg : Option (List ℚ)) (mt pat : Nat) (mdr : ℚ)
    (sd2 : Nat) (pf : Bool) (hr : rG < h.length) :
    hget (heap_simulate_attack npSeed npChoice nxDiam prO btO h rG st
      strategy fractionsArg n_runs seed).1 rG = hget h rG ∧
    hget (heap_add_edges_by_effective_resistance pyRandom geoDist spluO h rG
      k max_candidates cap sd1).1 rG = hget h rG ∧
    hget (heap_optimize_schneider_fast pyRng h rG fracsArg mt pat mdr sd2
      pf).1 rG = hget h rG :=
  ⟨heap_simulate_attack_frame npSeed npChoice nxDiam prO btO h rG st strategy
    fractionsArg n_runs seed hr,
   heap_add_edges_frame pyRandom geoDist spluO h rG k max_candidates cap sd1
    hr,
   heap_optimize_frame pyRng h rG fracsArg mt pat mdr sd2 pf hr⟩

/-- C7 (witness): a one-object heap holding the two-node path graph. -/
theorem entry_points_never_mutate_caller_witness :
    (0 < List.length ([(⟨[0, 1], [(0, 1)]⟩ : Graph)] : Heap)) ∧
    (hget (heap_simulate_attack (fun _ => PUnit.unit)
        (fun st ns k => (ns.take k, st)) (fun _ => Except.ok 0)
        (fun _ => Except.error ()) (fun _ _ => Except.error ())
        [(⟨[0, 1], [(0, 1)]⟩ : Graph)] 0 PUnit.unit "degree_targeted_attack"
        (some [0, 1/2]) 1 none).1 0 =
      hget [(⟨[0, 1], [(0, 1)]⟩ : Graph)] 0 ∧
     hget (heap_add_edges_by_effective_resistance (fun _ _ => 0)
        (fun _ _ => none) (fun _ _ => Except.error ())
        [(⟨[0, 1], [(0, 1)]⟩ : Graph)] 0 1 5 none 0).1 0 =
      hget [(⟨[0, 1], [(0, 1)]⟩ : Graph)] 0 ∧
     hget (heap_optimize_schneider_fast (fun _ _ => (0, 1))
        [(⟨[0, 1], [(0, 1)]⟩ : Graph)] 0 none 2 1 0 0 true).1 0 =
      hget [(⟨[0, 1], [(0, 1)]⟩ : Graph)] 0) :=
  ⟨by decide,
   entry_points_never_mutate_caller (fun _ => PUnit.unit)
    (fun st ns k => (ns.take k, st)) (fun _ => Except.ok 0)
    (fun _ => Except.error ()) (fun _ _ => Except.error ()) (fun _ _ => 0)
    (fun _ _ => none) (fun _ _ => Except.error ()) (fun _ _ => (0, 1))
    [(⟨[0, 1], [(0, 1)]⟩ : Graph)] 0 PUnit.unit "degree_targeted_attack"
    (some [0, 1/2]) 1 none 1 5 none 0 none 2 1 0 0 true (by decide)⟩

/-!  ### C4: effective resistance is symmetric and positive -/

/-- The signed incidence vector of an edge. -/
def cvec {n : Nat} (u v : Fin n) : Fin n → ℝ := fun i =>
  (if i = u then 1 else 0) - (if i = v then 1 else 0)

theorem cvec_dot {n : Nat} (u v : Fin n) (x : Fin n → ℝ) :
    Matrix.dotProduct (cvec u v) x = x u - x v := by
  unfold Matrix.dotProduct cvec
  simp only [sub_mul, one_mul, zero_mul, ite_mul, Finset.sum_sub_distrib]
  rw [Finset.sum_ite_eq' Finset.univ u x, Finset.sum_ite_eq' Finset.univ v x]
  simp

theorem edgeMatrix_eq_vecMulVec {n : Nat} (u v : Fin n) (h : u ≠ v) :
    edgeMatrix u v = Matrix.vecMulVec (cvec u v) (cvec u v) := by
  ext i j
  simp only [edgeMatrix, Matrix.of_apply, Matrix.vecMulVec_apply, cvec]
  by_cases hiu : i = u <;> by_cases hiv : i = v <;>
    by_cases hju : j = u <;> by_cases hjv : j = v <;>
    simp_all <;> ring

theorem edgeMatrix_quadform {n : Nat} (u v : Fin n) (h : u ≠ v)
    (x : Fin n → ℝ) :
    Matrix.dotProduct x ((edgeMatrix u v).mulVec x) = (x u - x v) ^ 2 := by
  rw [edgeMatrix_eq_vecMulVec u v h]
  have hmv : (Matrix.vecMulVec (cvec u v) (cvec u v)).mulVec x =
      fun i => cvec u v i * Matrix.dotProduct (cvec u v) x := by
    funext i
    unfold Matrix.vecMulVec Matrix.mulVec Matrix.dotProduct
    simp only [Matrix.of_apply]
    rw [Finset.mul_sum]
    exact Finset.sum_congr rfl (fun j _ => by ring)
  rw [hmv]
  have : Matrix.dotProduct x
      (fun i => cvec u v i * Matrix.dotProduct (cvec u v) x) =
      Matrix.dotProduct x (cvec u v) * Matrix.dotProduct (cvec u v) x := by
    unfold Matrix.dotProduct
    rw [Finset.sum_mul]
    exact Finset.sum_congr rfl (fun j _ => by ring)
  rw [this, cvec_dot]
  have hxc : Matrix.dotProduct x (cvec u v) = x u - x v := by
    unfold Matrix.dotProduct cvec
    simp only [mul_sub, mul_one, mul_zero, mul_ite, Finset.sum_sub_distrib]
    rw [Finset.sum_ite_eq' Finset.univ u x, Finset.sum_ite_eq' Finset.univ v x]
    simp
  rw [hxc]
  ring

/-- Quadratic form of the assembled Laplacian: the sum of squared
differences over the (non-loop) edges. -/
theorem laplacian_quadform {n : Nat} (x : Fin n → ℝ) :
    ∀ (es : List (Fin n × Fin n)) (A : Matrix (Fin n) (Fin n) ℝ),
      Matrix.dotProduct x
        ((es.foldl (fun L e => if e.1 = e.2 then L else L + edgeMatrix e.1 e.2)
          A).mulVec x) =
      Matrix.dotProduct x (A.mulVec x) +
        (es.map (fun e => if e.1 = e.2 then (0 : ℝ)
          else (x e.1 - x e.2) ^ 2)).sum := by
  intro es
  induction es with
  | nil => intro A; simp
  | cons e es ih =>
    intro A
    simp only [List.foldl_cons, List.map_cons, List.sum_cons]
    by_cases he : e.1 = e.2
    · rw [if_pos he, if_pos he, ih A]
      ring
    · rw [if_neg he, if_neg he, ih (A + edgeMatrix e.1 e.2)]
      rw [Matrix.add_mulVec, Matrix.dotProduct_add]
      rw [edgeMatrix_quadform e.1 e.2 he x]
      ring

/-- Zero-extension of a reduced vector to the full index set (zero at the
ground `g = n - 1`). -/
def extendZero {m : Nat} (y : Fin m → ℝ) : Fin (m + 1) → ℝ := fun i =>
  if h : i = Fin.last m then 0 else y (i.castPred h)

theorem extendZero_castSucc {m : Nat} (y : Fin m → ℝ) (i : Fin m) :
    extendZero y i.castSucc = y i := by
  unfold extendZero
  rw [dif_neg (Fin.castSucc_lt_last i).ne]
  simp

theorem extendZero_last {m : Nat} (y : Fin m → ℝ) :
    extendZero y (Fin.last m) = 0 := by
  unfold extendZero
  rw [dif_pos rfl]

/-- The grounded quadratic form is the full quadratic form of the
zero-extended vector. -/
theorem grounded_quadform {m : Nat} (es : List (Fin (m + 1) × Fin (m + 1)))
    (y : Fin m → ℝ) :
    Matrix.dotProduct y ((groundedLaplacian es).mulVec y) =
      Matrix.dotProduct (extendZero y) ((laplacian es).mulVec (extendZero y)) := by
  unfold groundedLaplacian Matrix.dotProduct Matrix.mulVec Matrix.submatrix
  simp only [Matrix.of_apply]
  rw [Fin.sum_univ_castSucc]
  rw [extendZero_last]
  simp only [mul_zero, zero_mul, add_zero]
  apply Finset.sum_congr rfl
  intro i _
  rw [extendZero_castSucc]
  congr 1
  unfold Matrix.dotProduct
  rw [Fin.sum_univ_castSucc, extendZero_last]
  simp only [mul_zero, add_zero]
  apply Finset.sum_congr rfl
  intro j _
  rw [extendZero_castSucc]

/-- A list of non-negative reals summing to zero is pointwise zero. -/
theorem list_sum_nonneg_eq_zero : ∀ (l : List ℝ), (∀ a ∈ l, 0 ≤ a) →
    l.sum = 0 → ∀ a ∈ l, a = 0 := by
  intro l
  induction l with
  | nil => intro _ _ a ha; exact absurd ha (List.not_mem_nil a)
  | cons b bs ih =>
    intro hpos hsum a ha
    have hb : 0 ≤ b := hpos b (List.mem_cons_self b bs)
    have hbs : 0 ≤ bs.sum := List.sum_nonneg
      (fun a ha => hpos a (List.mem_cons_of_mem b ha))
    rw [List.sum_cons] at hsum
    rcases List.mem_cons.mp ha with rfl | ha'
    · linarith
    · exact ih (fun a ha => hpos a (List.mem_cons_of_mem b ha))
        (by linarith) a ha'

/-- Connectivity makes the grounded Laplacian positive definite. -/
theorem groundedLaplacian_posdef {m : Nat}
    (es : List (Fin (m + 1) × Fin (m + 1)))
    (hconn : ∀ a b, connectedIdx es a b) (y : Fin m → ℝ) (hy : y ≠ 0) :
    0 < Matrix.dotProduct y ((groundedLaplacian es).mulVec y) := by
  rw [grounded_quadform es y]
  rw [show (laplacian es) = es.foldl
    (fun L e => if e.1 = e.2 then L else L + edgeMatrix e.1 e.2) 0 from rfl]
  rw [laplacian_quadform (extendZero y) es 0]
  simp only [Matrix.zero_mulVec, Matrix.dotProduct_zero, zero_add]
  set x := extendZero y with hxdef
  have hterms : ∀ a ∈ es.map (fun e => if e.1 = e.2 then (0 : ℝ)
      else (x e.1 - x e.2) ^ 2), 0 ≤ a := by
    intro a ha
    simp only [List.mem_map] at ha
    obtain ⟨e, _, rfl⟩ := ha
    by_cases he : e.1 = e.2
    · rw [if_pos he]
    · rw [if_neg he]; positivity
  rcases lt_or_eq_of_le (List.sum_nonneg hterms) with h | h
  · exact h
  · exfalso
    have hedge : ∀ e ∈ es, x e.1 = x e.2 := by
      intro e he
      by_cases hee : e.1 = e.2
      · rw [hee]
      · have := list_sum_nonneg_eq_zero _ hterms h.symm
          ((x e.1 - x e.2) ^ 2) (by
            simp only [List.mem_map]
            exact ⟨e, he, by rw [if_neg hee]⟩)
        have := pow_eq_zero_iff (n := 2) (by omega) |>.mp this
        linarith [sub_eq_zero.mp this]
    have hreach : ∀ a b, connectedIdx es a b → x a = x b := by
      intro a b hab
      induction hab with
      | refl => rfl
      | tail _ hstep ihx =>
        rcases hstep with hm | hm
        · exact ihx.trans (hedge _ hm)
        · exact ihx.trans (hedge _ hm).symm
    have hzero : ∀ i : Fin (m + 1), x i = 0 := by
      intro i
      rw [hreach i (Fin.last m) (hconn i (Fin.last m)), hxdef, extendZero_last]
    apply hy
    funext j
    have := hzero j.castSucc
    rw [hxdef, extendZero_castSucc] at this
    exact this

/-- `effective_resistance` is the quadratic form of the solve matrix at the
reduced incidence vector. -/
theorem effective_resistance_eq_dot {m : Nat} (M : Matrix (Fin m) (Fin m) ℝ)
    (u v : Fin (m + 1)) :
    effective_resistance M u v =
      Matrix.dotProduct (bvec u v) (M.mulVec (bvec u v)) := by
  unfold effective_resistance
  simp only []
  set x := M.mulVec (bvec u v) with hx
  unfold Matrix.dotProduct bvec
  simp only [add_mul, Finset.sum_add_distrib]
  have h1 : ∀ (w : Fin (m + 1)) (s : ℝ),
      (Finset.univ.sum fun j =>
        (if h : w = Fin.last m then 0 else if j = w.castPred h then s else 0)
          * x j) =
      (if h : w = Fin.last m then 0 else s * x (w.castPred h)) := by
    intro w s
    by_cases h : w = Fin.last m
    · simp [h]
    · rw [dif_neg h]
      simp only [dif_neg h, ite_mul, zero_mul]
      rw [Finset.sum_ite_eq' Finset.univ (w.castPred h) (fun j => s * x j)]
      simp
  rw [h1 u 1, h1 v (-1)]
  by_cases hu : u = Fin.last m <;> by_cases hv : v = Fin.last m <;>
    simp [hu, hv] <;> ring

theorem bvec_swap {m : Nat} (u v : Fin (m + 1)) : bvec v u = -bvec u v := by
  funext j
  simp only [bvec, Pi.neg_apply]
  split_ifs <;> ring

/-- C4: on a connected snapshot with an exact grounded-Laplacian solve,
effective resistance is symmetric and strictly positive between distinct
nodes. -/
theorem effective_resistance_symm_pos {m : Nat}
    (es : List (Fin (m + 1) × Fin (m + 1)))
    (M : Matrix (Fin m) (Fin m) ℝ)
    (hM : ∀ b, (groundedLaplacian es).mulVec (M.mulVec b) = b)
    (hconn : ∀ a b, connectedIdx es a b)
    (u v : Fin (m + 1)) (huv : u ≠ v) :
    effective_resistance M u v = effective_resistance M v u ∧
    0 < effective_resistance M u v := by
  constructor
  · rw [effective_resistance_eq_dot, effective_resistance_eq_dot, bvec_swap]
    rw [Matrix.mulVec_neg, Matrix.dotProduct_neg, Matrix.neg_dotProduct]
    ring
  · rw [effective_resistance_eq_dot]
    have hbne : bvec u v ≠ 0 := by
      intro hc
      by_cases hu : u = Fin.last m
      · have hv : v ≠ Fin.last m := fun hvv => huv (hu.trans hvv.symm)
        have := congrFun hc (v.castPred hv)
        unfold bvec at this
        rw [dif_pos hu, dif_neg hv] at this
        simp at this
      · have := congrFun hc (u.castPred hu)
        unfold bvec at this
        rw [dif_neg hu] at this
        by_cases hv : v = Fin.last m
        · rw [dif_pos hv] at this
          simp at this
        · rw [dif_neg hv] at this
          have hne : u.castPred hu ≠ v.castPred hv := by
            intro hcc
            exact huv (by
              have := congrArg Fin.castSucc hcc
              simpa using this)
          simp [hne] at this
    have hyne : M.mulVec (bvec u v) ≠ 0 := by
      intro hc
      apply hbne
      have := hM (bvec u v)
      rw [hc, Matrix.mulVec_zero] at this
      exact this.symm
    have hpos := groundedLaplacian_posdef es hconn (M.mulVec (bvec u v)) hyne
    have heq : Matrix.dotProduct (bvec u v) (M.mulVec (bvec u v)) =
        Matrix.dotProduct (M.mulVec (bvec u v))
          ((groundedLaplacian es).mulVec (M.mulVec (bvec u v))) := by
      rw [hM (bvec u v), Matrix.dotProduct_comm]
    rw [heq]
    exact hpos

/-- Witness: the two-node path, whose grounded Laplacian is the 1×1
identity, so the exact solve is the identity matrix. -/
theorem effective_resistance_symm_pos_witness :
    effective_resistance (1 : Matrix (Fin 1) (Fin 1) ℝ) (0 : Fin 2) 1 =
      effective_resistance (1 : Matrix (Fin 1) (Fin 1) ℝ) (1 : Fin 2) 0 ∧
    0 < effective_resistance (1 : Matrix (Fin 1) (Fin 1) ℝ) (0 : Fin 2) 1 := by
  have hLg : groundedLaplacian [((0 : Fin 2), 1)] =
      (1 : Matrix (Fin 1) (Fin 1) ℝ) := by
    ext i j
    fin_cases i <;> fin_cases j
    show (0 : Matrix (Fin 2) (Fin 2) ℝ) _ _ + edgeMatrix 0 1 _ _ = _
    rw [Matrix.zero_apply, zero_add]
    show (if (0 : Fin 2) = 0 ∧ (0 : Fin 2) = 1 then (-1 : ℝ) else 0) +
      (if (0 : Fin 2) = 1 ∧ (0 : Fin 2) = 0 then (-1 : ℝ) else 0) +
      (if (0 : Fin 2) = 0 ∧ (0 : Fin 2) = 0 then (1 : ℝ) else 0) +
      (if (0 : Fin 2) = 1 ∧ (0 : Fin 2) = 1 then (1 : ℝ) else 0) = _
    rw [if_neg (by decide), if_neg (by decide), if_pos (by decide),
      if_neg (by decide), Matrix.one_apply_eq]
    norm_num
  have hM : ∀ b : Fin 1 → ℝ,
      (groundedLaplacian [((0 : Fin 2), 1)]).mulVec
        ((1 : Matrix (Fin 1) (Fin 1) ℝ).mulVec b) = b := by
    intro b
    rw [hLg, Matrix.one_mulVec, Matrix.one_mulVec]
  have hconn : ∀ a b : Fin 2, connectedIdx [((0 : Fin 2), 1)] a b := by
    have h01 : adjRel [((0 : Fin 2), 1)] 0 1 :=
      Or.inl (List.mem_singleton.mpr rfl)
    have h10 : adjRel [((0 : Fin 2), 1)] 1 0 :=
      Or.inr (List.mem_singleton.mpr rfl)
    intro a b
    fin_cases a <;> fin_cases b
    · exact Relation.ReflTransGen.refl
    · exact Relation.ReflTransGen.single h01
    · exact Relation.ReflTransGen.single h10
    · exact Relation.ReflTransGen.refl
  exact effective_resistance_symm_pos [((0 : Fin 2), 1)] 1 hM hconn 0 1
    (by decide)

/-!  ### C1, part 1: the closure iteration computes reachability -/

theorem subset_reachStep (adj : Nat → Finset Nat) (s : Finset Nat) :
    s ⊆ reachStep adj s := Finset.subset_union_left

theorem reachIter_of_fix (adj : Nat → Finset Nat) {s : Finset Nat}
    (h : reachStep adj s = s) : ∀ fuel, reachIter adj fuel s = s
  | 0 => rfl
  | fuel + 1 => by
    rw [reachIter, h]
    exact reachIter_of_fix adj h fuel

theorem subset_reachIter (adj : Nat → Finset Nat) :
    ∀ (fuel : Nat) (s : Finset Nat), s ⊆ reachIter adj fuel s
  | 0, s => subset_rfl
  | fuel + 1, s =>
    (subset_reachStep adj s).trans (subset_reachIter adj fuel _)

theorem reachStep_subset_univ {adj : Nat → Finset Nat} {U : Finset Nat}
    (hadj : ∀ a ∈ U, adj a ⊆ U) {s : Finset Nat} (hs : s ⊆ U) :
    reachStep adj s ⊆ U :=
  Finset.union_subset hs (Finset.biUnion_subset.mpr fun a ha => hadj a (hs ha))

theorem reachIter_subset_univ {adj : Nat → Finset Nat} {U : Finset Nat}
    (hadj : ∀ a ∈ U, adj a ⊆ U) :
    ∀ (fuel : Nat) (s : Finset Nat), s ⊆ U → reachIter adj fuel s ⊆ U
  | 0, _, hs => hs
  | fuel + 1, s, hs =>
    reachIter_subset_univ hadj fuel _ (reachStep_subset_univ hadj hs)

theorem reachIter_fix {adj : Nat → Finset Nat} {U : Finset Nat}
    (hadj : ∀ a ∈ U, adj a ⊆ U) :
    ∀ (fuel : Nat) (s : Finset Nat), s ⊆ U → U.card ≤ s.card + fuel →
      reachStep adj (reachIter adj fuel s) = reachIter adj fuel s
  | 0, s, hs, hc => by
    have hsu : s = U := Finset.eq_of_subset_of_card_le hs (by omega)
    subst hsu
    show reachStep adj s = s
    exact Finset.union_eq_left.mpr (Finset.biUnion_subset.mpr hadj)
  | fuel + 1, s, hs, hc => by
    by_cases hfix : reachStep adj s = s
    · rw [reachIter_of_fix adj hfix (fuel + 1)]
      exact hfix
    · have hlt : s.card < (reachStep adj s).card :=
        Finset.card_lt_card (Finset.ssubset_iff_subset_ne.mpr
          ⟨subset_reachStep adj s, fun he => hfix he.symm⟩)
      rw [reachIter]
      exact reachIter_fix hadj fuel (reachStep adj s)
        (reachStep_subset_univ hadj hs) (by omega)

theorem reachIter_sound (adj : Nat → Finset Nat) :
    ∀ (fuel : Nat) (s : Finset Nat) (x : Nat), x ∈ reachIter adj fuel s →
      ∃ a ∈ s, Relation.ReflTransGen (fun a b => b ∈ adj a) a x
  | 0, _, x, hx => ⟨x, hx, Relation.ReflTransGen.refl⟩
  | fuel + 1, s, x, hx => by
    obtain ⟨a, ha, hr⟩ := reachIter_sound adj fuel (reachStep adj s) x hx
    rcases Finset.mem_union.mp ha with h | h
    · exact ⟨a, h, hr⟩
    · obtain ⟨b, hb, hab⟩ := Finset.mem_biUnion.mp h
      exact ⟨b, hb, Relation.ReflTransGen.head hab hr⟩

theorem mem_of_fix_closed {adj : Nat → Finset Nat} {R : Finset Nat}
    (hclosed : reachStep adj R = R) {v x : Nat} (hv : v ∈ R)
    (h : Relation.ReflTransGen (fun a b => b ∈ adj a) v x) : x ∈ R := by
  induction h with
  | refl => exact hv
  | tail _ hbc ih =>
    have hmem : _ ∈ reachStep adj R :=
      Finset.mem_union_right _ (Finset.mem_biUnion.mpr ⟨_, ih, hbc⟩)
    rwa [hclosed] at hmem

/-- Reachability correctness of the iterated closure: with enough fuel,
`reachSet` is exactly the set of nodes reachable through `adj`. -/
theorem mem_reachSet_iff {adj : Nat → Finset Nat} {U : Finset Nat}
    (hadj : ∀ a ∈ U, adj a ⊆ U) {v : Nat} (hv : v ∈ U) {fuel : Nat}
    (hfuel : U.card ≤ fuel) (x : Nat) :
    x ∈ reachSet adj fuel v ↔
      Relation.ReflTransGen (fun a b => b ∈ adj a) v x := by
  constructor
  · intro hx
    obtain ⟨a, ha, hr⟩ := reachIter_sound adj fuel {v} x hx
    rw [Finset.mem_singleton] at ha
    subst ha
    exact hr
  · intro h
    have hclosed := reachIter_fix hadj fuel {v}
      (Finset.singleton_subset_iff.mpr hv)
      (by rw [Finset.card_singleton]; omega)
    exact mem_of_fix_closed hclosed
      (subset_reachIter adj fuel {v} (Finset.mem_singleton_self v)) h

/-!  ### C1, part 2: component structure of a well-formed snapshot -/

theorem mem_adjFinset {G : Graph} (hwf : G.Wf) {u v : Nat} :
    v ∈ G.adjFinset u ↔ ((u, v) ∈ G.edges ∨ (v, u) ∈ G.edges) := by
  unfold Graph.adjFinset Graph.adjList
  rw [List.mem_toFinset, List.mem_filterMap]
  constructor
  · rintro ⟨⟨e1, e2⟩, he, hsome⟩
    dsimp only at hsome
    split at hsome
    · rename_i h1
      obtain rfl := Option.some_injective _ hsome
      subst h1
      exact Or.inl he
    · split at hsome
      · rename_i h2
        obtain rfl := Option.some_injective _ hsome
        subst h2
        exact Or.inr he
      · cases hsome
  · rintro (he | he)
    · exact ⟨(u, v), he, by simp⟩
    · refine ⟨(v, u), he, ?_⟩
      have hne : v ≠ u := (hwf.2.1 (v, u) he).2.2
      simp [hne]

theorem adjFinset_subset_nodes {G : Graph} (hwf : G.Wf) (u : Nat) :
    G.adjFinset u ⊆ G.nodes.toFinset := by
  intro v hv
  rcases (mem_adjFinset hwf).mp hv with he | he
  · exact List.mem_toFinset.mpr (hwf.2.1 _ he).2.1
  · exact List.mem_toFinset.mpr (hwf.2.1 _ he).1

theorem stepRel_symm {G : Graph} (hwf : G.Wf) : Symmetric (stepRel G) := by
  intro a b hab
  unfold stepRel at hab ⊢
  rw [mem_adjFinset hwf] at hab ⊢
  tauto

theorem connG_symm {G : Graph} (hwf : G.Wf) {a b : Nat} (h : connG G a b) :
    connG G b a := Relation.ReflTransGen.symmetric (stepRel_symm hwf) h

theorem mem_compSet_iff {G : Graph} (hwf : G.Wf) {v : Nat}
    (hv : v ∈ G.nodes) (x : Nat) : x ∈ compSet G v ↔ connG G v x := by
  unfold compSet connG
  exact mem_reachSet_iff (fun a _ => adjFinset_subset_nodes hwf a)
    (List.mem_toFinset.mpr hv) (List.toFinset_card_le G.nodes) x

theorem compSet_subset_nodes {G : Graph} (hwf : G.Wf) {v : Nat}
    (hv : v ∈ G.nodes) : compSet G v ⊆ G.nodes.toFinset := by
  unfold compSet reachSet
  exact reachIter_subset_univ (fun a _ => adjFinset_subset_nodes hwf a)
    G.len {v} (Finset.singleton_subset_iff.mpr (List.mem_toFinset.mpr hv))

theorem mem_self_compSet {G : Graph} (v : Nat) : v ∈ compSet G v :=
  subset_reachIter G.adjFinset G.len {v} (Finset.mem_singleton_self v)

theorem compSet_eq_of_mem {G : Graph} (hwf : G.Wf) {u v : Nat}
    (hu : u ∈ G.nodes) (hv : v ∈ G.nodes) (hmem : v ∈ compSet G u) :
    compSet G v = compSet G u := by
  have hconn : connG G u v := (mem_compSet_iff hwf hu v).mp hmem
  ext x
  rw [mem_compSet_iff hwf hv, mem_compSet_iff hwf hu]
  constructor
  · exact fun h => hconn.trans h
  · exact fun h => (connG_symm hwf hconn).trans h

theorem componentsAux_sound (G : Graph) :
    ∀ (rest : List Nat) (seen : Finset Nat) (c : Finset Nat),
      c ∈ Graph.componentsAux G rest seen → ∃ v ∈ rest, c = compSet G v
  | [], _, c, hc => absurd hc (List.not_mem_nil c)
  | u :: rest, seen, c, hc => by
    rw [Graph.componentsAux] at hc
    by_cases hu : u ∈ seen
    · rw [if_pos hu] at hc
      obtain ⟨v, hv, hcv⟩ := componentsAux_sound G rest seen c hc
      exact ⟨v, List.mem_cons_of_mem u hv, hcv⟩
    · rw [if_neg hu] at hc
      rcases List.mem_cons.mp hc with rfl | hc'

      · exact ⟨u, List.mem_cons_self u rest, rfl⟩
      · obtain ⟨v, hv, hcv⟩ := componentsAux_sound G rest _ c hc'
        exact ⟨v, List.mem_cons_of_mem u hv, hcv⟩

theorem componentsAux_cover {G : Graph} (hwf : G.Wf) :
    ∀ (rest : List Nat) (seen : Finset Nat),
      (∀ w ∈ rest, w ∈ G.nodes) →
      (∀ w ∈ seen, w ∈ G.nodes ∧ compSet G w ⊆ seen) →
      ∀ v ∈ rest, v ∉ seen → compSet G v ∈ Graph.componentsAux G rest seen
  | [], _, _, _, v, hv, _ => absurd hv (List.not_mem_nil v)
  | u :: rest, seen, hsub, hseen, v, hv, hvs => by
    rw [Graph.componentsAux]
    by_cases hu : u ∈ seen
    · rw [if_pos hu]
      have hvu : v ≠ u := fun h => hvs (h ▸ hu)
      exact componentsAux_cover hwf rest seen
        (fun w hw => hsub w (List.mem_cons_of_mem u hw)) hseen v
        ((List.mem_cons.mp hv).resolve_left hvu) hvs
    · rw [if_neg hu]
      rcases List.mem_cons.mp hv with rfl | hv'
      · exact List.mem_cons_self _ _
      · by_cases hvc : v ∈ compSet G u
        · have : compSet G v = compSet G u :=
            compSet_eq_of_mem hwf (hsub u (List.mem_cons_self u rest))
              (hsub v hv) hvc
          rw [this]
          exact List.mem_cons_self _ _
        · refine List.mem_cons_of_mem _ ?_
          refine componentsAux_cover hwf rest _
            (fun w hw => hsub w (List.mem_cons_of_mem u hw)) ?_ v hv'
            (by
              rw [Finset.mem_union]
              rintro (h | h)
              · exact hvs h
              · exact hvc h)
          intro w hw
          rcases Finset.mem_union.mp hw with h | h
          · exact ⟨(hseen w h).1,
              (hseen w h).2.trans Finset.subset_union_left⟩
          · have hwn : w ∈ G.nodes := List.mem_toFinset.mp
              (compSet_subset_nodes hwf (hsub u (List.mem_cons_self u rest)) h)
            have : compSet G w = compSet G u :=
              compSet_eq_of_mem hwf (hsub u (List.mem_cons_self u rest))
                hwn h
            exact ⟨hwn, this ▸ Finset.subset_union_right⟩

theorem maxByCardFirst_aux :
    ∀ (l : List (Finset Nat)) (b : Finset Nat),
      (l.foldl (fun best c => if c.card > best.card then c else best) b = b ∨
        l.foldl (fun best c => if c.card > best.card then c else best) b ∈ l) ∧
      b.card ≤
        (l.foldl (fun best c => if c.card > best.card then c else best) b).card ∧
      ∀ c ∈ l, c.card ≤
        (l.foldl (fun best c => if c.card > best.card then c else best) b).card
  | [], b => ⟨Or.inl rfl, le_refl _, fun c hc => absurd hc (List.not_mem_nil c)⟩
  | c :: l, b => by
    rw [List.foldl_cons]
    by_cases hcb : c.card > b.card
    · rw [if_pos hcb]
      obtain ⟨hmem, hle, hall⟩ := maxByCardFirst_aux l c
      refine ⟨?_, by omega, ?_⟩
      · rcases hmem with h | h
        · exact Or.inr (by rw [h]; exact List.mem_cons_self c l)
        · exact Or.inr (List.mem_cons_of_mem c h)
      · intro e he
        rcases List.mem_cons.mp he with rfl | he'
        · exact hle
        · exact hall e he'
    · rw [if_neg hcb]
      obtain ⟨hmem, hle, hall⟩ := maxByCardFirst_aux l b
      refine ⟨?_, hle, ?_⟩
      · rcases hmem with h | h
        · exact Or.inl h
        · exact Or.inr (List.mem_cons_of_mem c h)
      · intro e he
        rcases List.mem_cons.mp he with rfl | he'
        · omega
        · exact hall e he'

theorem maxByCardFirst_mem {l : List (Finset Nat)} (h : l ≠ []) :
    Graph.maxByCardFirst l ∈ l := by
  obtain ⟨c, l', rfl⟩ := List.exists_cons_of_ne_nil h
  unfold Graph.maxByCardFirst
  simp only [List.headD_cons]
  rcases (maxByCardFirst_aux (c :: l') c).1 with he | he
  · rw [he]
    exact List.mem_cons_self c l'
  · exact he

theorem maxByCardFirst_le {l : List (Finset Nat)} {c : Finset Nat}
    (hc : c ∈ l) : c.card ≤ (Graph.maxByCardFirst l).card := by
  unfold Graph.maxByCardFirst
  exact (maxByCardFirst_aux l (l.headD ∅)).2.2 c hc

/-- Every node's component size is at most the LCC size. -/
theorem lccCard_ge {G : Graph} (hwf : G.Wf) {v : Nat} (hv : v ∈ G.nodes) :
    (compSet G v).card ≤ lccCard G := by
  have hlen : G.len ≠ 0 := by
    unfold Graph.len
    intro h
    rw [List.length_eq_zero] at h
    exact absurd (h ▸ hv) (List.not_mem_nil v)
  unfold lccCard Graph.largestComponentNodes
  rw [if_neg hlen]
  exact maxByCardFirst_le
    (componentsAux_cover hwf G.nodes ∅ (fun w hw => hw)
      (fun w hw => absurd hw (Finset.not_mem_empty w)) v hv
      (Finset.not_mem_empty v))

/-- On a nonempty graph the LCC size is attained by some node's
component. -/
theorem lccCard_attained {G : Graph} (h : G.nodes ≠ []) :
    ∃ v ∈ G.nodes, lccCard G = (compSet G v).card := by
  have hlen : G.len ≠ 0 := by
    unfold Graph.len
    intro hc
    rw [List.length_eq_zero] at hc
    exact h hc
  have hne : Graph.connectedComponents G ≠ [] := by
    unfold Graph.connectedComponents
    obtain ⟨u, rest, hrest⟩ := List.exists_cons_of_ne_nil h
    rw [hrest, Graph.componentsAux, if_neg (Finset.not_mem_empty u)]
    exact List.cons_ne_nil _ _
  obtain ⟨v, hv, hcv⟩ := componentsAux_sound G G.nodes ∅
    (Graph.maxByCardFirst G.connectedComponents) (maxByCardFirst_mem hne)
  refine ⟨v, hv, ?_⟩
  unfold lccCard Graph.largestComponentNodes
  rw [if_neg hlen, hcv]

theorem lccCard_nil {G : Graph} (h : G.nodes = []) : lccCard G = 0 := by
  unfold lccCard Graph.largestComponentNodes
  rw [if_pos (by unfold Graph.len; rw [h]; rfl)]
  rfl

/-!  ### C1, part 3: DSU verification -/

theorem getD_set_self {α : Type} {l : List α} {i : Nat} {v d : α}
    (h : i < l.length) : (l.set i v).getD i d = v := by
  simp [List.getD, List.getElem?_set_self, h]

theorem getD_set_ne {α : Type} {l : List α} {i j : Nat} (v d : α)
    (h : i ≠ j) : (l.set i v).getD j d = l.getD j d := by
  simp [List.getD]
  rw [List.getElem?_set_ne h]

theorem pIter_add (p : List Nat) (j k a : Nat) :
    pIter p (j + k) a = pIter p k (pIter p j a) := by
  induction j generalizing a with
  | zero =>
    rw [Nat.zero_add]
    rfl
  | succ j ih =>
    rw [Nat.succ_add]
    simp only [pIter]
    exact ih (parentOf p a)

theorem pIter_succ_back (p : List Nat) (j a : Nat) :
    pIter p (j + 1) a = parentOf p (pIter p j a) :=
  pIter_add p j 1 a

theorem pIter_fix {p : List Nat} {r : Nat} (hr : IsRootP p r) :
    ∀ k, pIter p k r = r
  | 0 => rfl
  | k + 1 => by
    have hr' : parentOf p r = r := hr
    rw [pIter, hr']
    exact pIter_fix hr k

theorem rootOf_unique {p : List Nat} {a r r' : Nat} (h1 : RootOf p a r)
    (h2 : RootOf p a r') : r = r' := by
  obtain ⟨⟨k, hk⟩, hr⟩ := h1
  obtain ⟨⟨k', hk'⟩, hr'⟩ := h2
  rcases le_total k k' with h | h
  · have hx : pIter p k' a = r := by
      have hkk : k + (k' - k) = k' := by omega
      rw [← hkk, pIter_add, hk]
      exact pIter_fix hr _
    exact hx.symm.trans hk'
  · have hx : pIter p k a = r' := by
      have hkk : k' + (k - k') = k := by omega
      rw [← hkk, pIter_add, hk']
      exact pIter_fix hr' _
    exact hk.symm.trans hx

theorem rootOf_prepend {p : List Nat} {a r : Nat}
    (h : RootOf p (parentOf p a) r) : RootOf p a r := by
  obtain ⟨⟨k, hk⟩, hr⟩ := h
  exact ⟨⟨k + 1, by rw [pIter]; exact hk⟩, hr⟩

theorem rootOf_self {p : List Nat} {r : Nat} (hr : IsRootP p r) :
    RootOf p r r := ⟨⟨0, rfl⟩, hr⟩

theorem pIter_lt {n : Nat} {p : List Nat}
    (hp : ∀ i, i < n → parentOf p i < n) {a : Nat} (ha : a < n) :
    ∀ j, pIter p j a < n := by
  intro j
  induction j generalizing a with
  | zero => exact ha
  | succ j ih =>
    rw [pIter]
    exact ih (hp a ha)

/-- Acyclicity: under the strict size ordering every index reaches a
root. -/
theorem exists_root {n : Nat} {p sz : List Nat}
    (hp : ∀ i, i < n → parentOf p i < n)
    (hmono : ∀ i, i < n → parentOf p i ≠ i →
      sz.getD i 0 < sz.getD (parentOf p i) 0)
    {a : Nat} (ha : a < n) : ∃ r, RootOf p a r := by
  by_contra hc
  push_neg at hc
  have hnr : ∀ j, ¬ IsRootP p (pIter p j a) := fun j hr =>
    hc _ ⟨⟨j, rfl⟩, hr⟩
  have hstep : ∀ j, sz.getD (pIter p j a) 0 < sz.getD (pIter p (j + 1) a) 0 := by
    intro j
    rw [pIter_succ_back]
    exact hmono _ (pIter_lt hp ha j) (fun he => hnr j he)
  have hsm : StrictMono (fun j => sz.getD (pIter p j a) 0) :=
    strictMono_nat_of_lt_succ hstep
  have hmaps : ∀ j ∈ Finset.range (n + 1), pIter p j a ∈ Finset.range n :=
    fun j _ => Finset.mem_range.mpr (pIter_lt hp ha j)
  obtain ⟨j1, _, j2, _, hne, heq⟩ :=
    Finset.exists_ne_map_eq_of_card_lt_of_maps_to
      (by simp : (Finset.range n).card < (Finset.range (n + 1)).card) hmaps
  exact hne (hsm.injective (by rw [heq]))

/-- Every index's stored size is at most `n`. -/
theorem sz_le_n {n : Nat} {d : DSU} (inv : DInv n d) :
    ∀ i, i < n → d.sz.getD i 0 ≤ n := by
  have hroot_le : ∀ r, r < n → IsRootP d.p r → d.sz.getD r 0 ≤ n := by
    intro r hr hrt
    rw [inv.szRoot r hr hrt]
    calc (classOf n d.p r).card ≤ (Finset.range n).card :=
          Finset.card_le_card (Finset.filter_subset _ _)
      _ = n := Finset.card_range n
  intro i hi
  obtain ⟨r, hroot⟩ := exists_root inv.pLt inv.szMono hi
  obtain ⟨⟨k, hk⟩, hr⟩ := hroot
  have hchain : ∀ j, d.sz.getD i 0 ≤ d.sz.getD (pIter d.p j i) 0 := by
    intro j
    induction j with
    | zero => exact le_refl _
    | succ j ih =>
      rw [pIter_succ_back]
      by_cases hfix : parentOf d.p (pIter d.p j i) = pIter d.p j i
      · rw [hfix]
        exact ih
      · exact ih.trans (le_of_lt
          (inv.szMono _ (pIter_lt inv.pLt hi j) hfix))
  have hrn : r < n := hk ▸ pIter_lt inv.pLt hi k
  calc d.sz.getD i 0 ≤ d.sz.getD (pIter d.p k i) 0 := hchain k
    _ = d.sz.getD r 0 := by rw [hk]
    _ ≤ n := hroot_le r hrn hr

theorem rootFuel_finds {n : Nat} {p sz : List Nat}
    (hp : ∀ i, i < n → parentOf p i < n)
    (hmono : ∀ i, i < n → parentOf p i ≠ i →
      sz.getD i 0 < sz.getD (parentOf p i) 0)
    (hle : ∀ i, i < n → sz.getD i 0 ≤ n) :
    ∀ (fuel a : Nat), a < n → n ≤ fuel + sz.getD a 0 →
      RootOf p a (rootFuel p fuel a)
  | 0, a, ha, hfuel => by
    have hroot : IsRootP p a := by
      by_contra hr
      have h1 := hmono a ha hr
      have h2 := hle (parentOf p a) (hp a ha)
      omega
    exact rootOf_self hroot
  | fuel + 1, a, ha, hfuel => by
    rw [rootFuel]
    by_cases hroot : parentOf p a = a
    · rw [if_pos hroot]
      exact rootOf_self hroot
    · rw [if_neg hroot]
      have hstep := hmono a ha hroot
      exact rootOf_prepend (rootFuel_finds hp hmono hle fuel
        (parentOf p a) (hp a ha) (by omega))

/-- With the full invariant, `rootD` computes the root of every index. -/
theorem rootD_spec {n : Nat} {d : DSU} (inv : DInv n d) {a : Nat}
    (ha : a < n) : RootOf d.p a (rootD n d.p a) :=
  rootFuel_finds inv.pLt inv.szMono (sz_le_n inv) n a ha
    (by have := Nat.zero_le (d.sz.getD a 0); omega)

theorem rootD_eq_iff {n : Nat} {d : DSU} (inv : DInv n d) {a r : Nat}
    (ha : a < n) : rootD n d.p a = r ↔ RootOf d.p a r := by
  constructor
  · rintro rfl
    exact rootD_spec inv ha
  · intro h
    exact rootOf_unique (rootD_spec inv ha) h

theorem rootD_lt {n : Nat} {d : DSU} (inv : DInv n d) {a : Nat}
    (ha : a < n) : rootD n d.p a < n := by
  obtain ⟨⟨k, hk⟩, _⟩ := rootD_spec inv ha
  exact hk ▸ pIter_lt inv.pLt ha k

theorem rootD_isRoot {n : Nat} {d : DSU} (inv : DInv n d) {a : Nat}
    (ha : a < n) : IsRootP d.p (rootD n d.p a) :=
  (rootD_spec inv ha).2

theorem rootD_of_isRoot {n : Nat} {d : DSU} (inv : DInv n d) {r : Nat}
    (hr : r < n) (hroot : IsRootP d.p r) : rootD n d.p r = r :=
  (rootD_eq_iff inv hr).mpr (rootOf_self hroot)

theorem parentOf_set {p : List Nat} {a : Nat} (v : Nat) (ha : a < p.length)
    (x : Nat) :
    parentOf (p.set a v) x = if x = a then v else parentOf p x := by
  by_cases hx : x = a
  · subst hx
    rw [if_pos rfl]
    exact getD_set_self ha
  · rw [if_neg hx]
    exact getD_set_ne v x (fun h => hx h.symm)

/-- One path-compression write preserves the invariant, all roots, and all
root assignments. -/
theorem compress_spec {n : Nat} {d : DSU} (inv : DInv n d) {a : Nat}
    (ha : a < n) (hne : parentOf d.p a ≠ a) :
    DInv n ⟨d.p.set a (parentOf d.p (parentOf d.p a)), d.sz⟩ ∧
    (∀ x r, RootOf (d.p.set a (parentOf d.p (parentOf d.p a))) x r ↔
      RootOf d.p x r) ∧
    (∀ i, i < n → rootD n (d.p.set a (parentOf d.p (parentOf d.p a))) i =
      rootD n d.p i) := by
  have hlen : a < d.p.length := by rw [inv.lenP]; exact ha
  have hpan : parentOf d.p a < n := inv.pLt a ha
  have hppan : parentOf d.p (parentOf d.p a) < n := inv.pLt _ hpan
  have hpar : ∀ x, parentOf (d.p.set a (parentOf d.p (parentOf d.p a))) x =
      if x = a then parentOf d.p (parentOf d.p a) else parentOf d.p x :=
    parentOf_set _ hlen
  have hno2 : parentOf d.p (parentOf d.p a) ≠ a := by
    by_cases hparoot : parentOf d.p (parentOf d.p a) = parentOf d.p a
    · rw [hparoot]
      exact hne
    · intro hc
      have h1 := inv.szMono a ha hne
      have h2 := inv.szMono (parentOf d.p a) hpan hparoot
      rw [hc] at h2
      omega
  have hroots : ∀ r, IsRootP (d.p.set a (parentOf d.p (parentOf d.p a))) r ↔
      IsRootP d.p r := by
    intro r
    unfold IsRootP
    rw [hpar r]
    by_cases hr : r = a
    · rw [if_pos hr, hr]
      exact iff_of_false hno2 hne
    · rw [if_neg hr]
  have htoOld : ∀ (k x r : Nat),
      pIter (d.p.set a (parentOf d.p (parentOf d.p a))) k x = r →
      ∃ k2, pIter d.p k2 x = r := by
    intro k
    induction k with
    | zero => exact fun x r h => ⟨0, h⟩
    | succ k ih =>
      intro x r h
      rw [pIter, hpar x] at h
      by_cases hx : x = a
      · rw [if_pos hx] at h
        obtain ⟨k2, hk2⟩ := ih _ r h
        refine ⟨2 + k2, ?_⟩
        rw [hx, pIter_add d.p 2 k2 a]
        exact hk2
      · rw [if_neg hx] at h
        obtain ⟨k2, hk2⟩ := ih _ r h
        exact ⟨k2 + 1, by rw [pIter]; exact hk2⟩
  have htoNew : ∀ (k x r : Nat), pIter d.p k x = r → IsRootP d.p r →
      ∃ k2, pIter (d.p.set a (parentOf d.p (parentOf d.p a))) k2 x = r := by
    intro k
    induction k using Nat.strong_induction_on with
    | _ k ih =>
      intro x r h hr
      rcases k with _ | k'
      · exact ⟨0, h⟩
      · rw [pIter] at h
        by_cases hx : x = a
        · rw [hx] at h ⊢
          rcases k' with _ | k''
          · have hr0 : parentOf d.p a = r := h
            have hppr : parentOf d.p (parentOf d.p a) = r := by
              rw [hr0]
              exact hr
            refine ⟨1, ?_⟩
            show parentOf (d.p.set a (parentOf d.p (parentOf d.p a))) a = r
            rw [hpar a, if_pos rfl]
            exact hppr
          · rw [pIter] at h
            obtain ⟨k2, hk2⟩ := ih k'' (by omega) _ r h hr
            refine ⟨1 + k2, ?_⟩
            rw [pIter_add _ 1 k2 a]
            have h1 : pIter (d.p.set a (parentOf d.p (parentOf d.p a))) 1 a =
                parentOf d.p (parentOf d.p a) := by
              show parentOf (d.p.set a (parentOf d.p (parentOf d.p a))) a = _
              rw [hpar a, if_pos rfl]
            rw [h1]
            exact hk2
        · obtain ⟨k2, hk2⟩ := ih k' (by omega) _ r h hr
          refine ⟨k2 + 1, ?_⟩
          rw [pIter, hpar x, if_neg hx]
          exact hk2
  have hiff : ∀ x r,
      RootOf (d.p.set a (parentOf d.p (parentOf d.p a))) x r ↔
      RootOf d.p x r := by
    intro x r
    constructor
    · rintro ⟨⟨k, hk⟩, hr⟩
      exact ⟨htoOld k x r hk, (hroots r).mp hr⟩
    · rintro ⟨⟨k, hk⟩, hr⟩
      exact ⟨htoNew k x r hk hr, (hroots r).mpr hr⟩
  have hstruct_pLt : ∀ i, i < n →
      parentOf (d.p.set a (parentOf d.p (parentOf d.p a))) i < n := by
    intro i hi
    rw [hpar i]
    by_cases hx : i = a
    · rw [if_pos hx]
      exact hppan
    · rw [if_neg hx]
      exact inv.pLt i hi
  have hstruct_mono : ∀ i, i < n →
      parentOf (d.p.set a (parentOf d.p (parentOf d.p a))) i ≠ i →
      d.sz.getD i 0 <
        d.sz.getD (parentOf (d.p.set a (parentOf d.p (parentOf d.p a))) i) 0 := by
    intro i hi hnei
    rw [hpar i] at hnei ⊢
    by_cases hx : i = a
    · rw [if_pos hx] at hnei ⊢
      rw [hx]
      have h1 := inv.szMono a ha hne
      by_cases hparoot : parentOf d.p (parentOf d.p a) = parentOf d.p a
      · rw [hparoot]
        exact h1
      · have h2 := inv.szMono (parentOf d.p a) hpan hparoot
        omega
    · rw [if_neg hx] at hnei ⊢
      exact inv.szMono i hi hnei
  have hrootDeq : ∀ i, i < n →
      rootD n (d.p.set a (parentOf d.p (parentOf d.p a))) i =
      rootD n d.p i := by
    intro i hi
    have hle : ∀ j, j < n → d.sz.getD j 0 ≤ n := sz_le_n inv
    have hspec1 : RootOf (d.p.set a (parentOf d.p (parentOf d.p a))) i
        (rootD n (d.p.set a (parentOf d.p (parentOf d.p a))) i) :=
      rootFuel_finds hstruct_pLt hstruct_mono hle n i hi
        (by have := Nat.zero_le (d.sz.getD i 0); omega)
    exact rootOf_unique ((hiff i _).mp hspec1) (rootD_spec inv hi)
  refine ⟨⟨by rw [List.length_set]; exact inv.lenP, inv.lenS, hstruct_pLt,
    hstruct_mono, ?_⟩, hiff, hrootDeq⟩
  intro r hr hroot
  have hrootOld : IsRootP d.p r := (hroots r).mp hroot
  have hclass : classOf n (d.p.set a (parentOf d.p (parentOf d.p a))) r =
      classOf n d.p r := by
    unfold classOf
    apply Finset.filter_congr
    intro i hi
    rw [Finset.mem_range] at hi
    rw [hrootDeq i hi, hrootDeq r hr]
  rw [hclass]
  exact inv.szRoot r hr hrootOld

/-- `findAux` with the invariant's fuel reaches the root, preserving the
invariant and every root assignment. -/
theorem findAux_spec {n : Nat} (sz : List Nat) :
    ∀ (fuel : Nat) (p : List Nat) (a : Nat), DInv n ⟨p, sz⟩ → a < n →
      n ≤ fuel + sz.getD a 0 →
      DInv n ⟨(DSU.findAux fuel p a).1, sz⟩ ∧
      (∀ i, i < n → rootD n (DSU.findAux fuel p a).1 i = rootD n p i) ∧
      (DSU.findAux fuel p a).2 = rootD n p a
  | 0, p, a, inv, ha, hfuel => by
    refine ⟨inv, fun i _ => rfl, ?_⟩
    have hroot : IsRootP p a := by
      by_contra hr
      have h1 := inv.szMono a ha hr
      have h2 := sz_le_n inv (parentOf p a) (inv.pLt a ha)
      simp only [] at h1 h2
      omega
    exact (rootD_of_isRoot inv ha hroot).symm
  | fuel + 1, p, a, inv, ha, hfuel => by
    rw [DSU.findAux]
    simp only []
    by_cases hroot : p.getD a a = a
    · rw [if_pos hroot]
      refine ⟨inv, fun i _ => rfl, ?_⟩
      exact (rootD_of_isRoot inv ha hroot).symm
    · rw [if_neg hroot]
      have hne : parentOf p a ≠ a := hroot
      obtain ⟨inv1, hiff1, hrd1⟩ := compress_spec inv ha hne
      have hpan : parentOf p a < n := inv.pLt a ha
      have hppan : parentOf p (parentOf p a) < n :=
        inv.pLt (parentOf p a) hpan
      have hm : n ≤ fuel + sz.getD (parentOf p (parentOf p a)) 0 := by
        have h1 := inv.szMono a ha hne
        have h2 : sz.getD (parentOf p a) 0 ≤
            sz.getD (parentOf p (parentOf p a)) 0 := by
          by_cases hroot2 : parentOf p (parentOf p a) = parentOf p a
          · rw [hroot2]
          · exact le_of_lt (inv.szMono (parentOf p a) hpan hroot2)
        simp only [] at h1 h2
        omega
      obtain ⟨inv2, hrd2, hres⟩ := findAux_spec sz fuel
        (p.set a (p.getD (p.getD a a) (p.getD a a)))
        (parentOf p (parentOf p a)) inv1 hppan hm
      refine ⟨inv2, ?_, ?_⟩
      · intro i hi
        exact (hrd2 i hi).trans (hrd1 i hi)
      · have hroot2 : RootOf p (parentOf p (parentOf p a))
            (rootD n p (parentOf p (parentOf p a))) :=
          rootD_spec inv hppan
        have h3 : rootD n p (parentOf p (parentOf p a)) = rootD n p a :=
          ((rootD_eq_iff inv ha).mpr
            (rootOf_prepend (rootOf_prepend hroot2))).symm
        exact hres.trans ((hrd1 _ hppan).trans h3)

/-- Specification of `DSU.find`. -/
theorem find_spec {n : Nat} {d : DSU} (inv : DInv n d) {a : Nat}
    (ha : a < n) :
    DInv n (d.find a).1 ∧
    (d.find a).1.sz = d.sz ∧
    (∀ i, i < n → rootD n (d.find a).1.p i = rootD n d.p i) ∧
    (d.find a).2 = rootD n d.p a := by
  have hinv : DInv n ⟨d.p, d.sz⟩ := inv
  have hfuel : n ≤ d.p.length + d.sz.getD a 0 := by
    rw [inv.lenP]
    have := Nat.zero_le (d.sz.getD a 0)
    omega
  obtain ⟨inv2, hrd, hres⟩ := findAux_spec d.sz d.p.length d.p a hinv ha hfuel
  exact ⟨inv2, rfl, hrd, hres⟩

theorem isRoot_iff_rootD {n : Nat} {d : DSU} (inv : DInv n d) {r : Nat}
    (hr : r < n) : IsRootP d.p r ↔ rootD n d.p r = r :=
  ⟨rootD_of_isRoot inv hr, fun h => h ▸ rootD_isRoot inv hr⟩

theorem rootD_idem {n : Nat} {d : DSU} (inv : DInv n d) {a : Nat}
    (ha : a < n) : rootD n d.p (rootD n d.p a) = rootD n d.p a :=
  rootD_of_isRoot inv (rootD_lt inv ha) (rootD_isRoot inv ha)

theorem classOf_congr {n : Nat} {p : List Nat} {x y : Nat}
    (h : rootD n p x = rootD n p y) : classOf n p x = classOf n p y := by
  unfold classOf
  rw [h]

theorem mem_classOf_self {n : Nat} (p : List Nat) {a : Nat} (ha : a < n) :
    a ∈ classOf n p a :=
  Finset.mem_filter.mpr ⟨Finset.mem_range.mpr ha, rfl⟩

theorem class_card_pos {n : Nat} {d : DSU} (inv : DInv n d) {r : Nat}
    (hr : r < n) (hroot : IsRootP d.p r) : 1 ≤ d.sz.getD r 0 := by
  rw [inv.szRoot r hr hroot]
  exact Finset.card_pos.mpr ⟨r, mem_classOf_self d.p hr⟩

/-- Re-rooting the loser `l` under the winner `w` reassigns exactly the
members of `l`'s class to `w`. -/
theorem link_rootOf {p : List Nat} {w l : Nat} (hllen : l < p.length)
    (hrw : IsRootP p w) (hrl : IsRootP p l) (hne : w ≠ l) :
    ∀ x r, RootOf (p.set l w) x r ↔
      ((RootOf p x r ∧ r ≠ l) ∨ (RootOf p x l ∧ r = w)) := by
  have hpar : ∀ x, parentOf (p.set l w) x = if x = l then w else parentOf p x :=
    parentOf_set w hllen
  have hrw' : IsRootP (p.set l w) w := by
    show parentOf _ w = w
    rw [hpar w, if_neg hne]
    exact hrw
  have hto : ∀ k x r, pIter (p.set l w) k x = r → IsRootP (p.set l w) r →
      ((RootOf p x r ∧ r ≠ l) ∨ (RootOf p x l ∧ r = w)) := by
    intro k
    induction k with
    | zero =>
      intro x r h hr
      have hxr : x = r := h
      have hrnl : r ≠ l := by
        intro hc
        have hrr : parentOf (p.set l w) r = r := hr
        rw [hc, hpar l, if_pos rfl] at hrr
        exact hne hrr
      have hrp : IsRootP p r := by
        have hrr : parentOf (p.set l w) r = r := hr
        rw [hpar r, if_neg hrnl] at hrr
        exact hrr
      exact Or.inl ⟨by rw [hxr]; exact rootOf_self hrp, hrnl⟩
    | succ k ih =>
      intro x r h hr
      rw [pIter, hpar x] at h
      by_cases hx : x = l
      · rw [if_pos hx] at h
        have hrw2 : r = w := by
          rw [pIter_fix hrw' k] at h
          exact h.symm
        exact Or.inr ⟨by rw [hx]; exact rootOf_self hrl, hrw2⟩
      · rw [if_neg hx] at h
        rcases ih _ r h hr with ⟨h1, h2⟩ | ⟨h1, h2⟩
        · exact Or.inl ⟨rootOf_prepend h1, h2⟩
        · exact Or.inr ⟨rootOf_prepend h1, h2⟩
  have hfrom_ne : ∀ k x r, pIter p k x = r → r ≠ l →
      pIter (p.set l w) k x = r := by
    intro k
    induction k with
    | zero => exact fun x r h _ => h
    | succ k ih =>
      intro x r h hrnl
      rw [pIter] at h
      by_cases hx : x = l
      · exfalso
        rw [hx] at h
        have hll : parentOf p l = l := hrl
        rw [hll, pIter_fix hrl k] at h
        exact hrnl h.symm
      · rw [pIter, hpar x, if_neg hx]
        exact ih _ r h hrnl
  have hfrom_l : ∀ k x, pIter p k x = l →
      ∃ k2, pIter (p.set l w) k2 x = w := by
    intro k
    induction k with
    | zero =>
      intro x h
      have hxl : x = l := h
      refine ⟨1, ?_⟩
      show parentOf (p.set l w) x = w
      rw [hpar x, if_pos hxl]
    | succ k ih =>
      intro x h
      rw [pIter] at h
      by_cases hx : x = l
      · refine ⟨1, ?_⟩
        show parentOf (p.set l w) x = w
        rw [hpar x, if_pos hx]
      · obtain ⟨k2, hk2⟩ := ih _ h
        refine ⟨k2 + 1, ?_⟩
        rw [pIter, hpar x, if_neg hx]
        exact hk2
  intro x r
  constructor
  · rintro ⟨⟨k, hk⟩, hr⟩
    exact hto k x r hk hr
  · rintro (⟨⟨⟨k, hk⟩, hroot⟩, hrnl⟩ | ⟨⟨⟨k, hk⟩, _⟩, hrw2⟩)
    · refine ⟨⟨k, hfrom_ne k x r hk hrnl⟩, ?_⟩
      show parentOf (p.set l w) r = r
      rw [hpar r, if_neg hrnl]
      exact hroot
    · obtain ⟨k2, hk2⟩ := hfrom_l k x hk
      rw [hrw2]
      exact ⟨⟨k2, hk2⟩, hrw'⟩

/-- Union-by-size link step: invariant preservation, the root update
formula, and the stored size of the merged class. -/
theorem link_spec {n : Nat} {d : DSU} (inv : DInv n d) {w l : Nat}
    (hw : w < n) (hl : l < n) (hrw : IsRootP d.p w) (hrl : IsRootP d.p l)
    (hne : w ≠ l) :
    DInv n ⟨d.p.set l w, d.sz.set w (d.sz.getD w 0 + d.sz.getD l 0)⟩ ∧
    (∀ i, i < n → rootD n (d.p.set l w) i =
      (if rootD n d.p i = l then w else rootD n d.p i)) ∧
    (d.sz.set w (d.sz.getD w 0 + d.sz.getD l 0)).getD w 0 =
      (classOf n (d.p.set l w) w).card := by
  have hllen : l < d.p.length := by rw [inv.lenP]; exact hl
  have hwlenS : w < d.sz.length := by rw [inv.lenS]; exact hw
  have hpar : ∀ x, parentOf (d.p.set l w) x = if x = l then w else parentOf d.p x :=
    parentOf_set w hllen
  have hiff := link_rootOf hllen hrw hrl hne
  have hsz3 : ∀ i, (d.sz.set w (d.sz.getD w 0 + d.sz.getD l 0)).getD i 0 =
      if i = w then d.sz.getD w 0 + d.sz.getD l 0 else d.sz.getD i 0 := by
    intro i
    by_cases hi : i = w
    · rw [if_pos hi, hi]
      exact getD_set_self hwlenS
    · rw [if_neg hi]
      exact getD_set_ne _ _ (fun h => hi h.symm)
  have hszw1 : 1 ≤ d.sz.getD w 0 := class_card_pos inv hw hrw
  have hszl1 : 1 ≤ d.sz.getD l 0 := class_card_pos inv hl hrl
  have hroots3 : ∀ r, IsRootP (d.p.set l w) r ↔ (IsRootP d.p r ∧ r ≠ l) := by
    intro r
    unfold IsRootP
    rw [hpar r]
    by_cases hr : r = l
    · rw [if_pos hr]
      constructor
      · intro h
        exact absurd (h.trans hr) hne
      · rintro ⟨_, hc⟩
        exact absurd hr hc
    · rw [if_neg hr]
      exact ⟨fun h => ⟨h, hr⟩, fun h => h.1⟩
  have hpLt3 : ∀ i, i < n → parentOf (d.p.set l w) i < n := by
    intro i hi
    rw [hpar i]
    by_cases hx : i = l
    · rw [if_pos hx]
      exact hw
    · rw [if_neg hx]
      exact inv.pLt i hi
  have hmono3 : ∀ i, i < n → parentOf (d.p.set l w) i ≠ i →
      (d.sz.set w (d.sz.getD w 0 + d.sz.getD l 0)).getD i 0 <
        (d.sz.set w (d.sz.getD w 0 + d.sz.getD l 0)).getD
          (parentOf (d.p.set l w) i) 0 := by
    intro i hi hnei
    rw [hpar i] at hnei ⊢
    by_cases hx : i = l
    · rw [if_pos hx] at hnei ⊢
      rw [hsz3 i, hsz3 w, if_pos rfl,
        if_neg (fun h : i = w => hne (h.symm.trans hx))]
      rw [hx]
      omega
    · rw [if_neg hx] at hnei ⊢
      have hiw : i ≠ w := by
        intro hc
        rw [hc] at hnei
        exact hnei hrw
      rw [hsz3 i, hsz3 (parentOf d.p i), if_neg hiw]
      have hbase := inv.szMono i hi hnei
      by_cases hpw : parentOf d.p i = w
      · rw [if_pos hpw]
        rw [hpw] at hbase
        omega
      · rw [if_neg hpw]
        exact hbase
  have hdisj : Disjoint (classOf n d.p w) (classOf n d.p l) := by
    rw [Finset.disjoint_left]
    intro i hiw hil
    rw [classOf, Finset.mem_filter] at hiw hil
    have h1 := hiw.2
    have h2 := hil.2
    rw [rootD_of_isRoot inv hw hrw] at h1
    rw [rootD_of_isRoot inv hl hrl] at h2
    exact hne (h1.symm.trans h2)
  have hsum_le : d.sz.getD w 0 + d.sz.getD l 0 ≤ n := by
    rw [inv.szRoot w hw hrw, inv.szRoot l hl hrl]
    have := Finset.card_union_of_disjoint hdisj
    have hsub : classOf n d.p w ∪ classOf n d.p l ⊆ Finset.range n :=
      Finset.union_subset (Finset.filter_subset _ _) (Finset.filter_subset _ _)
    have := Finset.card_le_card hsub
    rw [Finset.card_range] at this
    omega
  have hle3 : ∀ i, i < n →
      (d.sz.set w (d.sz.getD w 0 + d.sz.getD l 0)).getD i 0 ≤ n := by
    intro i hi
    rw [hsz3 i]
    by_cases hx : i = w
    · rw [if_pos hx]
      exact hsum_le
    · rw [if_neg hx]
      exact sz_le_n inv i hi
  have hrd3 : ∀ i, i < n → rootD n (d.p.set l w) i =
      (if rootD n d.p i = l then w else rootD n d.p i) := by
    intro i hi
    have hspec3 : RootOf (d.p.set l w) i (rootD n (d.p.set l w) i) :=
      rootFuel_finds hpLt3 hmono3 hle3 n i hi (by omega)
    rcases (hiff i _).mp hspec3 with ⟨hro, hrnl⟩ | ⟨hro, hrw2⟩
    · have heq : rootD n (d.p.set l w) i = rootD n d.p i :=
        rootOf_unique hro (rootD_spec inv hi)
      rw [heq] at hrnl ⊢
      rw [if_neg hrnl]
    · have heq : rootD n d.p i = l :=
        (rootOf_unique (rootD_spec inv hi) hro)
      rw [if_pos heq]
      exact hrw2
  have hrdw3 : rootD n (d.p.set l w) w = w := by
    rw [hrd3 w hw, rootD_of_isRoot inv hw hrw, if_neg hne]
  have hclassw : classOf n (d.p.set l w) w =
      classOf n d.p w ∪ classOf n d.p l := by
    ext i
    rw [classOf, classOf, classOf, Finset.mem_union, Finset.mem_filter,
      Finset.mem_filter, Finset.mem_filter]
    constructor
    · rintro ⟨hir, heq⟩
      rw [hrdw3, hrd3 i (Finset.mem_range.mp hir)] at heq
      by_cases hil : rootD n d.p i = l
      · exact Or.inr ⟨hir, hil.trans (rootD_of_isRoot inv hl hrl).symm⟩
      · rw [if_neg hil] at heq
        exact Or.inl ⟨hir, heq.trans (rootD_of_isRoot inv hw hrw).symm⟩
    · rintro (⟨hir, heq⟩ | ⟨hir, heq⟩)
      · refine ⟨hir, ?_⟩
        rw [hrdw3, hrd3 i (Finset.mem_range.mp hir)]
        rw [rootD_of_isRoot inv hw hrw] at heq
        rw [if_neg (heq.symm ▸ hne ∘ Eq.symm ∘ Eq.symm), heq]
      · refine ⟨hir, ?_⟩
        rw [hrdw3, hrd3 i (Finset.mem_range.mp hir)]
        rw [rootD_of_isRoot inv hl hrl] at heq
        rw [if_pos heq]
  refine ⟨⟨by rw [List.length_set]; exact inv.lenP,
    by rw [List.length_set]; exact inv.lenS, hpLt3, hmono3, ?_⟩,
    hrd3, ?_⟩
  · intro r hr hroot3
    obtain ⟨hroot, hrnl⟩ := (hroots3 r).mp hroot3
    rw [hsz3 r]
    by_cases hrww : r = w
    · rw [if_pos hrww, hrww]
      rw [hclassw, Finset.card_union_of_disjoint hdisj]
      rw [inv.szRoot w hw hrw, inv.szRoot l hl hrl]
    · rw [if_neg hrww]
      have hclassr : classOf n (d.p.set l w) r = classOf n d.p r := by
        ext i
        rw [classOf, classOf, Finset.mem_filter, Finset.mem_filter]
        have hrdr3 : rootD n (d.p.set l w) r = r := by
          rw [hrd3 r hr, rootD_of_isRoot inv hr hroot, if_neg hrnl]
        have hrdr : rootD n d.p r = r := rootD_of_isRoot inv hr hroot
        constructor
        · rintro ⟨hir, heq⟩
          rw [hrdr3, hrd3 i (Finset.mem_range.mp hir)] at heq
          refine ⟨hir, ?_⟩
          by_cases hil : rootD n d.p i = l
          · rw [if_pos hil] at heq
            exact absurd heq.symm hrww
          · rw [if_neg hil] at heq
            rw [heq, hrdr]
        · rintro ⟨hir, heq⟩
          refine ⟨hir, ?_⟩
          rw [hrdr] at heq
          rw [hrdr3, hrd3 i (Finset.mem_range.mp hir),
            if_neg (by rw [heq]; exact hrnl), heq]
      rw [hclassr]
      exact inv.szRoot r hr hroot
  · rw [hsz3 w, if_pos rfl, hclassw, Finset.card_union_of_disjoint hdisj,
      inv.szRoot w hw hrw, inv.szRoot l hl hrl]

theorem join_eq_char {w l ra rb rx ry : Nat}
    (hset : (w = ra ∧ l = rb) ∨ (w = rb ∧ l = ra)) :
    ((if rx = l then w else rx) = (if ry = l then w else ry)) ↔
      (rx = ry ∨ (rx = ra ∧ ry = rb) ∨ (rx = rb ∧ ry = ra)) := by
  rcases hset with ⟨rfl, rfl⟩ | ⟨rfl, rfl⟩ <;> split_ifs with h1 h2 <;> omega

/-- Specification of `DSU.union`: invariant preservation, the class join,
and the returned size of the merged class. -/
theorem union_spec {n : Nat} {d : DSU} (inv : DInv n d) {a b : Nat}
    (ha : a < n) (hb : b < n) :
    DInv n (d.union a b).1 ∧
    (∀ x y, x < n → y < n →
      (rootD n (d.union a b).1.p x = rootD n (d.union a b).1.p y ↔
        (rootD n d.p x = rootD n d.p y ∨
          (rootD n d.p x = rootD n d.p a ∧ rootD n d.p y = rootD n d.p b) ∨
          (rootD n d.p x = rootD n d.p b ∧ rootD n d.p y = rootD n d.p a)))) ∧
    (d.union a b).2 = (classOf n (d.union a b).1.p a).card := by
  obtain ⟨inv1, hsz1, hrd1, hres1⟩ := find_spec inv ha
  obtain ⟨inv2, hsz2, hrd2, hres2⟩ := find_spec inv1 hb
  have hrd12 : ∀ i, i < n →
      rootD n ((d.find a).1.find b).1.p i = rootD n d.p i :=
    fun i hi => (hrd2 i hi).trans (hrd1 i hi)
  have hsz12 : ((d.find a).1.find b).1.sz = d.sz := hsz2.trans hsz1
  have hres2' : ((d.find a).1.find b).2 = rootD n d.p b :=
    hres2.trans (hrd1 b hb)
  have hran : rootD n d.p a < n := rootD_lt inv ha
  have hrbn : rootD n d.p b < n := rootD_lt inv hb
  have hroota2 : IsRootP ((d.find a).1.find b).1.p (rootD n d.p a) :=
    (isRoot_iff_rootD inv2 hran).mpr
      ((hrd12 _ hran).trans (rootD_idem inv ha))
  have hrootb2 : IsRootP ((d.find a).1.find b).1.p (rootD n d.p b) :=
    (isRoot_iff_rootD inv2 hrbn).mpr
      ((hrd12 _ hrbn).trans (rootD_idem inv hb))
  unfold DSU.union
  simp only []
  rw [hres1, hres2']
  by_cases heq : rootD n d.p a = rootD n d.p b
  · rw [if_pos heq]
    refine ⟨inv2, ?_, ?_⟩
    · intro x y hx hy
      simp only []
      rw [hrd12 x hx, hrd12 y hy]
      omega
    · simp only []
      rw [hsz12]
      have hclass_d2 : classOf n ((d.find a).1.find b).1.p a =
          classOf n d.p a := by
        unfold classOf
        apply Finset.filter_congr
        intro i hi
        rw [Finset.mem_range] at hi
        rw [hrd12 i hi, hrd12 a ha]
      rw [hclass_d2,
        classOf_congr ((rootD_idem inv ha).symm :
          rootD n d.p a = rootD n d.p (rootD n d.p a)),
        ← inv.szRoot (rootD n d.p a) hran (rootD_isRoot inv ha)]
  · rw [if_neg heq]
    by_cases hcmp : ((d.find a).1.find b).1.sz.getD (rootD n d.p a) 0 <
        ((d.find a).1.find b).1.sz.getD (rootD n d.p b) 0
    · rw [if_pos hcmp]
      simp only []
      obtain ⟨inv3, hrd3, hcard3⟩ := link_spec inv2 hrbn hran hrootb2 hroota2
        (fun h => heq h.symm)
      refine ⟨inv3, ?_, ?_⟩
      · intro x y hx hy
        rw [hrd3 x hx, hrd3 y hy, hrd12 x hx, hrd12 y hy]
        exact join_eq_char (Or.inr ⟨rfl, rfl⟩)
      · have hr3a : rootD n (((d.find a).1.find b).1.p.set
            (rootD n d.p a) (rootD n d.p b)) a =
            rootD n d.p b := by
          rw [hrd3 a ha, hrd12 a ha, if_pos rfl]
        have hr3w : rootD n (((d.find a).1.find b).1.p.set
            (rootD n d.p a) (rootD n d.p b)) (rootD n d.p b) =
            rootD n d.p b := by
          rw [hrd3 _ hrbn, hrd12 _ hrbn, rootD_idem inv hb,
            if_neg (fun h => heq h.symm)]
        rw [classOf_congr (hr3a.trans hr3w.symm)]
        exact hcard3
    · rw [if_neg hcmp]
      simp only []
      obtain ⟨inv3, hrd3, hcard3⟩ := link_spec inv2 hran hrbn hroota2 hrootb2
        heq
      refine ⟨inv3, ?_, ?_⟩
      · intro x y hx hy
        rw [hrd3 x hx, hrd3 y hy, hrd12 x hx, hrd12 y hy]
        exact join_eq_char (Or.inl ⟨rfl, rfl⟩)
      · have hr3a : rootD n (((d.find a).1.find b).1.p.set
            (rootD n d.p b) (rootD n d.p a)) a =
            rootD n d.p a := by
          rw [hrd3 a ha, hrd12 a ha, if_neg heq]
        have hr3w : rootD n (((d.find a).1.find b).1.p.set
            (rootD n d.p b) (rootD n d.p a)) (rootD n d.p a) =
            rootD n d.p a := by
          rw [hrd3 _ hran, hrd12 _ hran, rootD_idem inv ha, if_neg heq]
        rw [classOf_congr (hr3a.trans hr3w.symm)]
        exact hcard3

/-- `DSU.init` satisfies the invariant: `n` singleton classes. -/
theorem init_inv (n : Nat) : DInv n (DSU.init n) := by
  have hpar : ∀ i, i < n → parentOf (DSU.init n).p i = i := by
    intro i hi
    show (List.range n).getD i i = i
    simp [List.getD, hi]
  have hrootD : ∀ i, i < n → rootD n (DSU.init n).p i = i := by
    intro i hi
    obtain ⟨m, rfl⟩ : ∃ m, n = m + 1 := ⟨n - 1, by omega⟩
    show rootFuel _ (m + 1) i = i
    rw [rootFuel, if_pos (hpar i hi)]
  refine ⟨List.length_range n, List.length_replicate n 1, ?_, ?_, ?_⟩
  · intro i hi
    rw [hpar i hi]
    exact hi
  · intro i hi hne
    rw [hpar i hi] at hne
    exact absurd rfl hne
  · intro r hr hroot
    have hsingle : classOf n (DSU.init n).p r = {r} := by
      ext i
      rw [classOf, Finset.mem_filter, Finset.mem_range, Finset.mem_singleton]
      constructor
      · rintro ⟨hi, hlocal⟩
        rw [hrootD i hi, hrootD r hr] at hlocal
        exact hlocal
      · rintro rfl
        exact ⟨hr, rfl⟩
    rw [hsingle, Finset.card_singleton]
    show (List.replicate n 1).getD r 0 = 1
    simp [List.getD, hr]

/-!  ### C1, part 4: induced sub-snapshots and incremental edge addition -/

theorem mem_subgraphOn_nodes {G : Graph} {s : Finset Nat} {v : Nat} :
    v ∈ (G.subgraphOn s).nodes ↔ (v ∈ G.nodes ∧ v ∈ s) := by
  unfold Graph.subgraphOn
  rw [List.mem_filter]
  simp

theorem subgraphOn_wf {G : Graph} (hwf : G.Wf) (s : Finset Nat) :
    (G.subgraphOn s).Wf := by
  obtain ⟨hnd, hends, hcanon⟩ := hwf
  refine ⟨hnd.filter _, ?_, ?_⟩
  · intro e he
    rw [Graph.subgraphOn] at he
    simp only [List.mem_filter, decide_eq_true_eq] at he
    obtain ⟨he, h1, h2⟩ := he
    obtain ⟨hn1, hn2, hne⟩ := hends e he
    exact ⟨List.mem_filter.mpr ⟨hn1, by simp [h1]⟩,
      List.mem_filter.mpr ⟨hn2, by simp [h2]⟩, hne⟩
  · exact hcanon.sublist ((List.filter_sublist _).map _)

theorem stepRel_subgraphOn {G : Graph} (hwf : G.Wf) {A : Finset Nat}
    {x y : Nat} :
    stepRel (G.subgraphOn A) x y ↔ (x ∈ A ∧ y ∈ A ∧ stepRel G x y) := by
  unfold stepRel
  rw [mem_adjFinset (subgraphOn_wf hwf A), mem_adjFinset hwf]
  show ((x, y) ∈ G.edges.filter _ ∨ (y, x) ∈ G.edges.filter _) ↔ _
  simp only [List.mem_filter, decide_eq_true_eq]
  tauto

theorem connG_mono_subgraph {G : Graph} (hwf : G.Wf) {A B : Finset Nat}
    (hAB : A ⊆ B) {a b : Nat} (h : connG (G.subgraphOn A) a b) :
    connG (G.subgraphOn B) a b := by
  refine Relation.ReflTransGen.mono ?_ h
  intro x y hxy
  rw [stepRel_subgraphOn hwf] at hxy ⊢
  exact ⟨hAB hxy.1, hAB hxy.2.1, hxy.2.2⟩

theorem rtg_congr {r s : Nat → Nat → Prop} (h : ∀ x y, r x y ↔ s x y)
    {a b : Nat} :
    Relation.ReflTransGen r a b ↔ Relation.ReflTransGen s a b :=
  ⟨Relation.ReflTransGen.mono (fun x y => (h x y).mp),
   Relation.ReflTransGen.mono (fun x y => (h x y).mpr)⟩

/-- Effect of adding one undirected edge `{u, v}` on reachability. -/
theorem rtg_addEdge {r : Nat → Nat → Prop} (hsym : Symmetric r) (u v : Nat)
    (a b : Nat) :
    Relation.ReflTransGen (addEdgeRel r u v) a b ↔
      (Relation.ReflTransGen r a b ∨
        (Relation.ReflTransGen r a u ∧ Relation.ReflTransGen r v b) ∨
        (Relation.ReflTransGen r a v ∧ Relation.ReflTransGen r u b)) := by
  have hrsym : Symmetric (Relation.ReflTransGen r) :=
    Relation.ReflTransGen.symmetric hsym
  constructor
  · intro h
    induction h with
    | refl => exact Or.inl Relation.ReflTransGen.refl
    | tail hab hbc ih =>
      rcases hbc with hbc | ⟨hbu, hcv⟩ | ⟨hbv, hcu⟩
      · rcases ih with h1 | ⟨h1, h2⟩ | ⟨h1, h2⟩
        · exact Or.inl (h1.tail hbc)
        · exact Or.inr (Or.inl ⟨h1, h2.tail hbc⟩)
        · exact Or.inr (Or.inr ⟨h1, h2.tail hbc⟩)
      · subst hbu
        subst hcv
        rcases ih with h1 | ⟨h1, h2⟩ | ⟨h1, h2⟩
        · exact Or.inr (Or.inl ⟨h1, Relation.ReflTransGen.refl⟩)
        · exact Or.inr (Or.inl ⟨h1, Relation.ReflTransGen.refl⟩)
        · exact Or.inl h1
      · subst hbv
        subst hcu
        rcases ih with h1 | ⟨h1, h2⟩ | ⟨h1, h2⟩
        · exact Or.inr (Or.inr ⟨h1, Relation.ReflTransGen.refl⟩)
        · exact Or.inl h1
        · exact Or.inr (Or.inr ⟨h1, Relation.ReflTransGen.refl⟩)
  · have hmono : ∀ x y, Relation.ReflTransGen r x y →
        Relation.ReflTransGen (addEdgeRel r u v) x y :=
      fun x y => Relation.ReflTransGen.mono (fun x y h => Or.inl h)
    rintro (h | ⟨h1, h2⟩ | ⟨h1, h2⟩)
    · exact hmono _ _ h
    · exact ((hmono _ _ h1).tail (Or.inr (Or.inl ⟨rfl, rfl⟩))).trans
        (hmono _ _ h2)
    · exact ((hmono _ _ h1).tail (Or.inr (Or.inr ⟨rfl, rfl⟩))).trans
        (hmono _ _ h2)

theorem stepPartial_symm {G : Graph} (hwf : G.Wf) (A : Finset Nat) (u : Nat)
    (ws : List Nat) : Symmetric (stepPartial G A u ws) := by
  intro x y h
  rcases h with h | h | h
  · exact Or.inl (stepRel_symm (subgraphOn_wf hwf A) h)
  · exact Or.inr (Or.inr h)
  · exact Or.inr (Or.inl h)

theorem stepPartial_nil {G : Graph} {A : Finset Nat} {u : Nat} (x y : Nat) :
    stepPartial G A u [] x y ↔ stepRel (G.subgraphOn A) x y := by
  unfold stepPartial
  simp

theorem stepPartial_snoc_active {G : Graph} {A : Finset Nat} {u : Nat}
    {ws : List Nat} {v : Nat} (hv : v ∈ A) (x y : Nat) :
    stepPartial G A u (ws ++ [v]) x y ↔
      addEdgeRel (stepPartial G A u ws) u v x y := by
  unfold stepPartial addEdgeRel
  constructor
  · rintro (h | ⟨hxu, hyw, hyA⟩ | ⟨hyu, hxw, hxA⟩)
    · exact Or.inl (Or.inl h)
    · rcases List.mem_append.mp hyw with h | h
      · exact Or.inl (Or.inr (Or.inl ⟨hxu, h, hyA⟩))
      · rw [List.mem_singleton] at h
        exact Or.inr (Or.inl ⟨hxu, h⟩)
    · rcases List.mem_append.mp hxw with h | h
      · exact Or.inl (Or.inr (Or.inr ⟨hyu, h, hxA⟩))
      · rw [List.mem_singleton] at h
        exact Or.inr (Or.inr ⟨h, hyu⟩)
  · rintro ((h | ⟨hxu, hyw, hyA⟩ | ⟨hyu, hxw, hxA⟩) | ⟨hxu, hyv⟩ | ⟨hxv, hyu⟩)
    · exact Or.inl h
    · exact Or.inr (Or.inl ⟨hxu, List.mem_append_left _ hyw, hyA⟩)
    · exact Or.inr (Or.inr ⟨hyu, List.mem_append_left _ hxw, hxA⟩)
    · exact Or.inr (Or.inl ⟨hxu,
        List.mem_append_right _ (List.mem_singleton.mpr hyv), hyv ▸ hv⟩)
    · exact Or.inr (Or.inr ⟨hyu,
        List.mem_append_right _ (List.mem_singleton.mpr hxv), hxv ▸ hv⟩)

theorem stepPartial_snoc_inactive {G : Graph} {A : Finset Nat} {u : Nat}
    {ws : List Nat} {v : Nat} (hv : v ∉ A) (x y : Nat) :
    stepPartial G A u (ws ++ [v]) x y ↔ stepPartial G A u ws x y := by
  unfold stepPartial
  constructor
  · rintro (h | ⟨hxu, hyw, hyA⟩ | ⟨hyu, hxw, hxA⟩)
    · exact Or.inl h
    · rcases List.mem_append.mp hyw with h | h
      · exact Or.inr (Or.inl ⟨hxu, h, hyA⟩)
      · rw [List.mem_singleton] at h
        exact absurd (h ▸ hyA) hv
    · rcases List.mem_append.mp hxw with h | h
      · exact Or.inr (Or.inr ⟨hyu, h, hxA⟩)
      · rw [List.mem_singleton] at h
        exact absurd (h ▸ hxA) hv
  · rintro (h | ⟨hxu, hyw, hyA⟩ | ⟨hyu, hxw, hxA⟩)
    · exact Or.inl h
    · exact Or.inr (Or.inl ⟨hxu, List.mem_append_left _ hyw, hyA⟩)
    · exact Or.inr (Or.inr ⟨hyu, List.mem_append_left _ hxw, hxA⟩)

theorem stepPartial_full {G : Graph} (hwf : G.Wf) {A : Finset Nat} {u : Nat}
    (huA : u ∉ A) (x y : Nat) :
    stepPartial G A u (G.adjList u) x y ↔
      stepRel (G.subgraphOn (insert u A)) x y := by
  rw [stepRel_subgraphOn hwf]
  unfold stepPartial
  have hadj : ∀ z, z ∈ G.adjList u ↔ stepRel G u z := by
    intro z
    unfold stepRel Graph.adjFinset
    rw [List.mem_toFinset]
  constructor
  · rintro (h | ⟨hxu, hyw, hyA⟩ | ⟨hyu, hxw, hxA⟩)
    · rw [stepRel_subgraphOn hwf] at h
      exact ⟨Finset.mem_insert_of_mem h.1, Finset.mem_insert_of_mem h.2.1,
        h.2.2⟩
    · exact ⟨hxu ▸ Finset.mem_insert_self u A, Finset.mem_insert_of_mem hyA,
        hxu ▸ (hadj y).mp hyw⟩
    · exact ⟨Finset.mem_insert_of_mem hxA, hyu ▸ Finset.mem_insert_self u A,
        stepRel_symm hwf (hyu ▸ (hadj x).mp hxw)⟩
  · rintro ⟨hx, hy, hstep⟩
    rcases Finset.mem_insert.mp hx with hxu | hxA
    · rcases Finset.mem_insert.mp hy with hyu | hyA
      · exfalso
        rw [hxu, hyu] at hstep
        rcases (mem_adjFinset hwf).mp hstep with he | he
        · exact (hwf.2.1 _ he).2.2 rfl
        · exact (hwf.2.1 _ he).2.2 rfl
      · exact Or.inr (Or.inl ⟨hxu, (hadj y).mpr (hxu ▸ hstep), hyA⟩)
    · rcases Finset.mem_insert.mp hy with hyu | hyA
      · exact Or.inr (Or.inr ⟨hyu,
          (hadj x).mpr (stepRel_symm hwf (hyu ▸ hstep)), hxA⟩)
      · exact Or.inl ((stepRel_subgraphOn hwf).mpr ⟨hxA, hyA, hstep⟩)

/-- Adding back one node: the new LCC size is the maximum of the old LCC
size and the size of the added node's component. -/
theorem lccCard_insert {G : Graph} (hwf : G.Wf) {A : Finset Nat} {u : Nat}
    (hu : u ∈ G.nodes) (huA : u ∉ A) :
    lccCard (G.subgraphOn (insert u A)) =
      max (lccCard (G.subgraphOn A))
        ((compSet (G.subgraphOn (insert u A)) u).card) := by
  have hwfA : (G.subgraphOn A).Wf := subgraphOn_wf hwf A
  have hwfA' : (G.subgraphOn (insert u A)).Wf := subgraphOn_wf hwf _
  have huA' : u ∈ (G.subgraphOn (insert u A)).nodes :=
    mem_subgraphOn_nodes.mpr ⟨hu, Finset.mem_insert_self u A⟩
  have hmonoc : ∀ v, v ∈ (G.subgraphOn A).nodes →
      compSet (G.subgraphOn A) v ⊆ compSet (G.subgraphOn (insert u A)) v := by
    intro v hv
    have hv' : v ∈ (G.subgraphOn (insert u A)).nodes := by
      rw [mem_subgraphOn_nodes] at hv ⊢
      exact ⟨hv.1, Finset.mem_insert_of_mem hv.2⟩
    intro x hx
    rw [mem_compSet_iff hwfA hv] at hx
    rw [mem_compSet_iff hwfA' hv']
    exact connG_mono_subgraph hwf (Finset.subset_insert u A) hx
  have hdich : ∀ v, v ∈ (G.subgraphOn (insert u A)).nodes →
      ¬ connG (G.subgraphOn (insert u A)) u v →
      compSet (G.subgraphOn (insert u A)) v = compSet (G.subgraphOn A) v := by
    intro v hv hnconn
    have hvu : v ≠ u := fun h => hnconn (h ▸ Relation.ReflTransGen.refl)
    have hvA : v ∈ A := by
      rw [mem_subgraphOn_nodes] at hv
      rcases Finset.mem_insert.mp hv.2 with h | h
      · exact absurd h hvu
      · exact h
    have hvGA : v ∈ (G.subgraphOn A).nodes := by
      rw [mem_subgraphOn_nodes] at hv ⊢
      exact ⟨hv.1, hvA⟩
    have hkey : ∀ x, connG (G.subgraphOn (insert u A)) v x →
        (connG (G.subgraphOn A) v x ∧ x ≠ u) := by
      intro x hx
      induction hx with
      | refl => exact ⟨Relation.ReflTransGen.refl, hvu⟩
      | @tail b c hvb hbc ih =>
        obtain ⟨ihc, hbu⟩ := ih
        rw [stepRel_subgraphOn hwf] at hbc
        obtain ⟨hbm, hcm, hstep⟩ := hbc
        by_cases hcu : c = u
        · exfalso
          apply hnconn
          refine connG_symm hwfA' ((connG_mono_subgraph hwf
            (Finset.subset_insert u A) ihc).tail ?_)
          rw [stepRel_subgraphOn hwf]
          exact ⟨hbm, hcu ▸ hcm, hcu ▸ hstep⟩
        · have hbA : b ∈ A := (Finset.mem_insert.mp hbm).resolve_left hbu
          have hcA : c ∈ A := (Finset.mem_insert.mp hcm).resolve_left hcu
          exact ⟨ihc.tail ((stepRel_subgraphOn hwf).mpr ⟨hbA, hcA, hstep⟩),
            hcu⟩
    ext x
    rw [mem_compSet_iff hwfA' hv, mem_compSet_iff hwfA hvGA]
    constructor
    · intro h
      exact (hkey x h).1
    · intro h
      exact connG_mono_subgraph hwf (Finset.subset_insert u A) h
  apply Nat.le_antisymm
  · have hne : (G.subgraphOn (insert u A)).nodes ≠ [] :=
      fun h => absurd (h ▸ huA') (List.not_mem_nil u)
    obtain ⟨v, hv, hvc⟩ := lccCard_attained hne
    rw [hvc]
    by_cases hconn : connG (G.subgraphOn (insert u A)) u v
    · have : compSet (G.subgraphOn (insert u A)) v =
          compSet (G.subgraphOn (insert u A)) u := by
        apply compSet_eq_of_mem hwfA' huA' hv
        rw [mem_compSet_iff hwfA' huA']
        exact hconn
      rw [this]
      exact le_max_right _ _
    · rw [hdich v hv hconn]
      refine le_trans ?_ (le_max_left _ _)
      apply lccCard_ge hwfA
      have hvu : v ≠ u := fun h => hconn (h ▸ Relation.ReflTransGen.refl)
      rw [mem_subgraphOn_nodes] at hv ⊢
      exact ⟨hv.1, (Finset.mem_insert.mp hv.2).resolve_left hvu⟩
  · rw [Nat.max_le]
    constructor
    · by_cases hnil : (G.subgraphOn A).nodes = []
      · rw [lccCard_nil hnil]
        exact Nat.zero_le _
      · obtain ⟨w, hw, hwc⟩ := lccCard_attained hnil
        rw [hwc]
        refine le_trans (Finset.card_le_card (hmonoc w hw)) ?_
        apply lccCard_ge hwfA'
        rw [mem_subgraphOn_nodes] at hw ⊢
        exact ⟨hw.1, Finset.mem_insert_of_mem hw.2⟩
    · exact lccCard_ge hwfA' huA'

/-!  ### C1, part 5: prefix removal equals the induced sub-snapshot -/

theorem removeNodes_eq {G : Graph} (hnd : G.nodes.Nodup) (l : List Nat) :
    l.foldl Graph.removeNode G =
      ⟨G.nodes.filter (fun v => decide (v ∉ l)),
       G.edges.filter (fun e => decide (e.1 ∉ l ∧ e.2 ∉ l))⟩ := by
  induction l generalizing G with
  | nil =>
    show G = _
    cases G with
    | mk ns es =>
      simp
  | cons a l ih =>
    rw [List.foldl_cons, ih (hnd.erase a)]
    show (⟨(G.nodes.erase a).filter _, _⟩ : Graph) = _
    congr 1
    · rw [hnd.erase_eq_filter a, List.filter_filter]
      apply List.filter_congr
      intro v _
      by_cases hva : v = a <;> by_cases hvl : v ∈ l <;>
        simp [hva, hvl]
    · show (G.edges.filter _).filter _ = _
      rw [List.filter_filter]
      apply List.filter_congr
      intro e _
      by_cases h1a : e.1 = a <;> by_cases h2a : e.2 = a <;>
        by_cases h1l : e.1 ∈ l <;> by_cases h2l : e.2 ∈ l <;>
        simp [h1a, h2a, h1l, h2l]

theorem removeNodes_eq_subgraphOn {G : Graph} (hwf : G.Wf)
    {order : List Nat} (hperm : order.Perm G.nodes) (k : Nat) :
    (order.take k).foldl Graph.removeNode G =
      G.subgraphOn (order.drop k).toFinset := by
  rw [removeNodes_eq hwf.1]
  unfold Graph.subgraphOn
  have hnodup : order.Nodup := hperm.nodup_iff.mpr hwf.1
  have hmem : ∀ v, v ∈ G.nodes →
      ((v ∉ order.take k) ↔ v ∈ (order.drop k).toFinset) := by
    intro v hv
    rw [List.mem_toFinset]
    have hvo : v ∈ order := hperm.mem_iff.mpr hv
    rw [← List.take_append_drop k order] at hvo hnodup
    constructor
    · intro h
      exact (List.mem_append.mp hvo).resolve_left h
    · intro h hc
      exact (List.disjoint_of_nodup_append hnodup) hc h
  congr 1
  · apply List.filter_congr
    intro v hv
    rw [decide_eq_decide]
    exact hmem v hv
  · apply List.filter_congr
    intro e he
    rw [decide_eq_decide]
    exact and_congr (hmem e.1 (hwf.2.1 e he).1) (hmem e.2 (hwf.2.1 e he).2.1)

/-!  ### C1, part 6: the add-back loops maintain the component
invariant -/

theorem indexOf_lt {l : List Nat} {v : Nat} (hv : v ∈ l) :
    l.indexOf v < l.length := List.indexOf_lt_length.mpr hv

theorem getD_indexOf {l : List Nat} {v : Nat} (hv : v ∈ l) :
    l.getD (l.indexOf v) 0 = v := by
  have h := indexOf_lt hv
  rw [List.getD_eq_getElem l 0 h]
  exact List.getElem_indexOf h

theorem getD_mem {l : List Nat} {i : Nat} (hi : i < l.length) :
    l.getD i 0 ∈ l := by
  rw [List.getD_eq_getElem l 0 hi]
  exact List.getElem_mem hi

theorem indexOf_getD {l : List Nat} (hnd : l.Nodup) {i : Nat}
    (hi : i < l.length) : l.indexOf (l.getD i 0) = i := by
  have hmem : l.getD i 0 ∈ l := getD_mem hi
  have h1 : l.indexOf (l.getD i 0) < l.length := indexOf_lt hmem
  have h2 : l[l.indexOf (l.getD i 0)] = l[i] := by
    rw [← List.getD_eq_getElem l 0 h1, ← List.getD_eq_getElem l 0 hi]
    exact getD_indexOf hmem
  exact hnd.getElem_inj_iff.mp h2

theorem getD_inj {l : List Nat} (hnd : l.Nodup) {i j : Nat}
    (hi : i < l.length) (hj : j < l.length) (h : l.getD i 0 = l.getD j 0) :
    i = j := by
  rw [← indexOf_getD hnd hi, ← indexOf_getD hnd hj, h]

theorem adjList_subset_nodes {G : Graph} (hwf : G.Wf) {u v : Nat}
    (hv : v ∈ G.adjList u) : v ∈ G.nodes := by
  have : v ∈ G.adjFinset u := List.mem_toFinset.mpr hv
  exact List.mem_toFinset.mp (adjFinset_subset_nodes hwf u this)

theorem self_not_mem_adjList {G : Graph} (hwf : G.Wf) (u : Nat) :
    u ∉ G.adjList u := by
  intro hc
  have : u ∈ G.adjFinset u := List.mem_toFinset.mpr hc
  rcases (mem_adjFinset hwf).mp this with he | he
  · exact (hwf.2.1 _ he).2.2 rfl
  · exact (hwf.2.1 _ he).2.2 rfl

theorem connG_subOn_empty {G : Graph} {x y : Nat}
    (h : connG (G.subgraphOn ∅) x y) : x = y := by
  induction h with
  | refl => rfl
  | tail _ hbc _ =>
    exfalso
    unfold stepRel Graph.adjFinset Graph.subgraphOn Graph.adjList at hbc
    rw [List.mem_toFinset, List.mem_filterMap] at hbc
    obtain ⟨e, he, _⟩ := hbc
    simp [List.mem_filter] at he

theorem conn_subOn_to_inactive {G : Graph} (hwf : G.Wf) {A : Finset Nat}
    {u : Nat} (huA : u ∉ A) {x : Nat}
    (h : connG (G.subgraphOn A) x u) : x = u := by
  rcases Relation.ReflTransGen.cases_tail h with h | ⟨c, _, hstep⟩
  · exact h.symm
  · exfalso
    rw [stepRel_subgraphOn hwf] at hstep
    exact huA hstep.2.1

theorem init_rootD {n : Nat} {i : Nat} (hi : i < n) :
    rootD n (DSU.init n).p i = i := by
  have hpar : parentOf (DSU.init n).p i = i := by
    show (List.range n).getD i i = i
    simp [List.getD, hi]
  obtain ⟨m, rfl⟩ : ∃ m, n = m + 1 := ⟨n - 1, by omega⟩
  show rootFuel _ (m + 1) i = i
  rw [rootFuel, if_pos hpar]

theorem kOfFrac_le (n : Nat) (f : ℚ) : kOfFrac n f ≤ n := by
  unfold kOfFrac
  omega

/-- The inner neighbor-union loop: joins the added-back node's class with
each already-active neighbor's class, maintaining the partition invariant
over the partially wired relation and the running maximum. -/
theorem unionNeighbors_spec {G : Graph} (hwf : G.Wf) {A : Finset Nat}
    {u : Nat} (hu : u ∈ G.nodes) (huA : u ∉ A) {active : List Bool}
    (hact : ∀ i, i < G.nodes.length →
      ((active.getD i false = true) ↔ G.nodes.getD i 0 ∈ insert u A)) :
    ∀ (vs ws : List Nat), G.adjList u = ws ++ vs →
      ∀ (dsu : DSU) (m m0 : Nat), DInv G.nodes.length dsu →
      (∀ i j, i < G.nodes.length → j < G.nodes.length →
        (rootD G.nodes.length dsu.p i = rootD G.nodes.length dsu.p j ↔
          (i = j ∨ Relation.ReflTransGen (stepPartial G A u ws)
            (G.nodes.getD i 0) (G.nodes.getD j 0)))) →
      (max m 1 =
        max m0 ((classOf G.nodes.length dsu.p (G.nodes.indexOf u)).card)) →
      DInv G.nodes.length
        (unionNeighbors active (G.nodes.indexOf u)
          (vs.map (idxOf G.nodes)) dsu m).1 ∧
      (∀ i j, i < G.nodes.length → j < G.nodes.length →
        (rootD G.nodes.length
            (unionNeighbors active (G.nodes.indexOf u)
              (vs.map (idxOf G.nodes)) dsu m).1.p i =
          rootD G.nodes.length
            (unionNeighbors active (G.nodes.indexOf u)
              (vs.map (idxOf G.nodes)) dsu m).1.p j ↔
          (i = j ∨ Relation.ReflTransGen (stepPartial G A u (ws ++ vs))
            (G.nodes.getD i 0) (G.nodes.getD j 0)))) ∧
      (max (unionNeighbors active (G.nodes.indexOf u)
          (vs.map (idxOf G.nodes)) dsu m).2 1 =
        max m0 ((classOf G.nodes.length
          (unionNeighbors active (G.nodes.indexOf u)
            (vs.map (idxOf G.nodes)) dsu m).1.p (G.nodes.indexOf u)).card))
  | [], ws, happ, dsu, m, m0, inv, hpart, hmax => by
    rw [List.append_nil]
    exact ⟨inv, hpart, hmax⟩
  | v :: rest, ws, happ, dsu, m, m0, inv, hpart, hmax => by
    have hvadj : v ∈ G.adjList u := by
      rw [happ]
      exact List.mem_append_right ws (List.mem_cons_self v rest)
    have hvnodes : v ∈ G.nodes := adjList_subset_nodes hwf hvadj
    have hvu : v ≠ u := fun h => self_not_mem_adjList hwf u (h ▸ hvadj)
    have hivlt : G.nodes.indexOf v < G.nodes.length := indexOf_lt hvnodes
    have hiult : G.nodes.indexOf u < G.nodes.length := indexOf_lt hu
    have hnodeiv : G.nodes.getD (G.nodes.indexOf v) 0 = v := getD_indexOf hvnodes
    have hnodeiu : G.nodes.getD (G.nodes.indexOf u) 0 = u := getD_indexOf hu
    have happ' : G.adjList u = (ws ++ [v]) ++ rest := by
      rw [happ, List.append_assoc, List.singleton_append]
    simp only [List.map_cons, idxOf]
    rw [unionNeighbors]
    by_cases hvact : active.getD (G.nodes.indexOf v) false = true
    · rw [if_pos hvact]
      simp only []
      have hvA : v ∈ A := by
        have := (hact _ hivlt).mp hvact
        rw [hnodeiv] at this
        exact (Finset.mem_insert.mp this).resolve_left hvu
      obtain ⟨inv', hjoin, hret⟩ := union_spec inv hiult hivlt
      have hpart' : ∀ i j, i < G.nodes.length → j < G.nodes.length →
          (rootD G.nodes.length (dsu.union (G.nodes.indexOf u)
              (G.nodes.indexOf v)).1.p i =
            rootD G.nodes.length (dsu.union (G.nodes.indexOf u)
              (G.nodes.indexOf v)).1.p j ↔
            (i = j ∨ Relation.ReflTransGen (stepPartial G A u (ws ++ [v]))
              (G.nodes.getD i 0) (G.nodes.getD j 0))) := by
        intro i j hi hj
        rw [hjoin i j hi hj]
        have hsym : Symmetric (stepPartial G A u ws) :=
          stepPartial_symm hwf A u ws
        have hrtgsym : Symmetric (Relation.ReflTransGen (stepPartial G A u ws)) :=
          Relation.ReflTransGen.symmetric hsym
        have hEu : ∀ i', i' < G.nodes.length →
            (rootD G.nodes.length dsu.p i' =
              rootD G.nodes.length dsu.p (G.nodes.indexOf u) ↔
            Relation.ReflTransGen (stepPartial G A u ws)
              (G.nodes.getD i' 0) u) := by
          intro i' hi'
          rw [hpart i' _ hi' hiult, hnodeiu]
          constructor
          · rintro (h | h)
            · rw [h, hnodeiu]
            · exact h
          · exact fun h => Or.inr h
        have hEv : ∀ i', i' < G.nodes.length →
            (rootD G.nodes.length dsu.p i' =
              rootD G.nodes.length dsu.p (G.nodes.indexOf v) ↔
            Relation.ReflTransGen (stepPartial G A u ws)
              (G.nodes.getD i' 0) v) := by
          intro i' hi'
          rw [hpart i' _ hi' hivlt, hnodeiv]
          constructor
          · rintro (h | h)
            · rw [h, hnodeiv]
            · exact h
          · exact fun h => Or.inr h
        rw [hpart i j hi hj, hEu i hi, hEu j hj, hEv i hi, hEv j hj]
        rw [rtg_congr (stepPartial_snoc_active hvA), rtg_addEdge hsym u v]
        constructor
        · rintro ((h | h) | ⟨h1, h2⟩ | ⟨h1, h2⟩)
          · exact Or.inl h
          · exact Or.inr (Or.inl h)
          · exact Or.inr (Or.inr (Or.inl ⟨h1, hrtgsym h2⟩))
          · exact Or.inr (Or.inr (Or.inr ⟨h1, hrtgsym h2⟩))
        · rintro (h | h | ⟨h1, h2⟩ | ⟨h1, h2⟩)
          · exact Or.inl (Or.inl h)
          · exact Or.inl (Or.inr h)
          · exact Or.inr (Or.inl ⟨h1, hrtgsym h2⟩)
          · exact Or.inr (Or.inr ⟨h1, hrtgsym h2⟩)
      have hmax' : max (max m (dsu.union (G.nodes.indexOf u)
          (G.nodes.indexOf v)).2) 1 =
          max m0 ((classOf G.nodes.length (dsu.union (G.nodes.indexOf u)
            (G.nodes.indexOf v)).1.p (G.nodes.indexOf u)).card) := by
        have hsub : classOf G.nodes.length dsu.p (G.nodes.indexOf u) ⊆
            classOf G.nodes.length (dsu.union (G.nodes.indexOf u)
              (G.nodes.indexOf v)).1.p (G.nodes.indexOf u) := by
          intro i hi
          rw [classOf, Finset.mem_filter] at hi ⊢
          refine ⟨hi.1, ?_⟩
          rw [hjoin i _ (Finset.mem_range.mp hi.1) hiult]
          exact Or.inl hi.2
        have hcardle := Finset.card_le_card hsub
        have hpos : 1 ≤ (classOf G.nodes.length (dsu.union (G.nodes.indexOf u)
            (G.nodes.indexOf v)).1.p (G.nodes.indexOf u)).card :=
          Finset.card_pos.mpr ⟨_, mem_classOf_self _ hiult⟩
        rw [hret]
        omega
      have hlist : ws ++ v :: rest = (ws ++ [v]) ++ rest := by
        rw [List.append_assoc, List.singleton_append]
      rw [hlist]
      exact unionNeighbors_spec hwf hu huA hact rest (ws ++ [v]) happ'
        (dsu.union (G.nodes.indexOf u) (G.nodes.indexOf v)).1
        (max m (dsu.union (G.nodes.indexOf u) (G.nodes.indexOf v)).2) m0
        inv' hpart' hmax'
    · rw [if_neg hvact]
      have hvA : v ∉ A := by
        intro hc
        exact hvact ((hact _ hivlt).mpr
          (by rw [hnodeiv]; exact Finset.mem_insert_of_mem hc))
      have hpart' : ∀ i j, i < G.nodes.length → j < G.nodes.length →
          (rootD G.nodes.length dsu.p i = rootD G.nodes.length dsu.p j ↔
            (i = j ∨ Relation.ReflTransGen (stepPartial G A u (ws ++ [v]))
              (G.nodes.getD i 0) (G.nodes.getD j 0))) := by
        intro i j hi hj
        rw [hpart i j hi hj,
          rtg_congr (stepPartial_snoc_inactive hvA)]
      have hlist : ws ++ v :: rest = (ws ++ [v]) ++ rest := by
        rw [List.append_assoc, List.singleton_append]
      rw [hlist]
      exact unionNeighbors_spec hwf hu huA hact rest (ws ++ [v]) happ'
        dsu m m0 inv hpart' hmax

/-- The DSU class of the added-back node has the same size as its
component in the extended sub-snapshot. -/
theorem classOf_card_eq_comp {G : Graph} (hwf : G.Wf) {p : List Nat}
    {B : Finset Nat} {u : Nat} (hu : u ∈ G.nodes) (huB : u ∈ B)
    (hiff : ∀ i, i < G.nodes.length →
      (rootD G.nodes.length p i =
          rootD G.nodes.length p (G.nodes.indexOf u) ↔
        (i = G.nodes.indexOf u ∨
          connG (G.subgraphOn B) (G.nodes.getD i 0) u))) :
    (classOf G.nodes.length p (G.nodes.indexOf u)).card =
      (compSet (G.subgraphOn B) u).card := by
  have hwfB := subgraphOn_wf hwf B
  have huN : u ∈ (G.subgraphOn B).nodes := mem_subgraphOn_nodes.mpr ⟨hu, huB⟩
  apply Finset.card_nbij (fun i => G.nodes.getD i 0)
  · intro i hi
    rw [classOf, Finset.mem_filter] at hi
    obtain ⟨hir, heq⟩ := hi
    rw [Finset.mem_range] at hir
    rw [mem_compSet_iff hwfB huN]
    rcases (hiff i hir).mp heq with h | h
    · rw [h, getD_indexOf hu]
      exact Relation.ReflTransGen.refl
    · exact connG_symm hwfB h
  · intro i hi j hj hij
    rw [Finset.mem_coe, classOf, Finset.mem_filter, Finset.mem_range] at hi hj
    exact getD_inj hwf.1 hi.1 hj.1 hij
  · intro x hx
    have hxN : x ∈ (G.subgraphOn B).nodes :=
      List.mem_toFinset.mp (compSet_subset_nodes hwfB huN hx)
    obtain ⟨hxG, hxB⟩ := mem_subgraphOn_nodes.mp hxN
    refine ⟨G.nodes.indexOf x, ?_, getD_indexOf hxG⟩
    rw [Finset.mem_coe, classOf, Finset.mem_filter, Finset.mem_range]
    refine ⟨indexOf_lt hxG, (hiff _ (indexOf_lt hxG)).mpr (Or.inr ?_)⟩
    rw [getD_indexOf hxG]
    exact connG_symm hwfB ((mem_compSet_iff hwfB huN x).mp hx)

theorem toFinset_append_singleton (l : List Nat) (u : Nat) :
    (l ++ [u]).toFinset = insert u l.toFinset := by
  ext a
  simp [or_comm]

theorem toFinset_cons_reverse (u : Nat) (done : List Nat) :
    (u :: done.reverse).toFinset = insert u done.toFinset := by
  ext a
  simp

theorem drop_of_reverse_eq {order done rest : List Nat} {u : Nat}
    (hrev : order.reverse = done ++ u :: rest) :
    order.drop rest.length = u :: done.reverse := by
  have horder : order = rest.reverse ++ u :: done.reverse := by
    rw [← List.reverse_reverse order, hrev]
    simp
  have hlen : rest.length = rest.reverse.length :=
    (List.length_reverse rest).symm
  rw [horder, hlen, List.drop_left]

/-- The add-back loop of `lcc_curve_static_dsu`: at every step the table
entry for the current removal count records the exact LCC size of the
corresponding suffix sub-snapshot. -/
theorem lccCurveStep_spec {G : Graph} (hwf : G.Wf) {order : List Nat}
    (hperm : order.Perm G.nodes) :
    ∀ (todo done : List Nat), order.reverse = done ++ todo →
    ∀ (t : Nat), t = done.length + 1 →
    ∀ (active : List Bool) (dsu : DSU) (maxcc : Nat) (table : List Nat),
      active.length = G.nodes.length →
      (∀ i, i < G.nodes.length →
        ((active.getD i false = true) ↔
          G.nodes.getD i 0 ∈ done.toFinset)) →
      DInv G.nodes.length dsu →
      (∀ i j, i < G.nodes.length → j < G.nodes.length →
        (rootD G.nodes.length dsu.p i = rootD G.nodes.length dsu.p j ↔
          (i = j ∨ connG (G.subgraphOn done.toFinset)
            (G.nodes.getD i 0) (G.nodes.getD j 0)))) →
      maxcc = lccCard (G.subgraphOn done.toFinset) →
      table.length = G.nodes.length + 1 →
      table.getD G.nodes.length 0 = 0 →
      (∀ k, k < G.nodes.length → G.nodes.length - done.length ≤ k →
        table.getD k 0 = lccCard (G.subgraphOn (order.drop k).toFinset)) →
      ((lccCurveStep G (idxOf G.nodes) G.nodes.length todo
          (active, dsu, maxcc, table) t).2.2.2.length =
        G.nodes.length + 1) ∧
      ((lccCurveStep G (idxOf G.nodes) G.nodes.length todo
          (active, dsu, maxcc, table) t).2.2.2.getD G.nodes.length 0 = 0) ∧
      (∀ k, k < G.nodes.length →
        G.nodes.length - (done.length + todo.length) ≤ k →
        (lccCurveStep G (idxOf G.nodes) G.nodes.length todo
            (active, dsu, maxcc, table) t).2.2.2.getD k 0 =
          lccCard (G.subgraphOn (order.drop k).toFinset))
  | [], done, hrev, t, ht, active, dsu, maxcc, table, hactlen, hact, inv,
      hpart, hmax, htlen, htn, htk => by
    refine ⟨htlen, htn, fun k hk hge => htk k hk ?_⟩
    simp only [List.length_nil, Nat.add_zero] at hge
    exact hge
  | u :: rest, done, hrev, t, ht, active, dsu, maxcc, table, hactlen, hact,
      inv, hpart, hmax, htlen, htn, htk => by
    have hndorder : order.Nodup := hperm.nodup_iff.mpr hwf.1
    have hndrev : (done ++ u :: rest).Nodup := by
      rw [← hrev]
      exact List.nodup_reverse.mpr hndorder
    have hlensum : done.length + (rest.length + 1) = G.nodes.length := by
      have h1 : order.reverse.length = G.nodes.length := by
        rw [List.length_reverse]
        exact hperm.length_eq
      rw [hrev] at h1
      simp only [List.length_append, List.length_cons] at h1
      omega
    have humem : u ∈ G.nodes := by
      apply hperm.mem_iff.mp
      rw [← List.mem_reverse, hrev]
      exact List.mem_append_right done (List.mem_cons_self u rest)
    have huD : u ∉ done.toFinset := by
      rw [List.mem_toFinset]
      intro hc
      exact (List.disjoint_of_nodup_append hndrev) hc
        (List.mem_cons_self u rest)
    have hAsub : ∀ a ∈ done.toFinset, a ∈ G.nodes := by
      intro a haD
      apply hperm.mem_iff.mp
      rw [← List.mem_reverse, hrev]
      exact List.mem_append_left _ (List.mem_toFinset.mp haD)
    have hiult : G.nodes.indexOf u < G.nodes.length := indexOf_lt humem
    have hnodeiu : G.nodes.getD (G.nodes.indexOf u) 0 = u := getD_indexOf humem
    rw [lccCurveStep]
    simp only [idxOf]
    have hact' : ∀ i, i < G.nodes.length →
        (((active.set (G.nodes.indexOf u) true).getD i false = true) ↔
          G.nodes.getD i 0 ∈ insert u done.toFinset) := by
      intro i hi
      by_cases hiu : i = G.nodes.indexOf u
      · rw [hiu, getD_set_self (by rw [hactlen]; exact hiult), hnodeiu]
        simp [Finset.mem_insert_self]
      · rw [getD_set_ne true false (fun h => hiu h.symm), hact i hi,
          Finset.mem_insert]
        constructor
        · exact fun h => Or.inr h
        · rintro (h | h)
          · exfalso
            apply hiu
            rw [← indexOf_getD hwf.1 hi, h]
          · exact h
    have hclass1 : classOf G.nodes.length dsu.p (G.nodes.indexOf u) =
        {G.nodes.indexOf u} := by
      ext i
      rw [classOf, Finset.mem_filter, Finset.mem_range, Finset.mem_singleton]
      constructor
      · rintro ⟨hi, heq⟩
        rcases (hpart i _ hi hiult).mp heq with h | h
        · exact h
        · rw [hnodeiu] at h
          have := conn_subOn_to_inactive hwf huD h
          rw [← indexOf_getD hwf.1 hi, this]
      · rintro rfl
        exact ⟨hiult, rfl⟩
    have hpart0 : ∀ i j, i < G.nodes.length → j < G.nodes.length →
        (rootD G.nodes.length dsu.p i = rootD G.nodes.length dsu.p j ↔
          (i = j ∨ Relation.ReflTransGen
            (stepPartial G done.toFinset u [])
            (G.nodes.getD i 0) (G.nodes.getD j 0))) := by
      intro i j hi hj
      rw [hpart i j hi hj]
      exact or_congr Iff.rfl (rtg_congr (stepPartial_nil)).symm
    obtain ⟨inv', hpart', hmax'⟩ := unionNeighbors_spec hwf humem huD hact'
      (G.adjList u) [] rfl dsu maxcc maxcc inv hpart0
      (by rw [hclass1, Finset.card_singleton])
    rw [List.nil_append] at hpart'
    have hpartA' : ∀ i j, i < G.nodes.length → j < G.nodes.length →
        (rootD G.nodes.length
            (unionNeighbors (active.set (G.nodes.indexOf u) true)
              (G.nodes.indexOf u)
              ((G.adjList u).map (idxOf G.nodes)) dsu maxcc).1.p i =
          rootD G.nodes.length
            (unionNeighbors (active.set (G.nodes.indexOf u) true)
              (G.nodes.indexOf u)
              ((G.adjList u).map (idxOf G.nodes)) dsu maxcc).1.p j ↔
          (i = j ∨ connG (G.subgraphOn (insert u done.toFinset))
            (G.nodes.getD i 0) (G.nodes.getD j 0))) := by
      intro i j hi hj
      rw [hpart' i j hi hj]
      exact or_congr Iff.rfl (rtg_congr (stepPartial_full hwf huD))
    have hcomp : (classOf G.nodes.length
        (unionNeighbors (active.set (G.nodes.indexOf u) true)
          (G.nodes.indexOf u)
          ((G.adjList u).map (idxOf G.nodes)) dsu maxcc).1.p
          (G.nodes.indexOf u)).card =
        (compSet (G.subgraphOn (insert u done.toFinset)) u).card := by
      apply classOf_card_eq_comp hwf humem (Finset.mem_insert_self u _)
      intro i hi
      rw [hpartA' i _ hi hiult, hnodeiu]
    have hmaxcc' : max (unionNeighbors (active.set (G.nodes.indexOf u) true)
        (G.nodes.indexOf u)
        ((G.adjList u).map (idxOf G.nodes)) dsu maxcc).2 1 =
        lccCard (G.subgraphOn (insert u done.toFinset)) := by
      rw [hmax', hcomp, hmax]
      exact (lccCard_insert hwf humem huD).symm
    have hdonetf : (done ++ [u]).toFinset = insert u done.toFinset :=
      toFinset_append_singleton done u
    have hdropeq : (order.drop (G.nodes.length - t)).toFinset =
        insert u done.toFinset := by
      have hkr : G.nodes.length - t = rest.length := by omega
      rw [hkr, drop_of_reverse_eq hrev, toFinset_cons_reverse]
    refine lccCurveStep_spec hwf hperm rest (done ++ [u])
      (by rw [hrev, List.append_assoc, List.singleton_append])
      (t + 1) (by simp only [List.length_append, List.length_cons,
        List.length_nil]; omega)
      (active.set (G.nodes.indexOf u) true) _ _ _
      (by rw [List.length_set]; exact hactlen)
      (fun i hi => by rw [hact' i hi, hdonetf])
      inv'
      (fun i j hi hj => by rw [hpartA' i j hi hj, hdonetf])
      (by rw [hmaxcc', hdonetf])
      (by rw [List.length_set]; exact htlen)
      (by rw [getD_set_ne _ _ (by omega : G.nodes.length - t ≠ G.nodes.length)]
          exact htn)
      ?_ |>.imp id (fun h => h.imp id ?_)
    · intro k hk hge
      by_cases hkt : k = G.nodes.length - t
      · rw [hkt, getD_set_self (by rw [htlen]; omega)]
        rw [← hdropeq] at hmaxcc'
        exact hmaxcc'
      · rw [getD_set_ne _ _ (fun h => hkt h.symm)]
        apply htk k hk
        simp only [List.length_append, List.length_cons, List.length_nil]
          at hge
        omega
    · intro h3 k hk hge
      apply h3 k hk
      simp only [List.length_append, List.length_cons, List.length_nil]
        at hge ⊢
      omega

/-- C1: the incremental union-find add-back curve of
`lcc_curve_static_dsu` equals, for every graph, fraction ladder, and
removal order over the graph's nodes, the naive oracle that removes each
fraction's prefix of the order and recomputes the normalized largest
connected component from scratch. -/
theorem lcc_curve_static_dsu_eq_naive (G : Graph) (hwf : G.Wf)
    (fracs : List ℚ) (order : List Nat) (hperm : order.Perm G.nodes) :
    lcc_curve_static_dsu G fracs order = naive_lcc_curve G fracs order := by
  unfold lcc_curve_static_dsu naive_lcc_curve
  simp only []
  by_cases hn : G.nodes.length = 0
  · rw [if_pos hn]
    apply List.map_congr_left
    intro f _
    rw [hn]
    simp
  · rw [if_neg hn]
    have hrl : order.reverse.length = G.nodes.length := by
      rw [List.length_reverse]
      exact hperm.length_eq
    have hempty : (G.subgraphOn (([] : List Nat)).toFinset).nodes = [] := by
      rw [List.toFinset_nil]
      unfold Graph.subgraphOn
      simp
    obtain ⟨hlen1, hgetn, hmain⟩ := lccCurveStep_spec hwf hperm
      order.reverse [] rfl 1 rfl
      (List.replicate G.nodes.length false) (DSU.init G.nodes.length) 0
      (List.replicate (G.nodes.length + 1) 0)
      (List.length_replicate _ _)
      (by
        intro i hi
        have hfalse : (List.replicate G.nodes.length false).getD i false =
            false := by simp [List.getD, hi]
        rw [hfalse, List.toFinset_nil]
        simp)
      (init_inv _)
      (by
        intro i j hi hj
        rw [init_rootD hi, init_rootD hj]
        constructor
        · exact fun h => Or.inl h
        · rintro (h | h)
          · exact h
          · rw [List.toFinset_nil] at h
            exact getD_inj hwf.1 hi hj (connG_subOn_empty h))
      ((lccCard_nil hempty).symm)
      (List.length_replicate _ _)
      (by simp [List.getD])
      (by
        intro k hk hge
        exfalso
        simp only [List.length_nil, Nat.sub_zero] at hge
        omega)
    apply List.map_congr_left
    intro f _
    have hkle := kOfFrac_le G.nodes.length f
    have hkey : (lccCurveStep G (idxOf G.nodes) G.nodes.length order.reverse
        (List.replicate G.nodes.length false, DSU.init G.nodes.length, 0,
          List.replicate (G.nodes.length + 1) 0) 1).2.2.2.getD
          (kOfFrac G.nodes.length f) 0 =
        lccCard ((order.take (kOfFrac G.nodes.length f)).foldl
          Graph.removeNode G) := by
      rw [removeNodes_eq_subgraphOn hwf hperm]
      by_cases hkn : kOfFrac G.nodes.length f < G.nodes.length
      · exact hmain _ hkn
          (by simp only [List.length_nil, Nat.zero_add, hrl]; omega)
      · have hkeq : kOfFrac G.nodes.length f = G.nodes.length := by omega
        have hdropnil : order.drop G.nodes.length = [] := by
          rw [← hperm.length_eq]
          exact List.drop_length order
        rw [hkeq, hgetn, hdropnil]
        exact (lccCard_nil hempty).symm
    rw [hkey]

/-- Witness: the path `0 - 1 - 2` with removal order `[1, 0, 2]` and
fraction samples `0, 1/2, 1`. -/
theorem lcc_curve_static_dsu_eq_naive_witness :
    (Graph.mk [0, 1, 2] [(0, 1), (1, 2)]).Wf ∧
    ([1, 0, 2] : List Nat).Perm (Graph.mk [0, 1, 2] [(0, 1), (1, 2)]).nodes ∧
    lcc_curve_static_dsu (Graph.mk [0, 1, 2] [(0, 1), (1, 2)])
        [0, 1/2, 1] [1, 0, 2] =
      naive_lcc_curve (Graph.mk [0, 1, 2] [(0, 1), (1, 2)])
        [0, 1/2, 1] [1, 0, 2] :=
  ⟨by decide, by decide,
    lcc_curve_static_dsu_eq_naive _ (by decide) _ _ (by decide)⟩

end Social


